import Mathlib

/-! # Futex engine of the guest kernel (`kernel/futex.c`)

A shallow embedding of the futex hash table, the wait / wake / requeue
primitives and the `sys_futex` dispatcher, followed by theorems about them.

Conventions of the embedding:

* `dword_t`, `addr_t` and `unsigned` values are natural numbers below `2 ^ 32`;
  an `int` is an `Int`; the conversions between them wrap explicitly.
* A `struct mem *` is the natural number of its address.  A `struct futex *`
  is the pair `(mem, addr)` of the key fields of the futex it points to; every
  read and write through such a pointer goes through the hash table, so two
  pointers to the same futex alias as they do in C.
* A `struct futex_wait *` is the natural number of the address of the record
  (it lives on the stack of the waiting thread).  A queue is the list of the
  records linked on it, front first.
* `lock` / `unlock` of `futex_lock` are not represented: every function below
  is one critical section, except `futex_wait`, which is split around the
  blocking `wait_for`.
* `malloc` is taken to succeed.  A failed `assert` or a dereference of a
  dangling pointer is the result `none`.
-/

set_option linter.unusedVariables false

namespace Ish

/-! ## Constants -/

def FUTEX_WAIT_ : Nat := 0
def FUTEX_WAKE_ : Nat := 1
def FUTEX_FD_ : Nat := 2
def FUTEX_REQUEUE_ : Nat := 3
def FUTEX_CMP_REQUEUE_ : Nat := 4
def FUTEX_WAKE_OP_ : Nat := 5
def FUTEX_LOCK_PI_ : Nat := 6
def FUTEX_UNLOCK_PI_ : Nat := 7
def FUTEX_TRYLOCK_PI_ : Nat := 8
def FUTEX_WAIT_BITSET_ : Nat := 9
def FUTEX_WAKE_BITSET_ : Nat := 10
def FUTEX_WAIT_REQUEUE_PI_ : Nat := 11
def FUTEX_CMP_REQUEUE_PI_ : Nat := 12
def FUTEX_PRIVATE_FLAG_ : Nat := 128
def FUTEX_CLOCK_REALTIME_ : Nat := 256

/-- The mask `~(FUTEX_PRIVATE_FLAG_ | FUTEX_CLOCK_REALTIME_)`, an `int` that is
converted to `unsigned` when it meets the `dword_t` operation word: all 32 bits
set except bits 7 and 8. -/
def FUTEX_CMD_MASK_ : Nat := 2 ^ 32 - 1 - (FUTEX_PRIVATE_FLAG_ ||| FUTEX_CLOCK_REALTIME_)

def FUTEX_HASH_BITS : Nat := 12
def FUTEX_HASH_SIZE : Nat := 1 <<< FUTEX_HASH_BITS

/-- The constant `MAX_PID` of `kernel/task.h`. -/
def MAX_PID : Nat := 1 <<< 15

/-- Modelled from the spec: the header `kernel/errno.h` is not part of the
sources at hand; the spec maps every error kind one-to-one to the Linux errno
of the same name, returned negated. -/
def _EPERM : Int := -1
/-- Modelled from the spec: Linux `EINTR`, negated (`kernel/errno.h` is absent). -/
def _EINTR : Int := -4
/-- Modelled from the spec: Linux `EAGAIN`, negated (`kernel/errno.h` is absent). -/
def _EAGAIN : Int := -11
/-- Modelled from the spec: Linux `EFAULT`, negated (`kernel/errno.h` is absent). -/
def _EFAULT : Int := -14
/-- Modelled from the spec: Linux `EINVAL`, negated (`kernel/errno.h` is absent). -/
def _EINVAL : Int := -22
/-- Modelled from the spec: Linux `ENOSYS`, negated (`kernel/errno.h` is absent). -/
def _ENOSYS : Int := -38
/-- Modelled from the spec: Linux `ETIMEDOUT`, negated (`kernel/errno.h` is absent). -/
def _ETIMEDOUT : Int := -110

/-! ## Machine integers -/

/-- Conversion of an `int` to `dword_t` (reduction modulo `2 ^ 32`). -/
def dword_of_int (x : Int) : Nat := (x % 2 ^ 32).toNat

/-- Conversion of an `unsigned` to `int` (two's complement). -/
def int_of_unsigned (x : Nat) : Int :=
  if x % 2 ^ 32 < 2 ^ 31 then ((x % 2 ^ 32 : Nat) : Int) else ((x % 2 ^ 32 : Nat) : Int) - 2 ^ 32

/-! ## Data model -/

/-- The record `struct futex`.  The `chain` link is the position of the record
in its bucket of `futex_hash`. -/
structure futex where
  refcount : Nat
  mem : Nat
  addr : Nat
  queue : List Nat
  deriving DecidableEq, Repr

/-- A pointer to a `struct futex`: the `mem` and `addr` of the record. -/
abbrev futex_ptr := Nat × Nat

/-- The fields of `struct task` that the futex code reads or writes. -/
structure task where
  pid : Nat
  mem : Nat
  robust_list : Nat
  io_block : Bool
  critical_region_count : Int
  deriving DecidableEq, Repr

/-- The host `struct timespec` handed to `wait_for`. -/
structure timespec where
  tv_sec : Int
  tv_nsec : Int
  deriving DecidableEq, Repr

/-- The state shared by all tasks.

* `futex_hash b` is the chain of bucket `b`, first entry first;
* `waits` holds, for every live `struct futex_wait`, the address of the record
  and its `futex` back pointer;
* `notified` is the trace of the conditions passed to `notify`, oldest first
  (the condition of a wait record is named by the address of the record);
* `mem_ptr m a` is the dword that `mem_ptr(m, a, MEM_READ)` points to, `none`
  when it returns `NULL`;
* `user_get_timespec m a` is the `struct timespec_` that `user_get` reads at
  guest address `a` of memory `m`, as the integers its fields `sec` and `nsec`
  denote, `none` when the read fails. -/
structure World where
  futex_hash : Nat → List futex
  waits : List (Nat × futex_ptr)
  notified : List Nat
  mem_ptr : Nat → Nat → Option Nat
  user_get_timespec : Nat → Nat → Option (Int × Int)

/-! ## Intrusive lists (`util/list.h`) -/

/-- Modelled from the spec: `util/list.h` is not part of the sources at hand.
`list_first_entry(list, ...)`: the entry after the list head, `none` standing
for the head itself (an empty list). -/
def list_first_entry (l : List Nat) : Option Nat := l.head?

/-- Modelled from the spec: `util/list.h` is not part of the sources at hand.
`list_next_entry(item, ...)` for an `item` linked on the list `l`: the entry
after it, `none` standing for the list head (when `item` is the last entry). -/
def list_next_entry : List Nat → Nat → Option Nat
  | [], _ => none
  | x :: xs, item => if x = item then xs.head? else list_next_entry xs item

/-- Does the record `f` carry the key that the pointer `p` stands for. -/
def futex.is (p : futex_ptr) (f : futex) : Bool :=
  decide (f.addr = p.2) && decide (f.mem = p.1)

/-- A write through a futex pointer, seen on the chain that holds the record:
the first record with the key of `p` is replaced by its image under `g`. -/
def chain_modify (p : futex_ptr) (g : futex → futex) : List futex → List futex
  | [] => []
  | f :: fs => if f.is p then g f :: fs else f :: chain_modify p g fs

/-- Modelled from the spec: `util/list.h` is not part of the sources at hand.
`list_remove(&futex->chain)`, seen on the chain that holds the record: the
record that `p` points to is unlinked, the others keep their order. -/
def chain_remove (p : futex_ptr) : List futex → List futex
  | [] => []
  | f :: fs => if f.is p then fs else f :: chain_remove p fs

/-- The bucket index computed at the top of `futex_get_unlocked`. -/
def futex_hash_index (addr mem : Nat) : Nat := (addr ^^^ mem) % FUTEX_HASH_SIZE

namespace World

/-- Read through a futex pointer: the first record with that key on the chain
of its bucket (what the lookup loop of `futex_get_unlocked` finds). -/
def deref (s : World) (p : futex_ptr) : Option futex :=
  (s.futex_hash (futex_hash_index p.2 p.1)).find? (futex.is p)

/-- Write through a futex pointer. -/
def modify (s : World) (p : futex_ptr) (g : futex → futex) : World :=
  let hash := futex_hash_index p.2 p.1
  { s with futex_hash := Function.update s.futex_hash hash (chain_modify p g (s.futex_hash hash)) }

/-- The queue `futex->queue` behind a pointer (empty when there is no such futex). -/
def queue_of (s : World) (p : futex_ptr) : List Nat :=
  match s.deref p with
  | some f => f.queue
  | none => []

/-- The `refcount` behind a pointer (`0` when there is no such futex). -/
def refcount_of (s : World) (p : futex_ptr) : Nat :=
  match s.deref p with
  | some f => f.refcount
  | none => 0

/-- Modelled from the spec: `util/list.h` is not part of the sources at hand.
`list_remove(&wait->queue)`: the record is unlinked from the queue it is on.
The call does not name the queue, so the record is erased from wherever it is
linked. -/
def list_remove (s : World) (wait : Nat) : World :=
  let unlink : futex → futex := fun f => { f with queue := f.queue.erase wait }
  { s with futex_hash := fun b => (s.futex_hash b).map unlink }

/-- Modelled from the spec: `util/list.h` is not part of the sources at hand.
`list_remove_safe(&wait->queue)`: `list_remove` unless the links of the record
are null, that is, unless the record is on no queue, where there is nothing
to erase. -/
def list_remove_safe (s : World) (wait : Nat) : World := s.list_remove wait

/-- Modelled from the spec: `util/list.h` is not part of the sources at hand.
`list_add_tail(&futex->queue, &wait->queue)`. -/
def list_add_tail (s : World) (p : futex_ptr) (wait : Nat) : World :=
  s.modify p (fun f => { f with queue := f.queue ++ [wait] })

/-- Modelled from the spec: the condition primitives are external.
`notify(&wait->cond)`, recorded on the trace. -/
def notify (s : World) (wait : Nat) : World :=
  { s with notified := s.notified ++ [wait] }

/-- The assignment `wait->futex = p` to a live wait record. -/
def set_wait_futex (s : World) (wait : Nat) (p : futex_ptr) : World :=
  { s with waits := s.waits.map (fun e => if e.1 = wait then (wait, p) else e) }

/-- The read `wait->futex` of a live wait record. -/
def wait_futex (s : World) (wait : Nat) : Option futex_ptr :=
  s.waits.lookup wait

end World

/-! ## Task bookkeeping (`kernel/task.h`) -/

/-- Modelled from the spec: `kernel/resource_locking.h` is not part of the
sources at hand.  `modify_critical_region_counter(task, value, ...)` adds
`value` to the nested critical-region count of the task. -/
def modify_critical_region_counter (t : task) (value : Int) : task :=
  { t with critical_region_count := t.critical_region_count + value }

/-- The function `task_may_block_start` of `kernel/task.h`, on `current`. -/
def task_may_block_start (current : task) : task :=
  { modify_critical_region_counter current 1 with io_block := true }

/-- The function `task_may_block_end` of `kernel/task.h`, on `current`. -/
def task_may_block_end (current : task) : task :=
  modify_critical_region_counter { current with io_block := false } (-1)

/-! ## The futex table (`kernel/futex.c`) -/

/-- The function `futex_get_unlocked`: look the key `(current->mem, addr)` up
on the chain of its bucket; take a reference on the futex found, or link a new
futex with `refcount = 1` and an empty queue at the front of the chain
(`list_add`).  The result is the pointer and the new state. -/
def futex_get_unlocked (current : task) (addr : Nat) (s : World) : futex_ptr × World :=
  let hash := futex_hash_index addr current.mem
  let bucket := s.futex_hash hash
  match bucket.find? (futex.is (current.mem, addr)) with
  | some _ =>
    ((current.mem, addr),
      s.modify (current.mem, addr) (fun f => { f with refcount := (f.refcount + 1) % 2 ^ 32 }))
  | none =>
    let futex : futex := { refcount := 1, mem := current.mem, addr := addr, queue := [] }
    ((current.mem, addr), { s with futex_hash := Function.update s.futex_hash hash (futex :: bucket) })

/-- The function `futex_get`: `futex_get_unlocked` under `futex_lock`. -/
def futex_get (current : task) (addr : Nat) (s : World) : futex_ptr × World :=
  futex_get_unlocked current addr s

/-- The function `futex_put_unlocked`: drop a reference; when the count reaches
zero, `assert` that the queue is empty, unlink the futex from its chain and
free it. -/
def futex_put_unlocked (p : futex_ptr) (s : World) : Option World :=
  match s.deref p with
  | none => none
  | some f =>
    let refcount := (f.refcount + 2 ^ 32 - 1) % 2 ^ 32
    if refcount = 0 then
      if f.queue.isEmpty then
        let hash := futex_hash_index p.2 p.1
        some { s with futex_hash := Function.update s.futex_hash hash (chain_remove p (s.futex_hash hash)) }
      else none
    else some (s.modify p (fun f => { f with refcount := refcount }))

/-- The function `futex_put`: `futex_put_unlocked`, then release `futex_lock`. -/
def futex_put (p : futex_ptr) (s : World) : Option World :=
  futex_put_unlocked p s

/-- The function `futex_load`: after the `assert` that the futex belongs to the
memory of `current`, the dword at the address of the futex in that memory.
`some none` is the result `1` (`mem_ptr` returned `NULL`), `some (some v)` the
result `0` with `*out = v`. -/
def futex_load (current : task) (p : futex_ptr) (s : World) : Option (Option Nat) :=
  if p.1 = current.mem then some (s.mem_ptr current.mem p.2) else none

/-- The first loop of `futex_wakelike`.  `wait` is the loop cursor, `none`
when it has come back to the head `&futex->queue`; `tmp` is read from the
links of `wait` before the body runs.  `fuel` bounds the number of passes.
The `unsigned` counter `woken` cannot wrap: it is below the dword `wake_max`
when it is incremented. -/
def wake_loop (futex : futex_ptr) (wake_max : Nat) :
    Nat → Option Nat → Nat → World → Option (Nat × World)
  | 0, _, _, _ => none
  | _ + 1, none, woken, s => some (woken, s)
  | fuel + 1, some wait, woken, s =>
    let tmp := list_next_entry (s.queue_of futex) wait
    if woken ≥ wake_max then some (woken, s)
    else
      let s := s.notify wait
      let s := s.list_remove wait
      wake_loop futex wake_max fuel tmp (woken + 1) s

/-- The second loop of `futex_wakelike` (the requeue loop), with the same
conventions as `wake_loop`. -/
def requeue_loop (futex futex2 : futex_ptr) (requeue_max : Nat) :
    Nat → Option Nat → Nat → World → Option (Nat × World)
  | 0, _, _, _ => none
  | _ + 1, none, requeued, s => some (requeued, s)
  | fuel + 1, some wait, requeued, s =>
    let tmp := list_next_entry (s.queue_of futex) wait
    if requeued ≥ requeue_max then some (requeued, s)
    else
      let s := s.list_remove wait
      let s := s.list_add_tail futex2 wait
      if s.refcount_of futex > 1 then
        let s := s.modify futex (fun f => { f with refcount := (f.refcount + 2 ^ 32 - 1) % 2 ^ 32 })
        let s := s.modify futex2 (fun f => { f with refcount := (f.refcount + 1) % 2 ^ 32 })
        let s := s.set_wait_futex wait futex2
        requeue_loop futex futex2 requeue_max fuel tmp (requeued + 1) s
      else none

/-- The function `futex_wakelike`.  The loops are run with fuel one above
their bound `wake_max` (`requeue_max`): every pass but the last adds one to a
counter that stops the loop at the bound. -/
def futex_wakelike (current : task) (op : Int) (uaddr wake_max requeue_max requeue_addr : Nat)
    (s : World) : Option (Int × World) :=
  let (futex, s) := futex_get current uaddr s
  match wake_loop futex wake_max (wake_max + 1) (list_first_entry (s.queue_of futex)) 0 s with
  | none => none
  | some (woken, s) =>
    let r : Option (Nat × World) :=
      if op = (FUTEX_REQUEUE_ : Int) then
        let (futex2, s) := futex_get_unlocked current requeue_addr s
        match requeue_loop futex futex2 requeue_max (requeue_max + 1)
            (list_first_entry (s.queue_of futex)) 0 s with
        | none => none
        | some (requeued, s) =>
          match futex_put_unlocked futex2 s with
          | none => none
          | some s => some ((woken + requeued) % 2 ^ 32, s)
      else some (woken, s)
    match r with
    | none => none
    | some (woken, s) =>
      match futex_put futex s with
      | none => none
      | some s => some (int_of_unsigned woken, s)

/-- The function `futex_wake`. -/
def futex_wake (current : task) (uaddr wake_max : Nat) (s : World) : Option (Int × World) :=
  futex_wakelike current FUTEX_WAKE_ uaddr wake_max 0 0 s

/-- The part of `futex_wait` that runs when the compare succeeds, up to the
call of `wait_for`: the wait record at address `wait` gets its back pointer
and is linked at the tail of the queue. -/
def futex_wait_enqueue (futex : futex_ptr) (wait : Nat) (s : World) : World :=
  let s := { s with waits := (wait, futex) :: s.waits }
  s.list_add_tail futex wait

/-- The part of `futex_wait` that runs after `wait_for` has returned: read the
back pointer (a requeue may have changed it), unlink the record if it is still
linked, and leave the block; the record dies with the stack frame. -/
def futex_wait_resume (wait : Nat) (s : World) : Option (futex_ptr × World) :=
  match s.wait_futex wait with
  | none => none
  | some futex =>
    let s := s.list_remove_safe wait
    some (futex, { s with waits := s.waits.filter (fun e => e.1 ≠ wait) })

/-- The function `futex_wait`.  `wait` is the address of the local
`struct futex_wait`.  `wait_for cond timeout s` is the external blocking
primitive: called in state `s` (it releases `futex_lock` while it sleeps), it
returns its result together with the state in which the caller runs again. -/
def futex_wait (wait_for : Nat → Option timespec → World → Int × World) (current : task)
    (wait : Nat) (uaddr val : Nat) (timeout : Option timespec) (s : World) :
    Option (Int × task × World) :=
  let (futex, s) := futex_get current uaddr s
  match futex_load current futex s with
  | none => none
  | some none =>
    match futex_put futex s with
    | none => none
    | some s => some (_EFAULT, current, s)
  | some (some tmp) =>
    if tmp ≠ val then
      match futex_put futex s with
      | none => none
      | some s => some (_EAGAIN, current, s)
    else
      let s := futex_wait_enqueue futex wait s
      let current := task_may_block_start current
      let (err, s) := wait_for wait timeout s
      let current := task_may_block_end current
      match futex_wait_resume wait s with
      | none => none
      | some (futex, s) =>
        match futex_put futex s with
        | none => none
        | some s => some (err, current, s)

/-- The function `sys_futex`.  The result is the `dword_t` returned, the
fields of `current` and the state afterwards.  Logging (`STRACE`, `FIXME`) is
not represented. -/
def sys_futex (wait_for : Nat → Option timespec → World → Int × World) (current : task)
    (wait : Nat) (uaddr op val timeout_or_val2 uaddr2 val3 : Nat) (s : World) :
    Option (Nat × task × World) :=
  let cmd := op &&& FUTEX_CMD_MASK_
  let timeout0 : timespec := { tv_sec := 0, tv_nsec := 0 }
  let got : Option timespec :=
    if cmd = FUTEX_WAIT_ ∧ timeout_or_val2 ≠ 0 then
      match s.user_get_timespec current.mem timeout_or_val2 with
      | none => none
      | some timeout_ => some { tv_sec := timeout_.1, tv_nsec := timeout_.2 }
    else some timeout0
  match got with
  | none => some (dword_of_int _EFAULT, current, s)
  | some timeout =>
    if cmd = FUTEX_WAIT_ then
      let current := modify_critical_region_counter current 1
      match futex_wait wait_for current wait uaddr val
          (if timeout_or_val2 ≠ 0 then some timeout else none) s with
      | none => none
      | some (return_val, current, s) =>
        some (dword_of_int return_val, modify_critical_region_counter current (-1), s)
    else if cmd = FUTEX_WAKE_ then
      match futex_wakelike current (int_of_unsigned cmd) uaddr val 0 0 s with
      | none => none
      | some (r, s) => some (dword_of_int r, current, s)
    else if cmd = FUTEX_REQUEUE_ then
      match futex_wakelike current (int_of_unsigned cmd) uaddr val timeout_or_val2 uaddr2 s with
      | none => none
      | some (r, s) => some (dword_of_int r, current, s)
    else some (dword_of_int _ENOSYS, current, s)

/-! ## Well-formed states

The states the code can be in while `futex_lock` is free: what the pointer
structure of the C data guarantees by construction (a record is linked on one
list at a time, a back pointer is a live futex) together with the reference
counting discipline. -/

/-- Well-formedness of the shared state between two critical sections. -/
structure World.wf (s : World) : Prop where
  /-- every futex is on the chain of the bucket of its key -/
  bucket : ∀ b f, f ∈ s.futex_hash b → futex_hash_index f.addr f.mem = b
  /-- no two futexes on a chain carry the same key -/
  unique : ∀ b, (s.futex_hash b).Pairwise (fun f g => ¬ (f.mem = g.mem ∧ f.addr = g.addr))
  /-- a wait record is linked once at most -/
  queue_nodup : ∀ b f, f ∈ s.futex_hash b → f.queue.Nodup
  /-- a queued wait record is live and points back to the futex it is queued on -/
  queue_waits : ∀ b f, f ∈ s.futex_hash b → ∀ w ∈ f.queue, (w, (f.mem, f.addr)) ∈ s.waits
  /-- the reference count is the number of live wait records pointing to the futex -/
  refcount : ∀ b f, f ∈ s.futex_hash b →
    f.refcount = (s.waits.filter (fun e => decide (e.2 = (f.mem, f.addr)))).length
  /-- a futex without references is not in the table -/
  refcount_pos : ∀ b f, f ∈ s.futex_hash b → 0 < f.refcount
  /-- live wait records have distinct addresses -/
  waits_nodup : (s.waits.map Prod.fst).Nodup
  /-- the back pointer of a live wait record is a futex of the table -/
  waits_live : ∀ e ∈ s.waits, (s.deref e.2).isSome = true
  /-- every live wait record belongs to a task blocked in `futex_wait` -/
  waits_bound : s.waits.length ≤ MAX_PID

/-- The part of well-formedness that lookups rely on: keys are unique on
every chain, and every futex is on the chain of the bucket of its key. -/
def World.chains_ok (s : World) : Prop :=
  (∀ b, (s.futex_hash b).Pairwise (fun f g => ¬ (f.mem = g.mem ∧ f.addr = g.addr)))
  ∧ (∀ b f, f ∈ s.futex_hash b → futex_hash_index f.addr f.mem = b)

/-- A function on futex records that leaves the key fields alone. -/
def keeps_key (g : futex → futex) : Prop :=
  ∀ f, (g f).mem = f.mem ∧ (g f).addr = f.addr

/-- The number of waiters queued on the source and on the destination of a
requeue (one queue when the two addresses are the same). -/
def World.queued_total (s : World) (p p2 : futex_ptr) : Nat :=
  (s.queue_of p).length + (if p2 = p then 0 else (s.queue_of p2).length)

/-- One pass of the body of the requeue loop on the waiter `wait` under the
cursor (the statements of `requeue_loop` between the `break` test and the next
pass, the `assert` left out). -/
def requeue_body (futex futex2 : futex_ptr) (wait : Nat) (s : World) : World :=
  let s := s.list_remove wait
  let s := s.list_add_tail futex2 wait
  let s := s.modify futex (fun f => { f with refcount := (f.refcount + 2 ^ 32 - 1) % 2 ^ 32 })
  let s := s.modify futex2 (fun f => { f with refcount := (f.refcount + 1) % 2 ^ 32 })
  s.set_wait_futex wait futex2

/-- A state given by the list of the futexes in its table, each placed on the
chain of the bucket of its key, with an empty `notify` trace. -/
def World.of_table (fs : List futex) (waits : List (Nat × futex_ptr))
    (mem_ptr : Nat → Nat → Option Nat) (user_get_timespec : Nat → Nat → Option (Int × Int)) :
    World :=
  { futex_hash := fun b => fs.filter (fun f => decide (futex_hash_index f.addr f.mem = b))
    waits := waits
    notified := []
    mem_ptr := mem_ptr
    user_get_timespec := user_get_timespec }

/-- A decision procedure for the well-formedness of `World.of_table fs waits`. -/
def table_ok (fs : List futex) (waits : List (Nat × futex_ptr)) : Bool :=
  decide (fs.Pairwise (fun f g => ¬ (f.mem = g.mem ∧ f.addr = g.addr)))
  && fs.all (fun f => decide f.queue.Nodup
      && f.queue.all (fun w => decide ((w, (f.mem, f.addr)) ∈ waits))
      && decide (f.refcount = (waits.filter (fun e => decide (e.2 = (f.mem, f.addr)))).length)
      && decide (0 < f.refcount))
  && decide (waits.map Prod.fst).Nodup
  && waits.all (fun e => fs.any (fun f => f.is e.2))
  && decide (waits.length ≤ MAX_PID)

/-! ## Example states -/

/-- A task with pid 42 whose memory space is the one at address 1000. -/
def ex_task : task :=
  { pid := 42, mem := 1000, robust_list := 0, io_block := false, critical_region_count := 0 }

/-- The futexes of `ex_world`: five waiters `1 .. 5` queued on address 16 of
memory space 1000, and one waiter `6` on the same address 16 of another memory
space, 5096, whose key falls into the same bucket. -/
def ex_table : List futex :=
  [{ refcount := 5, mem := 1000, addr := 16, queue := [1, 2, 3, 4, 5] },
   { refcount := 1, mem := 5096, addr := 16, queue := [6] }]

/-- The live wait records of `ex_world`. -/
def ex_waits : List (Nat × futex_ptr) :=
  [(6, (5096, 16)), (5, (1000, 16)), (4, (1000, 16)), (3, (1000, 16)), (2, (1000, 16)),
   (1, (1000, 16))]

/-- A state with waiters.  The guest word at address 16 is 0 and the one at
address 48 is 7, other addresses are unmapped; the guest `timespec` at address
64 is `{0, 2000000000}`. -/
def ex_world : World :=
  World.of_table ex_table ex_waits
    (fun _ a => if a = 16 then some 0 else if a = 48 then some 7 else none)
    (fun _ a => if a = 64 then some (0, 2000000000) else none)

/-- A `wait_for` whose deadline passes at once: nothing else runs, the result
is `_ETIMEDOUT`. -/
def wait_for_timeout : Nat → Option timespec → World → Int × World :=
  fun _ _ s => (_ETIMEDOUT, s)

/-! ## Guest memory writes and the robust list (`kernel/futex.c`) -/

/-- Modelled from the spec: the guest memory manager is external.  The memory
of the calling task as `user_put` sees it: the content of every byte and
whether `mem_ptr(…, MEM_WRITE)` yields a pointer for it. -/
structure guest_mem where
  byte : Nat → Nat
  writable : Nat → Bool

/-- The dword stored little-endian in the four bytes at `addr`. -/
def guest_mem.load (m : guest_mem) (addr : Nat) : Nat :=
  m.byte addr + 256 * m.byte (addr + 1) + 65536 * m.byte (addr + 2)
    + 16777216 * m.byte (addr + 3)

/-- The bytes of memory after the four bytes of `value` have been stored
little-endian at `addr`. -/
def store_dword (byte : Nat → Nat) (addr value : Nat) : Nat → Nat :=
  fun a =>
    if a = addr then value % 256
    else if a = addr + 1 then value / 256 % 256
    else if a = addr + 2 then value / 65536 % 256
    else if a = addr + 3 then value / 16777216 % 256
    else byte a

/-- Modelled from the spec: the macro `user_put(addr, var)` of `kernel/calls.h`
is not part of the sources at hand.  For a 4-byte `var` holding `value` it
stores the four bytes of the value, little-endian, at `addr`; `none` is the
nonzero result (some byte is not writable), which the callers turn into
`_EFAULT`. -/
def user_put (m : guest_mem) (addr value : Nat) : Option guest_mem :=
  if m.writable addr ∧ m.writable (addr + 1) ∧ m.writable (addr + 2) ∧ m.writable (addr + 3) then
    some { m with byte := store_dword m.byte addr value }
  else none

/-- The size `sizeof(struct robust_list_head_)`: the three 4-byte fields
`list` (`addr_t`), `offset` (`dword_t`) and `list_op_pending` (`addr_t`). -/
def sizeof_robust_list_head_ : Nat := 4 + 4 + 4

/-- The function `sys_set_robust_list`: the `int_t` returned and the fields of
`current` afterwards. -/
def sys_set_robust_list (current : task) (robust_list len : Nat) : Int × task :=
  if len ≠ sizeof_robust_list_head_ then (_EINVAL, current)
  else (0, { current with robust_list := robust_list })

/-- The function `sys_get_robust_list`.  `pid_get_task id` is the external
lookup of `kernel/task.h` (the address of the task found, `none` for `NULL`),
called with the `pid_t_` argument converted to `dword_t`; `current_addr` is
the value of the pointer `current` and `current` the task it points to.  The
result is the `int_t` returned and the guest memory afterwards. -/
def sys_get_robust_list (pid_get_task : Nat → Option Nat) (current_addr : Nat) (current : task)
    (pid : Int) (robust_list_ptr len_ptr : Nat) (m : guest_mem) : Int × guest_mem :=
  let task := pid_get_task (dword_of_int pid)
  if task ≠ some current_addr then (_EPERM, m)
  else
    match user_put m robust_list_ptr current.robust_list with
    | none => (_EFAULT, m)
    | some m1 =>
      match user_put m1 len_ptr sizeof_robust_list_head_ with
      | none => (_EFAULT, m1)
      | some m2 => (0, m2)

/-- A guest memory with every byte zero and the addresses below 4096 writable. -/
def ex_mem : guest_mem := { byte := fun _ => 0, writable := fun a => decide (a < 4096) }

/-- A pid table in which pid 42 is the task at address 7000 and pid 43 the
task at address 7100. -/
def ex_pid_get_task : Nat → Option Nat :=
  fun id => if id = 42 then some 7000 else if id = 43 then some 7100 else none

/-! ## Text generation (`fs/proc/root.c`) -/

/-- The terminator of a C string. -/
def NUL : Char := Char.ofNat 0

/-- The C string held by a sequence of characters in memory: the characters
before the first `NUL`.  The end of the sequence counts as a terminator. -/
def c_str (s : List Char) : List Char := s.takeWhile (fun c => c != NUL)

/-- The conversion `%u` of `printf`: an `unsigned` in decimal. -/
def fmt_u (n : Nat) : List Char := Nat.toDigits 10 n

/-- The conversion `%03o` of `printf`: an `unsigned` in octal, padded with
zeros on the left to at least three digits. -/
def fmt_03o (n : Nat) : List Char :=
  let digits := Nat.toDigits 8 n
  List.replicate (3 - digits.length) '0' ++ digits

/-- The conversion `%c` of `printf`. -/
def fmt_c (c : Char) : List Char := [c]

/-- The conversion `%s` of `printf`: the characters of a C string. -/
def fmt_s (s : List Char) : List Char := c_str s

/-- Modelled from the spec: `proc_printf` of `fs/proc.h` is not part of the
sources at hand.  It appends the formatted text to the growable buffer of the
`struct proc_data`; `text` is the text that `printf` produces for the format
and the arguments of the call. -/
def proc_printf (buf text : List Char) : List Char := buf ++ text

/-- The function `proc_print_escaped`: the loop over `str[i]` up to the
terminator. -/
def proc_print_escaped (buf : List Char) : List Char → List Char
  | [] => buf
  | c :: str =>
    if c = NUL then buf
    else if c = '\t' ∨ c = ' ' ∨ c = '\\' then
      proc_print_escaped (proc_printf buf ('\\' :: fmt_03o c.toNat)) str
    else proc_print_escaped (proc_printf buf (fmt_c c)) str

/-- The fields of `struct fs_ops` that the proc files read. -/
structure fs_ops where
  name : List Char

/-- The fields of `struct mount` that `proc_show_mounts` reads. -/
structure mount where
  point : List Char
  source : List Char
  fs : fs_ops
  flags : Nat
  info : List Char

/-- Modelled from the spec: the mount flag bits are declared outside the
sources at hand; they are taken as the four lowest bits, in the order of the
Linux flags `MS_RDONLY`, `MS_NOSUID`, `MS_NODEV`, `MS_NOEXEC`. -/
def MS_READONLY_ : Nat := 1 <<< 0

/-- Modelled from the spec: see `MS_READONLY_`. -/
def MS_NOSUID_ : Nat := 1 <<< 1

/-- Modelled from the spec: see `MS_READONLY_`. -/
def MS_NODEV_ : Nat := 1 <<< 2

/-- Modelled from the spec: see `MS_READONLY_`. -/
def MS_NOEXEC_ : Nat := 1 <<< 3

/-- The macro `proc_printf_comma(buf, at_start, format, ...)`: `text` is the
text of `format` with its arguments; the result is the buffer and the new
value of `*at_start`. -/
def proc_printf_comma (buf : List Char) (at_start : Bool) (text : List Char) :
    List Char × Bool :=
  (proc_printf buf (fmt_s (if at_start then [] else [',']) ++ text), false)

/-- The body of the loop of `proc_show_mounts` for one mount. -/
def proc_show_mounts_entry (buf : List Char) (mount : mount) : List Char :=
  let point := if mount.point.headD NUL = NUL then ['/'] else mount.point
  let buf := proc_print_escaped buf mount.source
  let buf := proc_printf buf [' ']
  let buf := proc_print_escaped buf point
  let buf := proc_printf buf ([' '] ++ fmt_s mount.fs.name ++ [' '])
  let at_start := true
  let r := proc_printf_comma buf at_start
    (fmt_s (if mount.flags &&& MS_READONLY_ ≠ 0 then ['r', 'o'] else ['r', 'w']))
  let r := if mount.flags &&& MS_NOSUID_ ≠ 0 then
    proc_printf_comma r.1 r.2 ['n', 'o', 's', 'u', 'i', 'd'] else r
  let r := if mount.flags &&& MS_NODEV_ ≠ 0 then
    proc_printf_comma r.1 r.2 ['n', 'o', 'd', 'e', 'v'] else r
  let r := if mount.flags &&& MS_NOEXEC_ ≠ 0 then
    proc_printf_comma r.1 r.2 ['n', 'o', 'e', 'x', 'e', 'c'] else r
  let r := if mount.info.headD NUL ≠ NUL then
    proc_printf_comma r.1 r.2 (fmt_s mount.info) else r
  proc_printf r.1 [' ', '0', ' ', '0', '\n']

/-- The function `proc_show_mounts`: `mounts` is the global list of mounts in
list order; the result is the `int` returned and the buffer. -/
def proc_show_mounts (buf : List Char) (mounts : List mount) : Int × List Char :=
  (0, mounts.foldl proc_show_mounts_entry buf)

/-- Modelled from the spec: the record `struct uptime_info` that `get_uptime`
returns, `{uptime_ticks, load_1m, load_5m, load_15m}`, the loads as 16.16
fixed point; the fields are taken as 64-bit unsigned. -/
structure uptime_info where
  uptime_ticks : Nat
  load_1m : Nat
  load_5m : Nat
  load_15m : Nat

/-- The function `proc_show_uptime`; `uptime_info` is the value of
`get_uptime()`, narrowed to `unsigned` by the assignment to `uptime`. -/
def proc_show_uptime (buf : List Char) (uptime_info : uptime_info) : Int × List Char :=
  let uptime := uptime_info.uptime_ticks % 2 ^ 32
  (0, proc_printf buf (fmt_u (uptime / 100) ++ ['.'] ++ fmt_u (uptime % 100) ++ [' ']
    ++ fmt_u (uptime / 100) ++ ['.'] ++ fmt_u (uptime % 100) ++ ['\n']))

/-- The value of the `double` that the conversion of a 64-bit unsigned
integer yields: the integer itself below `2 ^ 53`, otherwise the nearest
integer with 53 significant bits, ties to the even one. -/
def double_of_uint64 (n : Nat) : Nat :=
  let n := n % 2 ^ 64
  let e : Nat := ((List.range 12).find? (fun e => decide (n / 2 ^ e < 2 ^ 53))).getD 11
  let q := n / 2 ^ e
  let r := n % 2 ^ e
  let q := if 2 * r < 2 ^ e then q else if 2 ^ e < 2 * r then q + 1
    else if q % 2 = 0 then q else q + 1
  q * 2 ^ e

/-- The number of hundredths that `%.2f` prints for the value `num / den`:
the nearest one, ties to the even one. -/
def round_hundredths (num den : Nat) : Nat :=
  let q := num * 100 / den
  let r := num * 100 % den
  if 2 * r < den then q else if den < 2 * r then q + 1 else if q % 2 = 0 then q else q + 1

/-- The conversion `%.2f` of `printf` for the `double` of value `num / den`
(`den` a power of two, so that the quotient is exact): the integer part, a
point, and two decimals. -/
def fmt_2f (num den : Nat) : List Char :=
  let h := round_hundredths num den
  fmt_u (h / 100) ++ ['.'] ++ Nat.toDigits 10 (h / 10 % 10) ++ Nat.toDigits 10 (h % 10)

/-- The function `proc_show_loadavg`.  `uptime` is the value of
`get_uptime()`, `last_pid` the `id` of the record that
`pid_get_last_allocated()` points to (`none` for `NULL`), `blocked` and
`alive` the `dword_t` values of `get_count_of_blocked_tasks()` and
`get_count_of_alive_tasks()`, `cpu_count` the `int` of `get_cpu_count()`.
Each load is `double_of_uint64 load / 65536.0`; the three `int` variables are
printed with `%u`. -/
def proc_show_loadavg (buf : List Char) (uptime : uptime_info) (last_pid : Option Nat)
    (blocked alive : Nat) (cpu_count : Int) : Int × List Char :=
  let last_pid_id : Int :=
    match last_pid with
    | some id => int_of_unsigned id
    | none => 0
  let load_1m := double_of_uint64 uptime.load_1m
  let load_5m := double_of_uint64 uptime.load_5m
  let load_15m := double_of_uint64 uptime.load_15m
  let blocked_task_count : Int := int_of_unsigned blocked
  let alive_task_count : Int := int_of_unsigned alive
  let running_task_count : Int :=
    min cpu_count (int_of_unsigned (dword_of_int (alive_task_count - blocked_task_count)))
  (0, proc_printf buf (fmt_2f load_1m 65536 ++ [' '] ++ fmt_2f load_5m 65536 ++ [' ']
    ++ fmt_2f load_15m 65536 ++ [' '] ++ fmt_u (dword_of_int running_task_count) ++ ['/']
    ++ fmt_u (dword_of_int alive_task_count) ++ [' '] ++ fmt_u (dword_of_int last_pid_id)
    ++ ['\n']))

/-- The table `enumerated` of `parse_edx_flags`. -/
def enumerated : List (List Char) :=
  ["fpu ", "vme ", "de ", "pse ", "tsc ", "msr ", "pae ", "mce ", "cx8 ", "apic ", "Reserved ",
    "sep ", "mtrr ", "pge ", "mca ", "cmov ", "", "pse-36 ", "psn ", "clfsh ", "Reserved ",
    "ds ", "acpi ", "mmx ", "fxsr ", "sse ", "sse2 ", "ss ", "htt ", "tm ", "Reserved ",
    "pbe "].map String.toList

/-- The call `memcpy(dst, src, n)` with `n` the length of `src`, on a memory of
characters indexed by address. -/
def memcpy (mem : Nat → Char) (dst : Nat) (src : List Char) : Nat → Char :=
  fun a => if dst ≤ a then src.getD (a - dst) (mem a) else mem a

/-- The body of the loop of `parse_edx_flags` for bit `i`, on the memory and
`offset`.  `1 << i` is brought to the 32 bits of `dword_t` for the `&`. -/
def parse_edx_flags_step (edx edx_flags : Nat) (st : (Nat → Char) × Nat) (i : Nat) :
    (Nat → Char) × Nat :=
  if edx % 2 ^ 32 &&& (1 <<< i) % 2 ^ 32 ≠ 0 then
    let enum_len := (c_str (enumerated.getD i [])).length
    (memcpy st.1 (edx_flags + st.2) ((enumerated.getD i []).take enum_len), st.2 + enum_len)
  else st

/-- The function `parse_edx_flags`: the memory after the call, `edx_flags`
being the address of the buffer. -/
def parse_edx_flags (edx : Nat) (mem : Nat → Char) (edx_flags : Nat) : Nat → Char :=
  let st := (List.range 32).foldl (parse_edx_flags_step edx edx_flags) (mem, 0)
  Function.update st.1 (edx_flags + st.2) NUL

/-- The characters of the `len` addresses from `addr` on. -/
def read_chars (mem : Nat → Char) (addr len : Nat) : List Char :=
  (List.range len).map (fun j => mem (addr + j))

/-- The flag text that the claim describes: for the bits `0..31` in ascending
order, the mnemonic of every bit that is set in `edx`. -/
def edx_flags_text (edx : Nat) : List Char :=
  (List.range 32).flatMap (fun i => if edx.testBit i then enumerated.getD i [] else [])

/-- The `st_mode` type bits of a directory. -/
def S_IFDIR : Nat := 16384

/-- The `st_mode` type bits of a symbolic link. -/
def S_IFLNK : Nat := 40960

/-- The generator of a `struct proc_dir_entry`: which of the members `show`,
`children` and `readlink` the initialiser sets. -/
inductive proc_generator where
  | show
  | children
  | readlink
  deriving DecidableEq

/-- The fields of `struct proc_dir_entry` that the table `proc_root_entries`
sets: the name, the mode, and the generator. -/
structure proc_dir_entry where
  name : List Char
  mode : Nat
  generator : proc_generator
  deriving DecidableEq

/-- The table `proc_root_entries`. -/
def proc_root_entries : List proc_dir_entry :=
  [ ⟨"cpuinfo".toList, 0, .show⟩,
    ⟨"diskstats".toList, 0, .show⟩,
    ⟨"filesystems".toList, 0, .show⟩,
    ⟨"ish".toList, S_IFDIR, .children⟩,
    ⟨"loadavg".toList, 0, .show⟩,
    ⟨"meminfo".toList, 0, .show⟩,
    ⟨"mounts".toList, 0, .show⟩,
    ⟨"net".toList, S_IFDIR, .children⟩,
    ⟨"self".toList, S_IFLNK, .readlink⟩,
    ⟨"stat".toList, 0, .show⟩,
    ⟨"sys".toList, S_IFDIR, .children⟩,
    ⟨"uptime".toList, 0, .show⟩,
    ⟨"version".toList, 0, .show⟩,
    ⟨"vmstat".toList, 0, .show⟩ ]

/-- The macro `PROC_ROOT_LEN`. -/
def PROC_ROOT_LEN : Nat := proc_root_entries.length

/-- The two values that `proc_root_readdir` stores in `*next_entry`:
`{&proc_root_entries[i], i, NULL, NULL, 0, 0}` and `{&proc_pid, .pid = pid}`. -/
inductive proc_entry where
  | root_entry (i : Nat)
  | pid_entry (pid : Int)
  deriving DecidableEq

/-- What a call of `proc_root_readdir` leaves: the `bool` returned, `*index`,
the value stored in `*next_entry` (`none` when nothing is stored), and the
fields of `current`. -/
structure readdir_result where
  ret : Bool
  index : Nat
  next_entry : Option proc_entry
  current : task
  deriving DecidableEq

/-- Conversion of an `int` to the 64-bit `unsigned long`. -/
def ulong_of_int (x : Int) : Nat := (x % 2 ^ 64).toNat

/-- The loop `do { pid++; } while (pid <= MAX_PID && pid_get_task(pid) == NULL)`
of `proc_root_readdir`: the value of `pid` after the loop, `none` when the
fuel does not suffice. -/
def pid_scan (pid_get_task : Nat → Option Nat) : Nat → Int → Option Int
  | 0, _ => none
  | fuel + 1, pid =>
    let pid := pid + 1
    if pid ≤ (MAX_PID : Int) ∧ pid_get_task (dword_of_int pid) = none then
      pid_scan pid_get_task fuel pid
    else some pid

/-- The function `proc_root_readdir` on the value `index` of `*index`, an
`unsigned long` of 64 bits; `pid_get_task` is the external lookup as in
`sys_get_robust_list`.  The subtraction `*index - PROC_ROOT_LEN` is narrowed
to the 32 bits of `pid_t_`.  The loop gets the fuel `MAX_PID + 1 - pid`, the
number of increments after which `pid <= MAX_PID` fails. -/
def proc_root_readdir (pid_get_task : Nat → Option Nat) (current : task) (index : Nat) :
    Option readdir_result :=
  if index < PROC_ROOT_LEN then
    some ⟨true, (index + 1) % 2 ^ 64, some (.root_entry index), current⟩
  else
    let pid : Int := int_of_unsigned ((index - PROC_ROOT_LEN) % 2 ^ 64)
    if pid ≤ (MAX_PID : Int) then
      let current := modify_critical_region_counter current 1
      match pid_scan pid_get_task ((MAX_PID : Int) + 1 - pid).toNat pid with
      | none => none
      | some pid =>
        let current := modify_critical_region_counter current (-1)
        if pid > (MAX_PID : Int) then some ⟨false, index, none, current⟩
        else
          some ⟨true, ulong_of_int (pid + (PROC_ROOT_LEN : Int)), some (.pid_entry pid), current⟩
    else some ⟨false, index, none, current⟩

/-- Repeated calls of `proc_root_readdir`, each on the index that the one
before left, until one returns false: the entries returned in order, `none`
when `fuel` calls do not reach the end or a call does not return. -/
def readdir_all (pid_get_task : Nat → Option Nat) (current : task) :
    Nat → Nat → Option (List proc_entry)
  | 0, _ => none
  | fuel + 1, index =>
    match proc_root_readdir pid_get_task current index with
    | none => none
    | some r =>
      if r.ret then
        (readdir_all pid_get_task r.current fuel r.index).map (fun l => r.next_entry.toList ++ l)
      else some []

/-- The comparison `strcmp(a, b) < 0` on two C strings without `NUL`: `a` is
before `b` in the byte-wise lexicographic order. -/
def strcmp_lt : List Char → List Char → Bool
  | [], [] => false
  | [], _ :: _ => true
  | _ :: _, [] => false
  | a :: as, b :: bs => a.toNat < b.toNat || (a.toNat = b.toNat && strcmp_lt as bs)

/-- The image of a character that the claim on `proc_print_escaped`
describes: a space becomes `\040`, a tab `\011`, a backslash `\134`, any other
character stays. -/
def escape_char (c : Char) : List Char :=
  if c = ' ' then ['\\', '0', '4', '0']
  else if c = '\t' then ['\\', '0', '1', '1']
  else if c = '\\' then ['\\', '1', '3', '4']
  else [c]

/-- The value of an octal digit. -/
def octal_value (c : Char) : Nat := c.toNat - '0'.toNat

/-- Octal unescaping, with the length of the text as fuel: a backslash and the
three characters after it become the character with that octal code. -/
def unescape_fuel : Nat → List Char → List Char
  | 0, _ => []
  | _, [] => []
  | fuel + 1, c :: rest =>
    if c = '\\' then
      match rest with
      | a :: b :: d :: rest =>
        Char.ofNat ((octal_value a * 8 + octal_value b) * 8 + octal_value d)
          :: unescape_fuel fuel rest
      | _ => c :: unescape_fuel fuel rest
    else c :: unescape_fuel fuel rest

/-- Octal unescaping of a text. -/
def unescape (text : List Char) : List Char := unescape_fuel text.length text

/-- The options of a mount as the claim on `proc_show_mounts` lists them:
`ro` or `rw`, then `nosuid`, `nodev`, `noexec` for the flags that are set,
then the info string if it is not empty. -/
def mount_opts_list (m : mount) : List (List Char) :=
  [if m.flags &&& MS_READONLY_ ≠ 0 then ['r', 'o'] else ['r', 'w']]
    ++ (if m.flags &&& MS_NOSUID_ ≠ 0 then [['n', 'o', 's', 'u', 'i', 'd']] else [])
    ++ (if m.flags &&& MS_NODEV_ ≠ 0 then [['n', 'o', 'd', 'e', 'v']] else [])
    ++ (if m.flags &&& MS_NOEXEC_ ≠ 0 then [['n', 'o', 'e', 'x', 'e', 'c']] else [])
    ++ (if c_str m.info ≠ [] then [c_str m.info] else [])

/-- The field `<opts>` of a line of `mounts`: the options, comma-separated. -/
def mount_opts (m : mount) : List Char := List.intercalate [','] (mount_opts_list m)

/-- The line of `mounts` for one mount as the claim describes it:
`<escaped source> <escaped point> <fstype> <opts> 0 0` and a newline, an
empty mount point being rendered as `/`. -/
def mount_line (m : mount) : List Char :=
  (c_str m.source).flatMap escape_char ++ [' ']
    ++ (if c_str m.point = [] then ['/'] else c_str m.point).flatMap escape_char ++ [' ']
    ++ c_str m.fs.name ++ [' '] ++ mount_opts m ++ [' ', '0', ' ', '0', '\n']

/-- A mount of `/dev/root` at the root, read-write, whose info string is a
single comma. -/
def ex_mount_comma : mount :=
  ⟨[], "/dev/root".toList, ⟨"ext4".toList⟩, 0, [',']⟩

/-- A read-only `nodev` mount with a space, a tab and a backslash in its
source and the info string `mode=755`. -/
def ex_mount : mount :=
  ⟨"/mnt".toList, "/a b\tc\\d".toList, ⟨"tmpfs".toList⟩, MS_READONLY_ ||| MS_NODEV_,
    "mode=755".toList⟩

/-- The text of `uptime` that the claim describes for `t` ticks: the seconds
`t / 100`, a point and `t % 100` as two decimal digits, twice. -/
def uptime_text (t : Nat) : List Char :=
  fmt_u (t / 100) ++ ['.'] ++ [Nat.digitChar (t % 100 / 10), Nat.digitChar (t % 100 % 10)]
    ++ [' '] ++ fmt_u (t / 100) ++ ['.']
    ++ [Nat.digitChar (t % 100 / 10), Nat.digitChar (t % 100 % 10)] ++ ['\n']

/-- The telemetry of the load average scenario: the loads 65536, 32768 and
16384 in 16.16 fixed point. -/
def ex_uptime : uptime_info := ⟨105, 65536, 32768, 16384⟩

/-! ## The flags buffer with bounds (`fs/proc/root.c`) -/

/-- The call `memcpy(buf + dst, src, n)`, `n` the length of `src`, on a buffer
of known size: `none` when one of the bytes written falls outside the
buffer. -/
def buf_memcpy (buf : List Char) (dst : Nat) (src : List Char) : Option (List Char) :=
  if dst + src.length ≤ buf.length then
    some (buf.take dst ++ src ++ buf.drop (dst + src.length))
  else none

/-- The store `buf[i] = c` on a buffer of known size: `none` when `i` is
outside the buffer. -/
def buf_store (buf : List Char) (i : Nat) (c : Char) : Option (List Char) :=
  if i < buf.length then some (buf.set i c) else none

/-- The body of the loop of `parse_edx_flags` for bit `i` on a buffer of known
size, as `parse_edx_flags_step` with every write checked. -/
def parse_edx_flags_step_checked (edx : Nat) (st : Option (List Char × Nat)) (i : Nat) :
    Option (List Char × Nat) :=
  match st with
  | none => none
  | some (buf, offset) =>
    if edx % 2 ^ 32 &&& (1 <<< i) % 2 ^ 32 ≠ 0 then
      let enum_len := (c_str (enumerated.getD i [])).length
      match buf_memcpy buf offset ((enumerated.getD i []).take enum_len) with
      | none => none
      | some buf => some (buf, offset + enum_len)
    else some (buf, offset)

/-- The function `parse_edx_flags` on a buffer of known size: the buffer after
the call, `none` when a write falls outside of it. -/
def parse_edx_flags_checked (edx : Nat) (edx_flags : List Char) : Option (List Char) :=
  match (List.range 32).foldl (parse_edx_flags_step_checked edx) (some (edx_flags, 0)) with
  | none => none
  | some (buf, offset) => buf_store buf offset NUL

/-- The buffer `char edx_flags[148] = { 0 }` of `proc_show_cpuinfo`. -/
def ex_edx_flags : List Char := List.replicate 148 NUL

/-! ## Regions that may block (`kernel/task.h`) -/

/-- A call of `task_may_block_start` or of `task_may_block_end`. -/
inductive may_block_call where
  | start
  | finish
  deriving DecidableEq

/-- The effect of one call on `current`. -/
def may_block_call.run : may_block_call → task → task
  | .start, current => task_may_block_start current
  | .finish, current => task_may_block_end current

/-- The effect of a sequence of calls, first call first. -/
def run_calls (calls : List may_block_call) (current : task) : task :=
  calls.foldl (fun t c => c.run t) current

/-- The nesting depth after a sequence of calls that starts at depth `d`: the
regions entered and not yet left. -/
def depth_after : Nat → List may_block_call → Nat
  | d, [] => d
  | d, .start :: calls => depth_after (d + 1) calls
  | d, .finish :: calls => depth_after (d - 1) calls

/-- A sequence of calls from depth `d` on is properly nested: no call of
`task_may_block_end` comes at depth 0. -/
def properly_nested : Nat → List may_block_call → Bool
  | _, [] => true
  | d, .start :: calls => properly_nested (d + 1) calls
  | 0, .finish :: _ => false
  | d + 1, .finish :: calls => properly_nested d calls

/-- A properly nested sequence of calls in which no region is entered inside
another: the depth never exceeds 1.  `inside` tells whether the sequence
starts inside a region. -/
def not_nested : Bool → List may_block_call → Bool
  | _, [] => true
  | false, .start :: calls => not_nested true calls
  | true, .start :: _ => false
  | false, .finish :: _ => false
  | true, .finish :: calls => not_nested false calls

/-- The loop of the macro `TASK_MAY_BLOCK`,
`for (int i = task_may_block_start(); i < 1; task_may_block_end(), i++)`,
from the test `i < 1` on.  `body` is the block under the macro, acting on a
state and on `current`; `runs` counts its executions. -/
def TASK_MAY_BLOCK_loop {σ : Type} (body : σ → task → σ × task) :
    Nat → Int → Nat → σ → task → Option (Nat × σ × task)
  | 0, _, _, _, _ => none
  | fuel + 1, i, runs, st, current =>
    if i < 1 then
      let r := body st current
      let current := task_may_block_end r.2
      TASK_MAY_BLOCK_loop body fuel (i + 1) (runs + 1) r.1 current
    else some (runs, st, current)

/-- The macro `TASK_MAY_BLOCK` with its block: `i` starts as the `0` that
`task_may_block_start` returns.  The result is the number of executions of
the block, the state and `current`. -/
def TASK_MAY_BLOCK {σ : Type} (body : σ → task → σ × task) (st : σ) (current : task) :
    Option (Nat × σ × task) :=
  let current := task_may_block_start current
  let i : Int := 0
  TASK_MAY_BLOCK_loop body 2 i 0 st current

/-! ## The step relation of the futex table -/

/-- The empty futex table: no futex, no wait record, nothing notified. -/
def World.empty (mem_ptr : Nat → Nat → Option Nat)
    (user_get_timespec : Nat → Nat → Option (Int × Int)) : World :=
  World.of_table [] [] mem_ptr user_get_timespec

/-- One critical section of the futex code, or a change of guest memory, as a
step from the state before to the state after.

* `guest_store`: the guest changes its memory; the table is not touched.
* `wait_fail`: a `futex_wait` that returns `_EFAULT` or `_EAGAIN`, that is
  `futex_get` followed by `futex_put`.
* `wait_enqueue`: a `futex_wait` up to the point where it blocks in
  `wait_for`.  Its wait record is a fresh object on the stack of the caller
  (no live record has its address), and the caller is a task that is not
  blocked in `futex_wait` already, of which there are `MAX_PID` at most.
* `wait_complete`: the rest of a `futex_wait` whose `wait_for` has returned,
  after a wake, a timeout or a signal: `futex_wait_resume`, then `futex_put`.
* `wake`: a call of `futex_wake`.
* `requeue`: a call of `futex_wakelike` with `FUTEX_REQUEUE_`. -/
inductive futex_step : World → World → Prop where
  | guest_store (s : World) (mem_ptr : Nat → Nat → Option Nat)
      (user_get_timespec : Nat → Nat → Option (Int × Int)) :
      futex_step s { s with mem_ptr := mem_ptr, user_get_timespec := user_get_timespec }
  | wait_fail (current : task) (uaddr val : Nat) (s s' : World) :
      s.mem_ptr current.mem uaddr ≠ some val →
      futex_put (current.mem, uaddr) (futex_get current uaddr s).2 = some s' →
      futex_step s s'
  | wait_enqueue (current : task) (wait uaddr val : Nat) (s : World) :
      wait ∉ s.waits.map Prod.fst → s.waits.length < MAX_PID →
      s.mem_ptr current.mem uaddr = some val →
      futex_step s (futex_wait_enqueue (current.mem, uaddr) wait (futex_get current uaddr s).2)
  | wait_complete (wait : Nat) (futex : futex_ptr) (s s1 s' : World) :
      futex_wait_resume wait s = some (futex, s1) → futex_put futex s1 = some s' →
      futex_step s s'
  | wake (current : task) (uaddr wake_max : Nat) (ret : Int) (s s' : World) :
      futex_wake current uaddr wake_max s = some (ret, s') → futex_step s s'
  | requeue (current : task) (uaddr wake_max requeue_max requeue_addr : Nat) (ret : Int)
      (s s' : World) :
      futex_wakelike current (FUTEX_REQUEUE_ : Int) uaddr wake_max requeue_max requeue_addr s
        = some (ret, s') →
      futex_step s s'

/-- The states that the futex code reaches from an empty table. -/
inductive reachable : World → Prop where
  | empty (mem_ptr : Nat → Nat → Option Nat)
      (user_get_timespec : Nat → Nat → Option (Int × Int)) :
      reachable (World.empty mem_ptr user_get_timespec)
  | step (s s' : World) : reachable s → futex_step s s' → reachable s'

/-- Every live wait record is linked on the queue of the futex its back
pointer names, unless its condition has been notified. -/
def World.queued_or_notified (s : World) : Prop :=
  ∀ e ∈ s.waits, e.1 ∈ s.queue_of e.2 ∨ e.1 ∈ s.notified

/-- An empty table over a guest memory whose word at address 16 is 0. -/
def ex_empty : World :=
  World.empty (fun _ a => if a = 16 then some 0 else none) (fun _ _ => none)

/-- The state in which `ex_task` blocks in `futex_wait(16, 0)` with its wait
record at address 1, called on `ex_empty`. -/
def ex_enqueued : World :=
  futex_wait_enqueue (ex_task.mem, 16) 1 (futex_get ex_task 16 ex_empty).2

/-- A second task of the memory space of `ex_task`, with pid 43. -/
def ex_task2 : task :=
  { pid := 43, mem := 1000, robust_list := 0, io_block := false, critical_region_count := 0 }

/-- The state in which `ex_task2` has blocked in `futex_wait(16, 0)` as well,
with its wait record at address 2, after `ex_task`. -/
def ex_enqueued2 : World :=
  futex_wait_enqueue (ex_task2.mem, 16) 2 (futex_get ex_task2 16 ex_enqueued).2

/-- What a step from `s` to `s'` that notifies the wait records `ns` does to
the live wait records: the notified ones were queued and are now on no queue,
still live; every other live record has returned or keeps its place, on a
queue or off every queue, and keeps its back pointer when it is off; a record
that is new in `s'` is queued. -/
def World.hands_over (s s' : World) (ns : List Nat) : Prop :=
  s'.notified = s.notified ++ ns
  ∧ (∀ w ∈ ns, ∃ p, (w, p) ∈ s.waits ∧ w ∈ s.queue_of p ∧ (w, p) ∈ s'.waits)
  ∧ (∀ w ∈ ns, ∀ r, w ∉ s'.queue_of r)
  ∧ (∀ w p, (w, p) ∈ s.waits → w ∉ ns →
      w ∉ s'.waits.map Prod.fst
      ∨ ∃ p', (w, p') ∈ s'.waits ∧ (w ∈ s'.queue_of p' ↔ w ∈ s.queue_of p)
          ∧ (w ∉ s.queue_of p → p' = p))
  ∧ (∀ w p, (w, p) ∈ s'.waits → w ∉ s.waits.map Prod.fst → w ∈ s'.queue_of p)

/-- The runs of the futex code from `s` during which the wait record `w` stays
live: after every step of the run `w` is still a live record, so that its
`futex_wait` has not returned. -/
inductive run_of_wait (w : Nat) : World → World → Prop where
  | refl (s : World) : run_of_wait w s s
  | step (s s' s'' : World) : run_of_wait w s s' → futex_step s' s'' →
      w ∈ s''.waits.map Prod.fst → run_of_wait w s s''

/-! ## Lemmas on chains -/

theorem futex.is_iff (p : futex_ptr) (f : futex) :
    f.is p = true ↔ (f.mem, f.addr) = p := by
  obtain ⟨m, a⟩ := p
  simp [futex.is, Prod.ext_iff, and_comm]

theorem futex.is_of_keeps {g : futex → futex} (hg : keeps_key g) (p : futex_ptr) (f : futex) :
    (g f).is p = f.is p := by
  simp [futex.is, (hg f).1, (hg f).2]

theorem find_chain_modify_self {g : futex → futex} (hg : keeps_key g) (p : futex_ptr)
    (l : List futex) :
    (chain_modify p g l).find? (futex.is p) = (l.find? (futex.is p)).map g := by
  induction l with
  | nil => rfl
  | cons f fs ih =>
    by_cases h : f.is p = true
    · simp [chain_modify, h, List.find?, futex.is_of_keeps hg]
    · simp [chain_modify, h, List.find?, ih]

theorem find_chain_modify_other {g : futex → futex} (hg : keeps_key g) {p q : futex_ptr}
    (hpq : q ≠ p) (l : List futex) :
    (chain_modify p g l).find? (futex.is q) = l.find? (futex.is q) := by
  induction l with
  | nil => rfl
  | cons f fs ih =>
    by_cases h : f.is p = true
    · have hq : f.is q = false := by
        by_contra hc
        have hc1 : f.is q = true := by simpa using hc
        exact hpq (((futex.is_iff q f).1 hc1).symm.trans ((futex.is_iff p f).1 h))
      simp [chain_modify, h, List.find?, futex.is_of_keeps hg, hq]
    · by_cases hq : f.is q = true
      · simp [chain_modify, h, List.find?, hq]
      · simp [chain_modify, h, List.find?, hq, ih]

theorem find_chain_remove_other {p q : futex_ptr} (hpq : q ≠ p) (l : List futex) :
    (chain_remove p l).find? (futex.is q) = l.find? (futex.is q) := by
  induction l with
  | nil => rfl
  | cons f fs ih =>
    by_cases h : f.is p = true
    · have hq : f.is q = false := by
        by_contra hc
        have hc1 : f.is q = true := by simpa using hc
        exact hpq (((futex.is_iff q f).1 hc1).symm.trans ((futex.is_iff p f).1 h))
      simp [chain_remove, h, List.find?, hq]
    · by_cases hq : f.is q = true
      · simp [chain_remove, h, List.find?, hq]
      · simp [chain_remove, h, List.find?, hq, ih]

theorem find_chain_remove_self (p : futex_ptr) (l : List futex)
    (hl : l.Pairwise (fun f g => ¬ (f.mem = g.mem ∧ f.addr = g.addr))) :
    (chain_remove p l).find? (futex.is p) = none := by
  induction l with
  | nil => rfl
  | cons f fs ih =>
    rw [List.pairwise_cons] at hl
    by_cases h : f.is p = true
    · simp only [chain_remove, h, if_true]
      rw [List.find?_eq_none]
      intro g hg hgp
      have h1 := (futex.is_iff p f).1 h
      have h2 := (futex.is_iff p g).1 hgp
      have h3 : (f.mem, f.addr) = (g.mem, g.addr) := h1.trans h2.symm
      rw [Prod.ext_iff] at h3
      exact hl.1 g hg h3
    · simp [chain_remove, h, List.find?, ih hl.2]

theorem find_map_keeps {g : futex → futex} (hg : keeps_key g) (p : futex_ptr) (l : List futex) :
    (l.map g).find? (futex.is p) = (l.find? (futex.is p)).map g := by
  induction l with
  | nil => rfl
  | cons f fs ih =>
    by_cases h : f.is p = true
    · simp [List.find?, futex.is_of_keeps hg, h]
    · simp [List.find?, futex.is_of_keeps hg, h, ih]

theorem mem_chain_modify {g : futex → futex} (hg : keeps_key g) (p : futex_ptr) (a : futex) :
    ∀ l : List futex, a ∈ chain_modify p g l → ∃ a0 ∈ l, a.mem = a0.mem ∧ a.addr = a0.addr := by
  intro l
  induction l with
  | nil => intro h0; simp [chain_modify] at h0
  | cons x xs ihx =>
    intro h0
    by_cases hx : x.is p = true
    · simp only [chain_modify, hx, if_true, List.mem_cons] at h0
      rcases h0 with h0 | h0
      · exact ⟨x, List.mem_cons_self _ _, by rw [h0]; exact hg x⟩
      · exact ⟨a, List.mem_cons_of_mem _ h0, rfl, rfl⟩
    · have hx' : x.is p = false := by simpa using hx
      simp only [chain_modify, hx', Bool.false_eq_true, if_false, List.mem_cons] at h0
      rcases h0 with h0 | h0
      · exact ⟨x, List.mem_cons_self _ _, by rw [h0]; exact ⟨rfl, rfl⟩⟩
      · obtain ⟨a0, ha0, hk⟩ := ihx h0
        exact ⟨a0, List.mem_cons_of_mem _ ha0, hk⟩

theorem pairwise_chain_modify {g : futex → futex} (hg : keeps_key g) (p : futex_ptr)
    (l : List futex) (hl : l.Pairwise (fun f g => ¬ (f.mem = g.mem ∧ f.addr = g.addr))) :
    (chain_modify p g l).Pairwise (fun f g => ¬ (f.mem = g.mem ∧ f.addr = g.addr)) := by
  induction l with
  | nil => exact List.Pairwise.nil
  | cons f fs ih =>
    rw [List.pairwise_cons] at hl
    by_cases h : f.is p = true
    · simp only [chain_modify, h, if_true]
      rw [List.pairwise_cons]
      refine ⟨?_, hl.2⟩
      intro a ha
      rw [(hg f).1, (hg f).2]
      exact hl.1 a ha
    · have h' : f.is p = false := by simpa using h
      simp only [chain_modify, h', Bool.false_eq_true, if_false]
      rw [List.pairwise_cons]
      refine ⟨?_, ih hl.2⟩
      intro a ha
      obtain ⟨a0, ha0, hk1, hk2⟩ := mem_chain_modify hg p a fs ha
      rw [hk1, hk2]
      exact hl.1 a0 ha0

theorem chain_remove_sublist (p : futex_ptr) (l : List futex) :
    (chain_remove p l).Sublist l := by
  induction l with
  | nil => exact List.Sublist.slnil
  | cons f fs ih =>
    by_cases h : f.is p = true
    · simp only [chain_remove, h, if_true]
      exact List.sublist_cons_self f fs
    · have h' : f.is p = false := by simpa using h
      simp only [chain_remove, h', Bool.false_eq_true, if_false]
      exact ih.cons₂ f

/-! ## Reads after writes -/

theorem keeps_key_refcount (r : futex → Nat) :
    keeps_key (fun f => { f with refcount := r f }) := fun _ => ⟨rfl, rfl⟩

theorem keeps_key_queue (r : futex → List Nat) :
    keeps_key (fun f => { f with queue := r f }) := fun _ => ⟨rfl, rfl⟩

theorem World.deref_modify_self (s : World) {g : futex → futex} (hg : keeps_key g)
    (p : futex_ptr) : (s.modify p g).deref p = (s.deref p).map g := by
  simp only [World.modify, World.deref, Function.update_same]
  exact find_chain_modify_self hg p _

theorem World.deref_modify_other (s : World) {g : futex → futex} (hg : keeps_key g)
    {p q : futex_ptr} (hpq : q ≠ p) : (s.modify p g).deref q = s.deref q := by
  simp only [World.modify, World.deref, Function.update_apply]
  split
  · next h => rw [h]; exact find_chain_modify_other hg hpq _
  · rfl

theorem World.chains_ok_modify (s : World) {g : futex → futex} (hg : keeps_key g)
    (p : futex_ptr) (hs : s.chains_ok) : (s.modify p g).chains_ok := by
  refine ⟨fun b => ?_, fun b f hf => ?_⟩
  · simp only [World.modify, Function.update_apply]
    split
    · exact pairwise_chain_modify hg p _ (hs.1 _)
    · exact hs.1 b
  · simp only [World.modify, Function.update_apply] at hf
    split at hf
    · next hb =>
      obtain ⟨a0, ha0, hk1, hk2⟩ := mem_chain_modify hg p f _ hf
      rw [hk1, hk2, hb]
      exact hs.2 _ a0 ha0
    · exact hs.2 b f hf

theorem World.deref_list_remove (s : World) (w : Nat) (q : futex_ptr) :
    (s.list_remove w).deref q
      = (s.deref q).map (fun f => { f with queue := f.queue.erase w }) := by
  simp only [World.list_remove, World.deref]
  exact find_map_keeps (keeps_key_queue _) q _

theorem World.chains_ok_list_remove (s : World) (w : Nat) (hs : s.chains_ok) :
    (s.list_remove w).chains_ok := by
  refine ⟨fun b => ?_, fun b f hf => ?_⟩
  · simp only [World.list_remove]
    rw [List.pairwise_map]
    exact hs.1 b
  · simp only [World.list_remove, List.mem_map] at hf
    obtain ⟨a, ha, rfl⟩ := hf
    exact hs.2 b a ha

theorem futex_get_unlocked_found (current : task) (addr : Nat) (s : World) {f : futex}
    (h : s.deref (current.mem, addr) = some f) :
    futex_get_unlocked current addr s
      = ((current.mem, addr),
          s.modify (current.mem, addr) (fun f => { f with refcount := (f.refcount + 1) % 2 ^ 32 })) := by
  have h' : (s.futex_hash (futex_hash_index addr current.mem)).find?
      (futex.is (current.mem, addr)) = some f := h
  simp only [futex_get_unlocked, h']

theorem futex_get_unlocked_new (current : task) (addr : Nat) (s : World)
    (h : s.deref (current.mem, addr) = none) :
    futex_get_unlocked current addr s
      = ((current.mem, addr),
          { s with futex_hash := (Function.update s.futex_hash (futex_hash_index addr current.mem)
              ({ refcount := 1, mem := current.mem, addr := addr, queue := [] } ::
                s.futex_hash (futex_hash_index addr current.mem))) }) := by
  have h' : (s.futex_hash (futex_hash_index addr current.mem)).find?
      (futex.is (current.mem, addr)) = none := h
  simp only [futex_get_unlocked, h']

theorem World.deref_get_self (current : task) (addr : Nat) (s : World) :
    (futex_get_unlocked current addr s).2.deref (current.mem, addr)
      = some (match s.deref (current.mem, addr) with
          | some f => { f with refcount := (f.refcount + 1) % 2 ^ 32 }
          | none => { refcount := 1, mem := current.mem, addr := addr, queue := [] }) := by
  cases h : s.deref (current.mem, addr) with
  | none =>
    rw [futex_get_unlocked_new current addr s h]
    simp [World.deref, List.find?, futex.is]
  | some f =>
    rw [futex_get_unlocked_found current addr s h, World.deref_modify_self s (keeps_key_refcount _), h]
    rfl

theorem World.deref_get_other (current : task) (addr : Nat) (s : World) {q : futex_ptr}
    (hq : q ≠ (current.mem, addr)) :
    (futex_get_unlocked current addr s).2.deref q = s.deref q := by
  cases h : s.deref (current.mem, addr) with
  | none =>
    rw [futex_get_unlocked_new current addr s h]
    simp only [World.deref, Function.update_apply]
    split
    · next hb =>
      have hne : futex.is q { refcount := 1, mem := current.mem, addr := addr, queue := [] }
          = false := by
        by_contra hc
        have hc1 : futex.is q { refcount := 1, mem := current.mem, addr := addr, queue := [] }
            = true := by simpa using hc
        exact hq ((futex.is_iff q _).1 hc1).symm
      rw [List.find?_cons, hne, hb]
    · rfl
  | some f =>
    rw [futex_get_unlocked_found current addr s h]
    exact World.deref_modify_other s (keeps_key_refcount _) hq

theorem World.chains_ok_get (current : task) (addr : Nat) (s : World) (hs : s.chains_ok) :
    (futex_get_unlocked current addr s).2.chains_ok := by
  cases h : s.deref (current.mem, addr) with
  | none =>
    rw [futex_get_unlocked_new current addr s h]
    refine ⟨fun b => ?_, fun b f hf => ?_⟩
    · simp only [Function.update_apply]
      split
      · rw [List.pairwise_cons]
        refine ⟨?_, hs.1 _⟩
        intro a ha hk
        have h' : (s.futex_hash (futex_hash_index addr current.mem)).find?
            (futex.is (current.mem, addr)) = none := h
        rw [List.find?_eq_none] at h'
        exact h' a ha ((futex.is_iff _ a).2 (by rw [← hk.1, ← hk.2]))
      · exact hs.1 b
    · simp only [Function.update_apply] at hf
      split at hf
      · next hb =>
        rcases List.mem_cons.1 hf with rfl | hf
        · exact hb.symm
        · rw [hb]
          exact hs.2 _ f hf
      · exact hs.2 b f hf
  | some f =>
    rw [futex_get_unlocked_found current addr s h]
    exact World.chains_ok_modify s (keeps_key_refcount _) _ hs

theorem futex_get_unlocked_fst (current : task) (addr : Nat) (s : World) :
    (futex_get_unlocked current addr s).1 = (current.mem, addr) := by
  cases h : s.deref (current.mem, addr) with
  | none => rw [futex_get_unlocked_new current addr s h]
  | some f => rw [futex_get_unlocked_found current addr s h]

theorem futex_get_unlocked_waits (current : task) (addr : Nat) (s : World) :
    (futex_get_unlocked current addr s).2.waits = s.waits := by
  cases h : s.deref (current.mem, addr) with
  | none => rw [futex_get_unlocked_new current addr s h]
  | some f => rw [futex_get_unlocked_found current addr s h]; rfl

theorem futex_get_unlocked_notified (current : task) (addr : Nat) (s : World) :
    (futex_get_unlocked current addr s).2.notified = s.notified := by
  cases h : s.deref (current.mem, addr) with
  | none => rw [futex_get_unlocked_new current addr s h]
  | some f => rw [futex_get_unlocked_found current addr s h]; rfl

theorem futex_get_unlocked_mem_ptr (current : task) (addr : Nat) (s : World) :
    (futex_get_unlocked current addr s).2.mem_ptr = s.mem_ptr := by
  cases h : s.deref (current.mem, addr) with
  | none => rw [futex_get_unlocked_new current addr s h]
  | some f => rw [futex_get_unlocked_found current addr s h]; rfl

theorem futex_put_unlocked_keep (p : futex_ptr) (s : World) {f : futex}
    (h : s.deref p = some f) (hr : (f.refcount + 2 ^ 32 - 1) % 2 ^ 32 ≠ 0) :
    futex_put_unlocked p s
      = some (s.modify p (fun g => { g with refcount := (f.refcount + 2 ^ 32 - 1) % 2 ^ 32 })) := by
  simp only [futex_put_unlocked, h, hr, if_false]

theorem futex_put_unlocked_free (p : futex_ptr) (s : World) {f : futex}
    (h : s.deref p = some f) (hr : (f.refcount + 2 ^ 32 - 1) % 2 ^ 32 = 0) (hq : f.queue = []) :
    futex_put_unlocked p s
      = some { s with futex_hash := (Function.update s.futex_hash (futex_hash_index p.2 p.1)
          (chain_remove p (s.futex_hash (futex_hash_index p.2 p.1)))) } := by
  simp only [futex_put_unlocked, h, hr, hq, List.isEmpty_nil, if_true]

theorem World.deref_unlink_self (s : World) (p : futex_ptr) (hs : s.chains_ok) :
    World.deref { s with futex_hash := (Function.update s.futex_hash (futex_hash_index p.2 p.1)
      (chain_remove p (s.futex_hash (futex_hash_index p.2 p.1)))) } p = none := by
  simp only [World.deref, Function.update_same]
  exact find_chain_remove_self p _ (hs.1 _)

theorem World.deref_unlink_other (s : World) {p q : futex_ptr} (hq : q ≠ p) :
    World.deref { s with futex_hash := (Function.update s.futex_hash (futex_hash_index p.2 p.1)
      (chain_remove p (s.futex_hash (futex_hash_index p.2 p.1)))) } q = s.deref q := by
  simp only [World.deref, Function.update_apply]
  split
  · next h => rw [h]; exact find_chain_remove_other hq _
  · rfl

theorem World.chains_ok_unlink (s : World) (p : futex_ptr) (hs : s.chains_ok) :
    World.chains_ok { s with futex_hash := (Function.update s.futex_hash (futex_hash_index p.2 p.1)
      (chain_remove p (s.futex_hash (futex_hash_index p.2 p.1)))) } := by
  refine ⟨fun b => ?_, fun b f hf => ?_⟩
  · simp only [Function.update_apply]
    split
    · exact (hs.1 _).sublist (chain_remove_sublist p _)
    · exact hs.1 b
  · simp only [Function.update_apply] at hf
    split at hf
    · next hb =>
      rw [hb]
      exact hs.2 _ f ((chain_remove_sublist p _).subset hf)
    · exact hs.2 b f hf

theorem World.queue_of_eq {s : World} {p : futex_ptr} {f : futex} (h : s.deref p = some f) :
    s.queue_of p = f.queue := by
  simp [World.queue_of, h]

theorem World.refcount_of_eq {s : World} {p : futex_ptr} {f : futex} (h : s.deref p = some f) :
    s.refcount_of p = f.refcount := by
  simp [World.refcount_of, h]

theorem World.queue_of_none {s : World} {p : futex_ptr} (h : s.deref p = none) :
    s.queue_of p = [] := by
  simp [World.queue_of, h]

theorem World.refcount_of_none {s : World} {p : futex_ptr} (h : s.deref p = none) :
    s.refcount_of p = 0 := by
  simp [World.refcount_of, h]

/-! ## Lemmas on queues -/

theorem list_next_entry_head (w : Nat) (l : List Nat) :
    list_next_entry (w :: l) w = l.head? := by
  simp [list_next_entry]

theorem list_next_entry_mem : ∀ (l : List Nat) (w t : Nat),
    list_next_entry l w = some t → t ∈ l
  | [], _, _, h => by simp [list_next_entry] at h
  | x :: xs, w, t, h => by
    by_cases hx : x = w
    · simp only [list_next_entry, hx, if_true] at h
      exact List.mem_cons_of_mem _ (List.mem_of_mem_head? h)
    · simp only [list_next_entry, hx, if_false] at h
      exact List.mem_cons_of_mem _ (list_next_entry_mem xs w t h)

theorem list_next_entry_ne : ∀ (l : List Nat) (w t : Nat), l.Nodup →
    list_next_entry l w = some t → t ≠ w
  | [], _, _, _, h => by simp [list_next_entry] at h
  | x :: xs, w, t, hn, h => by
    rw [List.nodup_cons] at hn
    by_cases hx : x = w
    · simp only [list_next_entry, hx, if_true] at h
      intro ht
      have := List.mem_of_mem_head? h
      rw [ht, ← hx] at this
      exact hn.1 this
    · simp only [list_next_entry, hx, if_false] at h
      exact list_next_entry_ne xs w t hn.2 h

theorem diff_take_eq_drop : ∀ (q : List Nat) (k : Nat), q.diff (q.take k) = q.drop k
  | [], k => by simp
  | _ :: _, 0 => by simp
  | w :: q, k + 1 => by
    simp only [List.take_succ_cons, List.drop_succ_cons, List.diff_cons, List.erase_cons_head]
    exact diff_take_eq_drop q k

theorem diff_of_disjoint : ∀ (ws l : List Nat), (∀ x ∈ ws, x ∉ l) → l.diff ws = l
  | [], l, _ => by simp
  | w :: ws, l, h => by
    rw [List.diff_cons, List.erase_of_not_mem (h w (List.mem_cons_self _ _))]
    exact diff_of_disjoint ws l (fun x hx => h x (List.mem_cons_of_mem _ hx))

/-! ## The wake loop -/

/-- The wake loop started at the front of the queue `q` of `futex` wakes the
first `min (wake_max - woken) |q|` waiters: it returns, notifies them in queue
order and unlinks each of them. -/
theorem wake_loop_spec (p : futex_ptr) (wake_max : Nat) :
    ∀ (q : List Nat) (woken fuel : Nat) (s : World),
      s.queue_of p = q → s.chains_ok → min (wake_max - woken) q.length < fuel →
      ∃ s', wake_loop p wake_max fuel (list_first_entry q) woken s
          = some (woken + min (wake_max - woken) q.length, s')
        ∧ s'.chains_ok
        ∧ (∀ r, s'.deref r = (s.deref r).map (fun f =>
            { f with queue := f.queue.diff (q.take (min (wake_max - woken) q.length)) }))
        ∧ s'.notified = s.notified ++ q.take (min (wake_max - woken) q.length)
        ∧ s'.waits = s.waits ∧ s'.mem_ptr = s.mem_ptr
        ∧ s'.user_get_timespec = s.user_get_timespec := by
  intro q
  induction q with
  | nil =>
    intro woken fuel s _ hs hfuel
    obtain ⟨fuel, rfl⟩ : ∃ n, fuel = n + 1 := ⟨fuel - 1, by omega⟩
    refine ⟨s, by simp [wake_loop, list_first_entry], hs, ?_, by simp, rfl, rfl, rfl⟩
    intro r
    cases s.deref r <;> simp
  | cons w q ih =>
    intro woken fuel s hq hs hfuel
    obtain ⟨fuel, rfl⟩ : ∃ n, fuel = n + 1 := ⟨fuel - 1, by omega⟩
    by_cases hw : woken ≥ wake_max
    · have h0 : min (wake_max - woken) (w :: q).length = 0 := by
        rw [Nat.sub_eq_zero_of_le hw]; simp
      rw [h0]
      refine ⟨s, by simp [wake_loop, list_first_entry, hw], hs, ?_, by simp, rfl, rfl, rfl⟩
      intro r
      cases s.deref r <;> simp
    · have hk : min (wake_max - woken) (w :: q).length
          = min (wake_max - (woken + 1)) q.length + 1 := by
        simp only [List.length_cons]; omega
      have hq1 : ((s.notify w).list_remove w).queue_of p = q := by
        have hd : (s.notify w).deref p = s.deref p := rfl
        simp only [World.queue_of, World.deref_list_remove, hd]
        simp only [World.queue_of] at hq
        cases hx : s.deref p with
        | none => rw [hx] at hq; simp at hq
        | some f => rw [hx] at hq; simp at hq; simp [hq]
      obtain ⟨s', h1, h2, h3, h4, h5, h6, h7⟩ :=
        ih (woken + 1) fuel ((s.notify w).list_remove w) hq1
          (World.chains_ok_list_remove _ w hs) (by omega)
      refine ⟨s', ?_, h2, ?_, ?_, h5, h6, h7⟩
      · simp only [wake_loop, list_first_entry, List.head?_cons, hw, if_false, hq,
          list_next_entry_head]
        rw [hk, show woken + (min (wake_max - (woken + 1)) q.length + 1)
          = woken + 1 + min (wake_max - (woken + 1)) q.length by omega]
        exact h1
      · intro r
        have hd : (s.notify w).deref r = s.deref r := rfl
        rw [h3 r, World.deref_list_remove, hd, hk, List.take_succ_cons]
        cases s.deref r <;> simp [List.diff_cons]
      · rw [h4, hk, List.take_succ_cons]
        simp [World.list_remove, World.notify]

/-! ## The requeue loop, destination different from the source -/

theorem World.deref_set_wait_futex (s : World) (w : Nat) (p r : futex_ptr) :
    (s.set_wait_futex w p).deref r = s.deref r := rfl

theorem World.deref_notify (s : World) (w : Nat) (r : futex_ptr) :
    (s.notify w).deref r = s.deref r := rfl

theorem requeue_loop_step (p p2 : futex_ptr) (requeue_max fuel wait requeued : Nat) (s : World)
    (hlt : ¬ requeued ≥ requeue_max)
    (hrc : ((s.list_remove wait).list_add_tail p2 wait).refcount_of p > 1) :
    requeue_loop p p2 requeue_max (fuel + 1) (some wait) requeued s
      = requeue_loop p p2 requeue_max fuel (list_next_entry (s.queue_of p) wait) (requeued + 1)
          (requeue_body p p2 wait s) := by
  simp only [requeue_loop, hlt, if_false, hrc, if_true, requeue_body]

theorem requeue_body_distinct (p p2 : futex_ptr) (hne : p2 ≠ p) (w : Nat) (s : World)
    (f f2 : futex) (hf : s.deref p = some f) (hf2 : s.deref p2 = some f2)
    (hw : w ∉ f2.queue) (hr1 : 0 < f.refcount) (hr2 : f.refcount < 2 ^ 32)
    (hr3 : f2.refcount + 1 < 2 ^ 32) :
    (requeue_body p p2 w s).deref p
        = some { f with queue := f.queue.erase w, refcount := f.refcount - 1 }
      ∧ (requeue_body p p2 w s).deref p2
        = some { f2 with queue := f2.queue ++ [w], refcount := f2.refcount + 1 }
      ∧ (∀ r, r ≠ p → r ≠ p2 → (requeue_body p p2 w s).deref r
          = (s.deref r).map (fun g => { g with queue := g.queue.erase w }))
      ∧ ((s.list_remove w).list_add_tail p2 w).refcount_of p = f.refcount := by
  have e1 : (f.refcount + 2 ^ 32 - 1) % 2 ^ 32 = f.refcount - 1 := by omega
  have e2 : (f2.refcount + 1) % 2 ^ 32 = f2.refcount + 1 := by omega
  refine ⟨?_, ?_, ?_, ?_⟩
  · simp only [requeue_body, World.deref_set_wait_futex, World.list_add_tail]
    rw [World.deref_modify_other _ (keeps_key_refcount _) hne.symm,
      World.deref_modify_self _ (keeps_key_refcount _),
      World.deref_modify_other _ (keeps_key_queue _) hne.symm,
      World.deref_list_remove, hf]
    simp only [Option.map_some', e1]
  · simp only [requeue_body, World.deref_set_wait_futex, World.list_add_tail]
    rw [World.deref_modify_self _ (keeps_key_refcount _),
      World.deref_modify_other _ (keeps_key_refcount _) hne,
      World.deref_modify_self _ (keeps_key_queue _),
      World.deref_list_remove, hf2]
    simp only [Option.map_some', e2, List.erase_of_not_mem hw]
  · intro r hr hr'
    simp only [requeue_body, World.deref_set_wait_futex, World.list_add_tail]
    rw [World.deref_modify_other _ (keeps_key_refcount _) hr',
      World.deref_modify_other _ (keeps_key_refcount _) hr,
      World.deref_modify_other _ (keeps_key_queue _) hr',
      World.deref_list_remove]
  · simp only [World.refcount_of, World.list_add_tail]
    rw [World.deref_modify_other _ (keeps_key_queue _) hne.symm, World.deref_list_remove, hf]
    rfl

theorem World.chains_ok_requeue_body (p p2 : futex_ptr) (w : Nat) (s : World)
    (hs : s.chains_ok) : (requeue_body p p2 w s).chains_ok := by
  simp only [requeue_body, World.list_add_tail]
  have h1 := World.chains_ok_list_remove s w hs
  have h2 := World.chains_ok_modify _ (keeps_key_queue (fun f => f.queue ++ [w])) p2 h1
  have h3 := World.chains_ok_modify _
    (keeps_key_refcount (fun f => (f.refcount + 2 ^ 32 - 1) % 2 ^ 32)) p h2
  have h4 := World.chains_ok_modify _ (keeps_key_refcount (fun f => (f.refcount + 1) % 2 ^ 32)) p2 h3
  exact h4

theorem requeue_body_fields (p p2 : futex_ptr) (w : Nat) (s : World) :
    (requeue_body p p2 w s).waits
        = s.waits.map (fun e => if e.1 = w then (w, p2) else e)
      ∧ (requeue_body p p2 w s).notified = s.notified
      ∧ (requeue_body p p2 w s).mem_ptr = s.mem_ptr
      ∧ (requeue_body p p2 w s).user_get_timespec = s.user_get_timespec :=
  ⟨rfl, rfl, rfl, rfl⟩

/-- The requeue loop with a destination other than the source, started at the
front of the source queue `q`: it returns after moving the first
`m = min (requeue_max - requeued) |q|` waiters to the tail of the destination,
one reference each. -/
theorem requeue_loop_spec (p p2 : futex_ptr) (hne : p2 ≠ p) (requeue_max : Nat) :
    ∀ (q : List Nat) (requeued fuel m : Nat) (s : World) (f f2 : futex),
      s.deref p = some f → f.queue = q → s.deref p2 = some f2 → q.Nodup →
      (∀ x ∈ q, x ∉ f2.queue) → s.chains_ok →
      m = min (requeue_max - requeued) q.length →
      m < f.refcount → f.refcount < 2 ^ 32 → f2.refcount + q.length < 2 ^ 32 → m < fuel →
      ∃ s', requeue_loop p p2 requeue_max fuel (list_first_entry q) requeued s
          = some (requeued + m, s')
        ∧ s'.chains_ok
        ∧ s'.deref p = some { f with queue := q.drop m, refcount := f.refcount - m }
        ∧ s'.deref p2
          = some { f2 with queue := f2.queue ++ q.take m, refcount := f2.refcount + m }
        ∧ (∀ r, r ≠ p → r ≠ p2 → s'.deref r
            = (s.deref r).map (fun g => { g with queue := g.queue.diff (q.take m) }))
        ∧ s'.waits = s.waits.map (fun e => if e.1 ∈ q.take m then (e.1, p2) else e)
        ∧ s'.notified = s.notified ∧ s'.mem_ptr = s.mem_ptr
        ∧ s'.user_get_timespec = s.user_get_timespec := by
  intro q
  induction q with
  | nil =>
    intro requeued fuel m s f f2 hf hq hf2 _ _ hs hm _ _ _ hfuel
    obtain ⟨fuel, rfl⟩ : ∃ n, fuel = n + 1 := ⟨fuel - 1, by omega⟩
    have hm0 : m = 0 := by simpa using hm
    subst hm0
    refine ⟨s, by simp [requeue_loop, list_first_entry], hs, ?_, ?_, ?_, by simp, rfl, rfl, rfl⟩
    · rw [hf, ← hq]; rfl
    · rw [hf2]; simp
    · intro r _ _
      cases s.deref r <;> simp
  | cons w q ih =>
    intro requeued fuel m s f f2 hf hq hf2 hnd hdis hs hm hmr hr hr2 hfuel
    obtain ⟨fuel, rfl⟩ : ∃ n, fuel = n + 1 := ⟨fuel - 1, by omega⟩
    by_cases hw : requeued ≥ requeue_max
    · have hm0 : m = 0 := by rw [hm, Nat.sub_eq_zero_of_le hw]; simp
      subst hm0
      refine ⟨s, by simp [requeue_loop, list_first_entry, hw], hs, ?_, ?_, ?_, by simp,
        rfl, rfl, rfl⟩
      · rw [hf, ← hq]; rfl
      · rw [hf2]; simp
      · intro r _ _
        cases s.deref r <;> simp
    · rw [List.nodup_cons] at hnd
      simp only [List.length_cons] at hm hr2
      obtain ⟨m', rfl⟩ : ∃ n, m = n + 1 := ⟨m - 1, by omega⟩
      have hwq : w ∉ f2.queue := hdis w (List.mem_cons_self _ _)
      obtain ⟨b1, b2, b3, b4⟩ := requeue_body_distinct p p2 hne w s f f2 hf hf2 hwq
        (by omega) hr (by omega)
      obtain ⟨c1, c2, c3, c4⟩ := requeue_body_fields p p2 w s
      have hfq : f.queue.erase w = q := by rw [hq]; simp
      rw [hfq] at b1
      have hdis' : ∀ x ∈ q, x ∉ f2.queue ++ [w] := by
        intro x hx
        simp only [List.mem_append, List.mem_singleton, not_or]
        refine ⟨hdis x (List.mem_cons_of_mem _ hx), ?_⟩
        rintro rfl
        exact hnd.1 hx
      obtain ⟨s', h1, h2, h3, h4, h5, h6, h7, h8, h9⟩ :=
        ih (requeued + 1) fuel m' (requeue_body p p2 w s) _ _ b1 rfl b2 hnd.2 hdis'
          (World.chains_ok_requeue_body p p2 w s hs) (by omega)
          (by simp only []; omega) (by simp only []; omega) (by simp only []; omega) (by omega)
      refine ⟨s', ?_, h2, ?_, ?_, ?_, ?_, by rw [h7, c2], by rw [h8, c3], by rw [h9, c4]⟩
      · rw [list_first_entry, List.head?_cons,
          requeue_loop_step p p2 requeue_max fuel w requeued s hw (by rw [b4]; omega),
          World.queue_of_eq hf, hq, list_next_entry_head,
          show requeued + (m' + 1) = requeued + 1 + m' by omega]
        exact h1
      · rw [h3]
        simp only [List.drop_succ_cons, Nat.sub_sub, Nat.add_comm 1 m']
      · rw [h4]
        simp only [List.take_succ_cons, List.append_assoc, List.singleton_append,
          Nat.add_assoc, Nat.add_comm 1 m']
      · intro r hr1 hr2'
        rw [h5 r hr1 hr2', b3 r hr1 hr2', List.take_succ_cons]
        cases s.deref r <;> simp [List.diff_cons]
      · rw [h6, c1, List.map_map]
        apply List.map_congr_left
        intro e _
        simp only [Function.comp, List.take_succ_cons, List.mem_cons]
        by_cases he : e.1 = w
        · simp [he]
        · simp [he]

/-! ## The requeue loop, destination equal to the source -/

theorem requeue_body_same (p : futex_ptr) (w : Nat) (s : World) (f : futex)
    (hf : s.deref p = some f) (hr1 : 0 < f.refcount) (hr2 : f.refcount < 2 ^ 32) :
    (requeue_body p p w s).deref p = some { f with queue := f.queue.erase w ++ [w] }
      ∧ (∀ r, r ≠ p → (requeue_body p p w s).deref r
          = (s.deref r).map (fun g => { g with queue := g.queue.erase w }))
      ∧ ((s.list_remove w).list_add_tail p w).refcount_of p = f.refcount := by
  have e1 : ((f.refcount + 2 ^ 32 - 1) % 2 ^ 32 + 1) % 2 ^ 32 = f.refcount := by omega
  refine ⟨?_, ?_, ?_⟩
  · simp only [requeue_body, World.deref_set_wait_futex, World.list_add_tail]
    rw [World.deref_modify_self _ (keeps_key_refcount _),
      World.deref_modify_self _ (keeps_key_refcount _),
      World.deref_modify_self _ (keeps_key_queue _),
      World.deref_list_remove, hf]
    simp only [Option.map_some', e1]
  · intro r hr
    simp only [requeue_body, World.deref_set_wait_futex, World.list_add_tail]
    rw [World.deref_modify_other _ (keeps_key_refcount _) hr,
      World.deref_modify_other _ (keeps_key_refcount _) hr,
      World.deref_modify_other _ (keeps_key_queue _) hr,
      World.deref_list_remove]
  · simp only [World.refcount_of, World.list_add_tail]
    rw [World.deref_modify_self _ (keeps_key_queue _), World.deref_list_remove, hf]
    rfl

/-- The requeue loop whose destination is the source futex itself: every pass
moves the waiter under the cursor to the tail of the same queue, so the queue
is permuted, the reference count is unchanged, and the loop stops when the
budget `requeue_max` is used up or the cursor has come back to the list head.  `ws` is the
sequence of the waiters moved. -/
theorem requeue_loop_same (p : futex_ptr) (requeue_max : Nat) :
    ∀ (fuel requeued : Nat) (c : Option Nat) (s : World) (f : futex),
      s.deref p = some f → f.queue.Nodup → (∀ w, c = some w → w ∈ f.queue) → s.chains_ok →
      1 < f.refcount → f.refcount < 2 ^ 32 → requeue_max - requeued < fuel →
      ∃ (s' : World) (q' ws : List Nat),
        requeue_loop p p requeue_max fuel c requeued s = some (requeued + ws.length, s')
        ∧ ws.length ≤ requeue_max - requeued ∧ (∀ x ∈ ws, x ∈ f.queue)
        ∧ s'.chains_ok
        ∧ s'.deref p = some { f with queue := q' } ∧ q'.Perm f.queue
        ∧ (∀ r, r ≠ p → s'.deref r
            = (s.deref r).map (fun g => { g with queue := g.queue.diff ws }))
        ∧ s'.waits = s.waits.map (fun e => if e.1 ∈ ws then (e.1, p) else e)
        ∧ s'.notified = s.notified ∧ s'.mem_ptr = s.mem_ptr
        ∧ s'.user_get_timespec = s.user_get_timespec := by
  intro fuel
  induction fuel with
  | zero => intro requeued c s f _ _ _ _ _ _ hfuel; omega
  | succ fuel ih =>
    intro requeued c s f hf hnd hc hs hr1 hr2 hfuel
    have stop : ∀ (hstop : requeue_loop p p requeue_max (fuel + 1) c requeued s
        = some (requeued, s)), ∃ (s' : World) (q' ws : List Nat),
        requeue_loop p p requeue_max (fuel + 1) c requeued s = some (requeued + ws.length, s')
        ∧ ws.length ≤ requeue_max - requeued ∧ (∀ x ∈ ws, x ∈ f.queue)
        ∧ s'.chains_ok
        ∧ s'.deref p = some { f with queue := q' } ∧ q'.Perm f.queue
        ∧ (∀ r, r ≠ p → s'.deref r
            = (s.deref r).map (fun g => { g with queue := g.queue.diff ws }))
        ∧ s'.waits = s.waits.map (fun e => if e.1 ∈ ws then (e.1, p) else e)
        ∧ s'.notified = s.notified ∧ s'.mem_ptr = s.mem_ptr
        ∧ s'.user_get_timespec = s.user_get_timespec := by
      intro hstop
      refine ⟨s, f.queue, [], by simpa using hstop, by simp, by simp, hs, hf, List.Perm.refl _,
        ?_, by simp, rfl, rfl, rfl⟩
      intro r _
      cases s.deref r <;> simp
    cases c with
    | none => exact stop (by simp [requeue_loop])
    | some w =>
      by_cases hw : requeued ≥ requeue_max
      · exact stop (by simp [requeue_loop, hw])
      · have hwq : w ∈ f.queue := hc w rfl
        obtain ⟨b1, b2, b3⟩ := requeue_body_same p w s f hf (by omega) hr2
        obtain ⟨c1, c2, c3, c4⟩ := requeue_body_fields p p w s
        have hperm : (f.queue.erase w ++ [w]).Perm f.queue :=
          (List.perm_append_comm.trans (List.perm_cons_erase hwq).symm)
        have hc' : ∀ t, list_next_entry f.queue w = some t → t ∈ f.queue.erase w ++ [w] := by
          intro t ht
          rw [List.mem_append]
          left
          exact (List.mem_erase_of_ne (list_next_entry_ne _ _ _ hnd ht)).2
            (list_next_entry_mem _ _ _ ht)
        obtain ⟨s', q', ws, h1, h2, h3, h4, h5, h6, h7, h8, h9, h10, h11⟩ :=
          ih (requeued + 1) (list_next_entry f.queue w) (requeue_body p p w s)
            { f with queue := f.queue.erase w ++ [w] } b1 (hperm.nodup_iff.2 hnd) hc'
            (World.chains_ok_requeue_body p p w s hs) hr1 hr2 (by omega)
        refine ⟨s', q', w :: ws, ?_, ?_, ?_, h4, h5, h6.trans hperm, ?_, ?_,
          by rw [h9, c2], by rw [h10, c3], by rw [h11, c4]⟩
        · rw [requeue_loop_step p p requeue_max fuel w requeued s hw (by rw [b3]; omega),
            World.queue_of_eq hf, List.length_cons,
            show requeued + (ws.length + 1) = requeued + 1 + ws.length by omega]
          exact h1
        · simp only [List.length_cons]; omega
        · intro x hx
          rcases List.mem_cons.1 hx with rfl | hx
          · exact hwq
          · exact hperm.subset (h3 x hx)
        · intro r hr
          rw [h7 r hr, b2 r hr]
          cases s.deref r <;> simp [List.diff_cons]
        · rw [h8, c1, List.map_map]
          apply List.map_congr_left
          intro e _
          simp only [Function.comp, List.mem_cons]
          by_cases he : e.1 = w
          · simp [he]
          · simp [he]

/-! ## Consequences of well-formedness -/

theorem World.wf.chains_ok {s : World} (h : s.wf) : s.chains_ok := ⟨h.unique, h.bucket⟩

theorem World.deref_mem {s : World} {p : futex_ptr} {f : futex} (h : s.deref p = some f) :
    f ∈ s.futex_hash (futex_hash_index p.2 p.1) ∧ f.mem = p.1 ∧ f.addr = p.2 := by
  have h1 := List.mem_of_find?_eq_some h
  have h2 := List.find?_some h
  have h3 := (futex.is_iff p f).1 h2
  rw [Prod.ext_iff] at h3
  exact ⟨h1, h3.1, h3.2⟩

theorem World.wf.refcount_pos_of {s : World} (h : s.wf) {p : futex_ptr} {f : futex}
    (hf : s.deref p = some f) : 0 < f.refcount :=
  h.refcount_pos _ f (World.deref_mem hf).1

theorem World.wf.refcount_le {s : World} (h : s.wf) {p : futex_ptr} {f : futex}
    (hf : s.deref p = some f) : f.refcount ≤ MAX_PID := by
  rw [h.refcount _ f (World.deref_mem hf).1]
  exact (List.length_filter_le _ _).trans h.waits_bound

theorem World.wf.nodup_of {s : World} (h : s.wf) {p : futex_ptr} {f : futex}
    (hf : s.deref p = some f) : f.queue.Nodup :=
  h.queue_nodup _ f (World.deref_mem hf).1

theorem World.wf.queued_live {s : World} (h : s.wf) {p : futex_ptr} {f : futex}
    (hf : s.deref p = some f) {w : Nat} (hw : w ∈ f.queue) : (w, p) ∈ s.waits := by
  obtain ⟨h1, h2, h3⟩ := World.deref_mem hf
  have := h.queue_waits _ f h1 w hw
  rwa [h2, h3] at this

theorem World.wf.waits_unique {s : World} (h : s.wf) {w : Nat} {p r : futex_ptr}
    (hp : (w, p) ∈ s.waits) (hr : (w, r) ∈ s.waits) : p = r := by
  have hnd := h.waits_nodup
  generalize s.waits = l at hp hr hnd
  induction l with
  | nil => simp at hp
  | cons e l ih =>
    rw [List.map_cons, List.nodup_cons] at hnd
    rcases List.mem_cons.1 hp with hp | hp <;> rcases List.mem_cons.1 hr with hr | hr
    · have := hp.trans hr.symm
      exact (Prod.ext_iff.1 this).2
    · exact absurd (List.mem_map.2 ⟨(w, r), hr, by rw [← hp]⟩) hnd.1
    · exact absurd (List.mem_map.2 ⟨(w, p), hp, by rw [← hr]⟩) hnd.1
    · exact ih hp hr hnd.2

theorem World.wf.queue_le_refcount {s : World} (h : s.wf) {p : futex_ptr} {f : futex}
    (hf : s.deref p = some f) : f.queue.length ≤ f.refcount := by
  obtain ⟨h1, h2, h3⟩ := World.deref_mem hf
  rw [h.refcount _ f h1, h2, h3]
  have hsub : f.queue.map (fun w => (w, p)) ⊆ s.waits.filter (fun e => decide (e.2 = p)) := by
    intro e he
    obtain ⟨w, hw, rfl⟩ := List.mem_map.1 he
    exact List.mem_filter.2 ⟨h.queued_live hf hw, by simp⟩
  have hnd : (f.queue.map (fun w => (w, p))).Nodup :=
    (h.nodup_of hf).map (fun a b hab => (Prod.ext_iff.1 hab).1)
  have := (List.subperm_of_subset hnd hsub).length_le
  simpa using this

theorem World.wf.disjoint {s : World} (h : s.wf) {p r : futex_ptr} {f g : futex}
    (hf : s.deref p = some f) (hg : s.deref r = some g) (hne : r ≠ p) :
    ∀ x ∈ f.queue, x ∉ g.queue := by
  intro x hx hx'
  exact hne (h.waits_unique (h.queued_live hg hx') (h.queued_live hf hx))

theorem World.wf.waits_fixed {s : World} (h : s.wf) {p : futex_ptr} {f : futex}
    (hf : s.deref p = some f) (ws : List Nat) (hws : ∀ x ∈ ws, x ∈ f.queue) :
    s.waits.map (fun e => if e.1 ∈ ws then (e.1, p) else e) = s.waits := by
  conv_rhs => rw [← List.map_id s.waits]
  apply List.map_congr_left
  intro e he
  by_cases hm : e.1 ∈ ws
  · simp only [hm, if_true, id]
    have : (e.1, p) ∈ s.waits := h.queued_live hf (hws _ hm)
    have h2 : (e.1, e.2) ∈ s.waits := he
    exact Prod.ext rfl (h.waits_unique this h2)
  · simp [hm]

theorem World.wf.map_diff_other {s : World} (h : s.wf) {p r : futex_ptr} {f : futex}
    (hf : s.deref p = some f) (hne : r ≠ p) (ws : List Nat) (hws : ∀ x ∈ ws, x ∈ f.queue) :
    (s.deref r).map (fun g => { g with queue := g.queue.diff ws }) = s.deref r := by
  cases hg : s.deref r with
  | none => rfl
  | some g =>
    simp only [Option.map_some']
    rw [diff_of_disjoint ws g.queue (fun x hx => h.disjoint hf hg hne x (hws x hx))]

/-! ## `futex_put_unlocked` and `futex_wakelike`, step by step -/

theorem futex_put_unlocked_spec (p : futex_ptr) (s : World) (f : futex)
    (hf : s.deref p = some f) (hs : s.chains_ok) (hr1 : 0 < f.refcount)
    (hr2 : f.refcount < 2 ^ 32) (hq : f.refcount = 1 → f.queue = []) :
    ∃ s', futex_put_unlocked p s = some s' ∧ s'.chains_ok
      ∧ s'.deref p = (if f.refcount = 1 then none
          else some { f with refcount := f.refcount - 1 })
      ∧ (∀ r, r ≠ p → s'.deref r = s.deref r)
      ∧ s'.waits = s.waits ∧ s'.notified = s.notified ∧ s'.mem_ptr = s.mem_ptr
      ∧ s'.user_get_timespec = s.user_get_timespec := by
  have e1 : (f.refcount + 2 ^ 32 - 1) % 2 ^ 32 = f.refcount - 1 := by omega
  by_cases h1 : f.refcount = 1
  · have e0 : (f.refcount + 2 ^ 32 - 1) % 2 ^ 32 = 0 := by rw [e1, h1]
    refine ⟨_, futex_put_unlocked_free p s hf e0 (hq h1), World.chains_ok_unlink s p hs, ?_,
      fun r hr => World.deref_unlink_other s hr, rfl, rfl, rfl, rfl⟩
    rw [if_pos h1]
    exact World.deref_unlink_self s p hs
  · have e0 : (f.refcount + 2 ^ 32 - 1) % 2 ^ 32 ≠ 0 := by rw [e1]; omega
    refine ⟨_, futex_put_unlocked_keep p s hf e0, World.chains_ok_modify s (keeps_key_refcount _) p hs,
      ?_, fun r hr => World.deref_modify_other s (keeps_key_refcount _) hr, rfl, rfl, rfl, rfl⟩
    rw [if_neg h1, World.deref_modify_self s (keeps_key_refcount _), hf, e1]
    rfl

theorem futex_get_unlocked_eq (current : task) (addr : Nat) (s : World) :
    futex_get_unlocked current addr s
      = ((current.mem, addr), (futex_get_unlocked current addr s).2) :=
  Prod.ext (futex_get_unlocked_fst current addr s) rfl

theorem futex_get_unlocked_user_get (current : task) (addr : Nat) (s : World) :
    (futex_get_unlocked current addr s).2.user_get_timespec = s.user_get_timespec := by
  cases h : s.deref (current.mem, addr) with
  | none => rw [futex_get_unlocked_new current addr s h]
  | some f => rw [futex_get_unlocked_found current addr s h]; rfl

theorem futex_wakelike_unfold_wake (current : task) (op : Int)
    (uaddr wake_max requeue_max requeue_addr : Nat) (s s1 s2 s3 : World) (woken : Nat)
    (hop : op ≠ (FUTEX_REQUEUE_ : Int))
    (hget : futex_get_unlocked current uaddr s = ((current.mem, uaddr), s1))
    (hloop : wake_loop (current.mem, uaddr) wake_max (wake_max + 1)
      (list_first_entry (s1.queue_of (current.mem, uaddr))) 0 s1 = some (woken, s2))
    (hput : futex_put_unlocked (current.mem, uaddr) s2 = some s3) :
    futex_wakelike current op uaddr wake_max requeue_max requeue_addr s
      = some (int_of_unsigned woken, s3) := by
  simp only [futex_wakelike, futex_get, hget, hloop, hop, if_false, futex_put, hput]

theorem futex_wakelike_unfold_requeue (current : task)
    (uaddr wake_max requeue_max requeue_addr : Nat) (s s1 s2 s3 s4 s5 s6 : World)
    (woken requeued : Nat)
    (hget : futex_get_unlocked current uaddr s = ((current.mem, uaddr), s1))
    (hloop : wake_loop (current.mem, uaddr) wake_max (wake_max + 1)
      (list_first_entry (s1.queue_of (current.mem, uaddr))) 0 s1 = some (woken, s2))
    (hget2 : futex_get_unlocked current requeue_addr s2 = ((current.mem, requeue_addr), s3))
    (hrq : requeue_loop (current.mem, uaddr) (current.mem, requeue_addr) requeue_max
      (requeue_max + 1) (list_first_entry (s3.queue_of (current.mem, uaddr))) 0 s3
        = some (requeued, s4))
    (hput2 : futex_put_unlocked (current.mem, requeue_addr) s4 = some s5)
    (hput : futex_put_unlocked (current.mem, uaddr) s5 = some s6) :
    futex_wakelike current (FUTEX_REQUEUE_ : Int) uaddr wake_max requeue_max requeue_addr s
      = some (int_of_unsigned ((woken + requeued) % 2 ^ 32), s6) := by
  simp only [futex_wakelike, futex_get, hget, hloop, if_true, hget2, hrq, hput2, futex_put, hput]

theorem int_of_unsigned_small (n : Nat) (h : n < 2 ^ 31) : int_of_unsigned n = (n : Int) := by
  have h1 : n % 2 ^ 32 = n := Nat.mod_eq_of_lt (by omega)
  simp only [int_of_unsigned, h1, h, if_true]

theorem MAX_PID_eq : MAX_PID = 32768 := by decide

theorem futex_wakelike_wake_spec (current : task) (op : Int)
    (uaddr wake_max requeue_max requeue_addr : Nat) (s : World) (hs : s.wf)
    (hop : op ≠ (FUTEX_REQUEUE_ : Int)) :
    ∃ s', futex_wakelike current op uaddr wake_max requeue_max requeue_addr s
        = some (((min wake_max (s.queue_of (current.mem, uaddr)).length : Nat) : Int), s')
      ∧ s'.chains_ok
      ∧ s'.deref (current.mem, uaddr) = (s.deref (current.mem, uaddr)).map (fun f =>
          { f with queue := f.queue.drop (min wake_max f.queue.length) })
      ∧ (∀ r, r ≠ (current.mem, uaddr) → s'.deref r = s.deref r)
      ∧ s'.notified = s.notified ++ (s.queue_of (current.mem, uaddr)).take
          (min wake_max (s.queue_of (current.mem, uaddr)).length)
      ∧ s'.waits = s.waits ∧ s'.mem_ptr = s.mem_ptr
      ∧ s'.user_get_timespec = s.user_get_timespec := by
  have g1 := World.deref_get_self current uaddr s
  have g2 := fun r hr => @World.deref_get_other current uaddr s r hr
  have g3 := World.chains_ok_get current uaddr s hs.chains_ok
  have g4 := futex_get_unlocked_eq current uaddr s
  have g5 := futex_get_unlocked_waits current uaddr s
  have g6 := futex_get_unlocked_notified current uaddr s
  have g7 := futex_get_unlocked_mem_ptr current uaddr s
  have g8 := futex_get_unlocked_user_get current uaddr s
  generalize (futex_get_unlocked current uaddr s).2 = s1 at g1 g2 g3 g4 g5 g6 g7 g8
  cases hf : s.deref (current.mem, uaddr) with
  | none =>
    rw [hf] at g1
    simp only at g1
    have hq1 : s1.queue_of (current.mem, uaddr) = [] := by rw [World.queue_of_eq g1]
    obtain ⟨s2, l1, l2, l3, l4, l5, l6, l7⟩ :=
      wake_loop_spec (current.mem, uaddr) wake_max [] 0 (wake_max + 1) s1 hq1 g3 (by simp)
    simp only [Nat.sub_zero, Nat.zero_add, List.length_nil, Nat.min_zero, List.take_nil,
      List.append_nil] at l1 l3 l4
    have l1' : wake_loop (current.mem, uaddr) wake_max (wake_max + 1)
        (list_first_entry (s1.queue_of (current.mem, uaddr))) 0 s1 = some (0, s2) := by
      rw [hq1]; exact l1
    have d2 : s2.deref (current.mem, uaddr)
        = some { refcount := 1, mem := current.mem, addr := uaddr, queue := [] } := by
      rw [l3, g1]; simp
    obtain ⟨s3, p1, p2, p3, p4, p5, p6, p7, p8⟩ :=
      futex_put_unlocked_spec (current.mem, uaddr) s2 _ d2 l2 (by simp) (by simp) (fun _ => rfl)
    refine ⟨s3, ?_, p2, ?_, ?_, ?_, ?_, ?_, ?_⟩
    · rw [futex_wakelike_unfold_wake current op uaddr wake_max requeue_max requeue_addr s s1 s2 s3 _
        hop g4 l1' p1, World.queue_of_none hf]
      simp [int_of_unsigned]
    · rw [p3]; simp
    · intro r hr
      rw [p4 r hr, l3, g2 r hr]
      cases s.deref r <;> simp
    · rw [p6, l4, g6, World.queue_of_none hf]; simp
    · rw [p5, l5, g5]
    · rw [p7, l6, g7]
    · rw [p8, l7, g8]
  | some f =>
    rw [hf] at g1
    simp only at g1
    have hr1 := hs.refcount_pos_of hf
    have hr2 := hs.refcount_le hf
    have hr3 := hs.queue_le_refcount hf
    rw [MAX_PID_eq] at hr2
    have e1 : (f.refcount + 1) % 2 ^ 32 = f.refcount + 1 := by omega
    rw [e1] at g1
    have hq1 : s1.queue_of (current.mem, uaddr) = f.queue := by rw [World.queue_of_eq g1]
    obtain ⟨s2, l1, l2, l3, l4, l5, l6, l7⟩ :=
      wake_loop_spec (current.mem, uaddr) wake_max f.queue 0 (wake_max + 1) s1 hq1 g3
        (by simp)
    simp only [Nat.sub_zero, Nat.zero_add] at l1 l3 l4
    have l1' : wake_loop (current.mem, uaddr) wake_max (wake_max + 1)
        (list_first_entry (s1.queue_of (current.mem, uaddr))) 0 s1
          = some (min wake_max f.queue.length, s2) := by
      rw [hq1]; exact l1
    have d2 : s2.deref (current.mem, uaddr)
        = some { f with refcount := f.refcount + 1,
                        queue := f.queue.drop (min wake_max f.queue.length) } := by
      rw [l3, g1]; simp [diff_take_eq_drop]
    obtain ⟨s3, p1, p2, p3, p4, p5, p6, p7, p8⟩ :=
      futex_put_unlocked_spec (current.mem, uaddr) s2 _ d2 l2 (by simp) (by simp only []; omega)
        (by simp only []; omega)
    refine ⟨s3, ?_, p2, ?_, ?_, ?_, ?_, ?_, ?_⟩
    · rw [futex_wakelike_unfold_wake current op uaddr wake_max requeue_max requeue_addr s s1 s2 s3 _
        hop g4 l1' p1, World.queue_of_eq hf, int_of_unsigned_small _ (by omega)]
    · rw [p3]
      simp only [Option.map_some']
      rw [if_neg (by omega)]
      simp
    · intro r hr
      rw [p4 r hr, l3, g2 r hr]
      exact hs.map_diff_other hf hr _ (fun x hx => List.mem_of_mem_take hx)
    · rw [p6, l4, g6, World.queue_of_eq hf]
    · rw [p5, l5, g5]
    · rw [p7, l6, g7]
    · rw [p8, l7, g8]

theorem World.deref_of_obs {s : World} {p : futex_ptr} (h : (s.deref p).isSome = true) :
    s.deref p = some { refcount := s.refcount_of p, mem := p.1, addr := p.2, queue := s.queue_of p } := by
  cases hf : s.deref p with
  | none => rw [hf] at h; simp at h
  | some f =>
    obtain ⟨_, h2, h3⟩ := World.deref_mem hf
    rw [World.refcount_of_eq hf, World.queue_of_eq hf, ← h2, ← h3]

theorem World.wf.queue_of_le {s : World} (h : s.wf) (p : futex_ptr) :
    (s.queue_of p).length ≤ s.refcount_of p := by
  cases hf : s.deref p with
  | none => rw [World.queue_of_none hf]; simp
  | some f => rw [World.queue_of_eq hf, World.refcount_of_eq hf]; exact h.queue_le_refcount hf

theorem World.wf.refcount_of_le {s : World} (h : s.wf) (p : futex_ptr) :
    s.refcount_of p ≤ 32768 := by
  cases hf : s.deref p with
  | none => rw [World.refcount_of_none hf]; omega
  | some f => rw [World.refcount_of_eq hf, ← MAX_PID_eq]; exact h.refcount_le hf

theorem World.wf.queue_of_nodup {s : World} (h : s.wf) (p : futex_ptr) :
    (s.queue_of p).Nodup := by
  cases hf : s.deref p with
  | none => rw [World.queue_of_none hf]; exact List.nodup_nil
  | some f => rw [World.queue_of_eq hf]; exact h.nodup_of hf

theorem World.wf.isSome_iff {s : World} (h : s.wf) (p : futex_ptr) :
    (s.deref p).isSome = true ↔ 0 < s.refcount_of p := by
  cases hf : s.deref p with
  | none => rw [World.refcount_of_none hf]; simp
  | some f => rw [World.refcount_of_eq hf]; simpa using h.refcount_pos_of hf

theorem World.wf.queue_of_disjoint {s : World} (h : s.wf) {p r : futex_ptr} (hne : r ≠ p) :
    ∀ x ∈ s.queue_of p, x ∉ s.queue_of r := by
  cases hf : s.deref p with
  | none => rw [World.queue_of_none hf]; simp
  | some f =>
    cases hg : s.deref r with
    | none => rw [World.queue_of_none hg]; simp
    | some g =>
      rw [World.queue_of_eq hf, World.queue_of_eq hg]
      exact h.disjoint hf hg hne

theorem World.wf.map_diff_queue_of {s : World} (h : s.wf) {p r : futex_ptr} (hne : r ≠ p)
    (ws : List Nat) (hws : ∀ x ∈ ws, x ∈ s.queue_of p) :
    (s.deref r).map (fun g => { g with queue := g.queue.diff ws }) = s.deref r := by
  cases hf : s.deref p with
  | none =>
    rw [World.queue_of_none hf] at hws
    have : ws = [] := List.eq_nil_iff_forall_not_mem.2 (fun x hx => by simpa using hws x hx)
    subst this
    cases s.deref r <;> simp
  | some f =>
    rw [World.queue_of_eq hf] at hws
    exact h.map_diff_other hf hne ws hws

theorem World.deref_get_obs (current : task) (addr : Nat) (s : World)
    (h : s.refcount_of (current.mem, addr) + 1 < 2 ^ 32) :
    (futex_get_unlocked current addr s).2.deref (current.mem, addr)
      = some { refcount := s.refcount_of (current.mem, addr) + 1, mem := current.mem,
               addr := addr, queue := s.queue_of (current.mem, addr) } := by
  rw [World.deref_get_self]
  cases hf : s.deref (current.mem, addr) with
  | none => simp [World.refcount_of_none hf, World.queue_of_none hf]
  | some f =>
    obtain ⟨_, h2, h3⟩ := World.deref_mem hf
    rw [World.refcount_of_eq hf] at h
    simp only [World.refcount_of_eq hf, World.queue_of_eq hf, Nat.mod_eq_of_lt h]
    simp only at h2 h3
    rw [← h2, ← h3]

theorem futex_put_unlocked_obs (p : futex_ptr) (s : World) (f : futex)
    (hf : s.deref p = some f) (hs : s.chains_ok) (hr1 : 0 < f.refcount)
    (hr2 : f.refcount < 2 ^ 32) (hq : f.refcount = 1 → f.queue = []) :
    ∃ s', futex_put_unlocked p s = some s' ∧ s'.chains_ok
      ∧ s'.queue_of p = f.queue ∧ s'.refcount_of p = f.refcount - 1
      ∧ ((s'.deref p).isSome = true ↔ 0 < s'.refcount_of p)
      ∧ (∀ r, r ≠ p → s'.deref r = s.deref r)
      ∧ s'.waits = s.waits ∧ s'.notified = s.notified ∧ s'.mem_ptr = s.mem_ptr
      ∧ s'.user_get_timespec = s.user_get_timespec := by
  obtain ⟨s', p1, p2, p3, p4, p5, p6, p7, p8⟩ := futex_put_unlocked_spec p s f hf hs hr1 hr2 hq
  refine ⟨s', p1, p2, ?_, ?_, ?_, p4, p5, p6, p7, p8⟩
  · by_cases h1 : f.refcount = 1
    · rw [if_pos h1] at p3
      rw [World.queue_of_none p3, hq h1]
    · rw [if_neg h1] at p3
      rw [World.queue_of_eq p3]
  · by_cases h1 : f.refcount = 1
    · rw [if_pos h1] at p3
      rw [World.refcount_of_none p3, h1]
    · rw [if_neg h1] at p3
      rw [World.refcount_of_eq p3]
  · by_cases h1 : f.refcount = 1
    · rw [if_pos h1] at p3
      rw [World.refcount_of_none p3, p3]; simp
    · rw [if_neg h1] at p3
      rw [World.refcount_of_eq p3, p3]
      simp only [Option.isSome_some, true_iff]
      omega

/-- What a requeue onto a different address does (`p` the source futex, `p2`
the destination, `q` and `d` their queues on entry). -/
theorem futex_wakelike_requeue_spec (current : task)
    (uaddr wake_max requeue_max requeue_addr : Nat) (s : World) (hs : s.wf)
    (hne : requeue_addr ≠ uaddr) (q d : List Nat) (k m : Nat)
    (hq : q = s.queue_of (current.mem, uaddr)) (hd : d = s.queue_of (current.mem, requeue_addr))
    (hk : k = min wake_max q.length) (hm : m = min requeue_max (q.length - k)) :
    ∃ s', futex_wakelike current (FUTEX_REQUEUE_ : Int) uaddr wake_max requeue_max requeue_addr s
        = some (((k + m : Nat) : Int), s')
      ∧ s'.chains_ok
      ∧ s'.queue_of (current.mem, uaddr) = q.drop (k + m)
      ∧ s'.refcount_of (current.mem, uaddr) = s.refcount_of (current.mem, uaddr) - m
      ∧ ((s'.deref (current.mem, uaddr)).isSome = true ↔ 0 < s'.refcount_of (current.mem, uaddr))
      ∧ s'.queue_of (current.mem, requeue_addr) = d ++ (q.drop k).take m
      ∧ s'.refcount_of (current.mem, requeue_addr)
          = s.refcount_of (current.mem, requeue_addr) + m
      ∧ ((s'.deref (current.mem, requeue_addr)).isSome = true
          ↔ 0 < s'.refcount_of (current.mem, requeue_addr))
      ∧ (∀ r, r ≠ (current.mem, uaddr) → r ≠ (current.mem, requeue_addr) → s'.deref r = s.deref r)
      ∧ s'.notified = s.notified ++ q.take k
      ∧ s'.waits = s.waits.map (fun e =>
          if e.1 ∈ (q.drop k).take m then (e.1, (current.mem, requeue_addr)) else e)
      ∧ s'.mem_ptr = s.mem_ptr ∧ s'.user_get_timespec = s.user_get_timespec := by
  have hpne : (current.mem, requeue_addr) ≠ (current.mem, uaddr) := by
    intro h; exact hne (Prod.ext_iff.1 h).2
  have hR := hs.refcount_of_le (current.mem, uaddr)
  have hR2 := hs.refcount_of_le (current.mem, requeue_addr)
  have hqR := hs.queue_of_le (current.mem, uaddr)
  have hdR := hs.queue_of_le (current.mem, requeue_addr)
  rw [← hq] at hqR
  rw [← hd] at hdR
  -- first reference
  have g1 := World.deref_get_obs current uaddr s (by omega)
  have g2 := fun r hr => @World.deref_get_other current uaddr s r hr
  have g3 := World.chains_ok_get current uaddr s hs.chains_ok
  have g4 := futex_get_unlocked_eq current uaddr s
  have g5 := futex_get_unlocked_waits current uaddr s
  have g6 := futex_get_unlocked_notified current uaddr s
  have g7 := futex_get_unlocked_mem_ptr current uaddr s
  have g8 := futex_get_unlocked_user_get current uaddr s
  generalize (futex_get_unlocked current uaddr s).2 = s1 at g1 g2 g3 g4 g5 g6 g7 g8
  rw [← hq] at g1
  -- wake loop
  have hq1 : s1.queue_of (current.mem, uaddr) = q := by rw [World.queue_of_eq g1]
  obtain ⟨s2, l1, l2, l3, l4, l5, l6, l7⟩ :=
    wake_loop_spec (current.mem, uaddr) wake_max q 0 (wake_max + 1) s1 hq1 g3 (by simp)
  simp only [Nat.sub_zero, Nat.zero_add, ← hk] at l1 l3 l4
  have l1' : wake_loop (current.mem, uaddr) wake_max (wake_max + 1)
      (list_first_entry (s1.queue_of (current.mem, uaddr))) 0 s1 = some (k, s2) := by
    rw [hq1]; exact l1
  have d2 : s2.deref (current.mem, uaddr)
      = some { refcount := s.refcount_of (current.mem, uaddr) + 1, mem := current.mem,
               addr := uaddr, queue := q.drop k } := by
    rw [l3, g1]; simp [diff_take_eq_drop]
  have o2 : ∀ r, r ≠ (current.mem, uaddr) → s2.deref r = s.deref r := by
    intro r hr
    rw [l3, g2 r hr]
    exact hs.map_diff_queue_of hr _ (fun x hx => by rw [← hq]; exact List.mem_of_mem_take hx)
  -- second reference
  have hrc2 : s2.refcount_of (current.mem, requeue_addr)
      = s.refcount_of (current.mem, requeue_addr) := by
    simp only [World.refcount_of, o2 _ hpne]
  have hqo2 : s2.queue_of (current.mem, requeue_addr) = d := by
    simp only [World.queue_of, o2 _ hpne, hd]
  have a1 := World.deref_get_obs current requeue_addr s2 (by rw [hrc2]; omega)
  have a2 := fun r hr => @World.deref_get_other current requeue_addr s2 r hr
  have a3 := World.chains_ok_get current requeue_addr s2 l2
  have a4 := futex_get_unlocked_eq current requeue_addr s2
  have a5 := futex_get_unlocked_waits current requeue_addr s2
  have a6 := futex_get_unlocked_notified current requeue_addr s2
  have a7 := futex_get_unlocked_mem_ptr current requeue_addr s2
  have a8 := futex_get_unlocked_user_get current requeue_addr s2
  generalize (futex_get_unlocked current requeue_addr s2).2 = s3 at a1 a2 a3 a4 a5 a6 a7 a8
  rw [hrc2, hqo2] at a1
  have d3 : s3.deref (current.mem, uaddr)
      = some { refcount := s.refcount_of (current.mem, uaddr) + 1, mem := current.mem,
               addr := uaddr, queue := q.drop k } := by
    rw [a2 _ hpne.symm, d2]
  -- requeue loop
  have hnd : (q.drop k).Nodup := by
    rw [hq]; exact (hs.queue_of_nodup _).sublist (List.drop_sublist _ _)
  have hdis : ∀ x ∈ q.drop k, x ∉ d := by
    intro x hx
    rw [hd]
    exact hs.queue_of_disjoint hpne x (by rw [← hq]; exact List.mem_of_mem_drop hx)
  have hlen : (q.drop k).length = q.length - k := List.length_drop _ _
  obtain ⟨s4, r1, r2, r3, r4, r5, r6, r7, r8, r9⟩ :=
    requeue_loop_spec (current.mem, uaddr) (current.mem, requeue_addr) hpne requeue_max
      (q.drop k) 0 (requeue_max + 1) m s3 _ _ d3 rfl a1 hnd hdis a3
      (by rw [hlen, hm]; simp) (by simp only []; omega) (by simp only []; omega)
      (by simp only [hlen]; omega) (by omega)
  simp only [Nat.zero_add] at r1
  have r1' : requeue_loop (current.mem, uaddr) (current.mem, requeue_addr) requeue_max
      (requeue_max + 1) (list_first_entry (s3.queue_of (current.mem, uaddr))) 0 s3
        = some (m, s4) := by
    rw [World.queue_of_eq d3]; exact r1
  -- drop the second reference
  obtain ⟨s5, b1, b2, b3, b4, b5, b6, b7, b8, b9, b10⟩ :=
    futex_put_unlocked_obs (current.mem, requeue_addr) s4 _ r4 r2 (by simp)
      (by simp only []; omega)
      (by
        simp only []
        intro h1
        have hm0 : m = 0 := by omega
        have hd0 : d = [] := List.eq_nil_of_length_eq_zero (by omega)
        rw [hm0, hd0]; rfl)
  -- drop the first reference
  have d5 : s5.deref (current.mem, uaddr)
      = some { refcount := s.refcount_of (current.mem, uaddr) + 1 - m, mem := current.mem,
               addr := uaddr, queue := (q.drop k).drop m } := by
    rw [b6 _ hpne.symm, r3]
  obtain ⟨s6, c1, c2, c3, c4, c5, c6, c7, c8, c9, c10⟩ :=
    futex_put_unlocked_obs (current.mem, uaddr) s5 _ d5 b2 (by simp only []; omega)
      (by simp only []; omega)
      (by
        simp only []
        intro h1
        exact List.drop_eq_nil_of_le (by omega))
  refine ⟨s6, ?_, c2, ?_, ?_, c5, ?_, ?_, ?_, ?_, ?_, ?_, ?_, ?_⟩
  · rw [futex_wakelike_unfold_requeue current uaddr wake_max requeue_max requeue_addr
      s s1 s2 s3 s4 s5 s6 k m g4 l1' a4 r1' b1 c1,
      Nat.mod_eq_of_lt (by omega), int_of_unsigned_small _ (by omega)]
  · rw [c3]; simp only [List.drop_drop]
  · rw [c4]; simp only []; omega
  · rw [World.queue_of, c6 _ hpne, ← World.queue_of, b3]
  · rw [World.refcount_of, c6 _ hpne, ← World.refcount_of, b4]; simp only []; omega
  · rw [World.refcount_of, c6 _ hpne, ← World.refcount_of]; exact b5
  · intro r hr hr'
    rw [c6 r hr, b6 r hr', r5 r hr hr', a2 r hr', o2 r hr]
    exact hs.map_diff_queue_of hr _
      (fun x hx => by rw [← hq]; exact List.mem_of_mem_drop (List.mem_of_mem_take hx))
  · rw [c8, b8, r7, a6, l4, g6]
  · rw [c7, b7, r6, a5, l5, g5]
  · rw [c9, b9, r8, a7, l6, g7]
  · rw [c10, b10, r9, a8, l7, g8]

theorem World.wf.waits_fixed_queue_of {s : World} (h : s.wf) (p : futex_ptr) (ws : List Nat)
    (hws : ∀ x ∈ ws, x ∈ s.queue_of p) :
    s.waits.map (fun e => if e.1 ∈ ws then (e.1, p) else e) = s.waits := by
  cases hf : s.deref p with
  | none =>
    rw [World.queue_of_none hf] at hws
    have : ws = [] := List.eq_nil_iff_forall_not_mem.2 (fun x hx => by simpa using hws x hx)
    subst this
    simp
  | some f =>
    rw [World.queue_of_eq hf] at hws
    exact h.waits_fixed hf ws hws

/-- What a requeue onto the source address itself does: `n` passes of the
requeue loop rotate the queue left behind by the wake phase. -/
theorem futex_wakelike_requeue_same_spec (current : task)
    (uaddr wake_max requeue_max : Nat) (s : World) (hs : s.wf) (q : List Nat) (k : Nat)
    (hq : q = s.queue_of (current.mem, uaddr)) (hk : k = min wake_max q.length) :
    ∃ (s' : World) (n : Nat) (q' : List Nat),
      futex_wakelike current (FUTEX_REQUEUE_ : Int) uaddr wake_max requeue_max uaddr s
        = some (int_of_unsigned ((k + n) % 2 ^ 32), s')
      ∧ n ≤ requeue_max
      ∧ s'.chains_ok
      ∧ s'.queue_of (current.mem, uaddr) = q' ∧ q'.Perm (q.drop k)
      ∧ s'.refcount_of (current.mem, uaddr) = s.refcount_of (current.mem, uaddr)
      ∧ ((s'.deref (current.mem, uaddr)).isSome = true ↔ 0 < s'.refcount_of (current.mem, uaddr))
      ∧ (∀ r, r ≠ (current.mem, uaddr) → s'.deref r = s.deref r)
      ∧ s'.notified = s.notified ++ q.take k
      ∧ s'.waits = s.waits
      ∧ s'.mem_ptr = s.mem_ptr ∧ s'.user_get_timespec = s.user_get_timespec := by
  have hR := hs.refcount_of_le (current.mem, uaddr)
  have hqR := hs.queue_of_le (current.mem, uaddr)
  rw [← hq] at hqR
  -- first reference
  have g1 := World.deref_get_obs current uaddr s (by omega)
  have g2 := fun r hr => @World.deref_get_other current uaddr s r hr
  have g3 := World.chains_ok_get current uaddr s hs.chains_ok
  have g4 := futex_get_unlocked_eq current uaddr s
  have g5 := futex_get_unlocked_waits current uaddr s
  have g6 := futex_get_unlocked_notified current uaddr s
  have g7 := futex_get_unlocked_mem_ptr current uaddr s
  have g8 := futex_get_unlocked_user_get current uaddr s
  generalize (futex_get_unlocked current uaddr s).2 = s1 at g1 g2 g3 g4 g5 g6 g7 g8
  rw [← hq] at g1
  -- wake loop
  have hq1 : s1.queue_of (current.mem, uaddr) = q := by rw [World.queue_of_eq g1]
  obtain ⟨s2, l1, l2, l3, l4, l5, l6, l7⟩ :=
    wake_loop_spec (current.mem, uaddr) wake_max q 0 (wake_max + 1) s1 hq1 g3 (by simp)
  simp only [Nat.sub_zero, Nat.zero_add, ← hk] at l1 l3 l4
  have l1' : wake_loop (current.mem, uaddr) wake_max (wake_max + 1)
      (list_first_entry (s1.queue_of (current.mem, uaddr))) 0 s1 = some (k, s2) := by
    rw [hq1]; exact l1
  have d2 : s2.deref (current.mem, uaddr)
      = some { refcount := s.refcount_of (current.mem, uaddr) + 1, mem := current.mem,
               addr := uaddr, queue := q.drop k } := by
    rw [l3, g1]; simp [diff_take_eq_drop]
  have o2 : ∀ r, r ≠ (current.mem, uaddr) → s2.deref r = s.deref r := by
    intro r hr
    rw [l3, g2 r hr]
    exact hs.map_diff_queue_of hr _ (fun x hx => by rw [← hq]; exact List.mem_of_mem_take hx)
  -- second reference, on the same futex
  have a1 := World.deref_get_obs current uaddr s2 (by rw [World.refcount_of_eq d2]; simp only []; omega)
  have a2 := fun r hr => @World.deref_get_other current uaddr s2 r hr
  have a3 := World.chains_ok_get current uaddr s2 l2
  have a4 := futex_get_unlocked_eq current uaddr s2
  have a5 := futex_get_unlocked_waits current uaddr s2
  have a6 := futex_get_unlocked_notified current uaddr s2
  have a7 := futex_get_unlocked_mem_ptr current uaddr s2
  have a8 := futex_get_unlocked_user_get current uaddr s2
  generalize (futex_get_unlocked current uaddr s2).2 = s3 at a1 a2 a3 a4 a5 a6 a7 a8
  rw [World.refcount_of_eq d2, World.queue_of_eq d2] at a1
  simp only [] at a1
  -- requeue loop
  have hnd : (q.drop k).Nodup := by
    rw [hq]; exact (hs.queue_of_nodup _).sublist (List.drop_sublist _ _)
  obtain ⟨s4, q', ws, r1, r2, r3, r4, r5, r6, r7, r8, r9, r10, r11⟩ :=
    requeue_loop_same (current.mem, uaddr) requeue_max (requeue_max + 1) 0
      (list_first_entry (q.drop k)) s3 _ a1 hnd
      (fun w hw => List.mem_of_mem_head? hw) a3 (by simp only []; omega)
      (by simp only []; omega) (by omega)
  simp only [Nat.zero_add, Nat.sub_zero] at r1 r2 r3 r5 r6
  have r1' : requeue_loop (current.mem, uaddr) (current.mem, uaddr) requeue_max
      (requeue_max + 1) (list_first_entry (s3.queue_of (current.mem, uaddr))) 0 s3
        = some (ws.length, s4) := by
    rw [World.queue_of_eq a1]; exact r1
  have hws : ∀ x ∈ ws, x ∈ s.queue_of (current.mem, uaddr) := by
    intro x hx; rw [← hq]; exact List.mem_of_mem_drop (r3 x hx)
  -- drop the second reference
  obtain ⟨s5, b1, b2, b3, b4, b5, b6, b7, b8, b9, b10⟩ :=
    futex_put_unlocked_obs (current.mem, uaddr) s4 _ r5 r4 (by simp)
      (by simp only []; omega) (by simp only []; omega)
  simp only [] at b3 b4
  have d5 := World.deref_of_obs (b5.2 (by rw [b4]; omega))
  rw [b3, b4] at d5
  -- drop the first reference
  obtain ⟨s6, c1, c2, c3, c4, c5, c6, c7, c8, c9, c10⟩ :=
    futex_put_unlocked_obs (current.mem, uaddr) s5 _ d5 b2 (by simp only []; omega)
      (by simp only []; omega)
      (by
        simp only []
        intro h1
        have hq0 : q = [] := List.eq_nil_of_length_eq_zero (by omega)
        rw [hq0] at r6
        simpa using r6)
  simp only [] at c3 c4
  refine ⟨s6, ws.length, q', ?_, r2, c2, c3, r6, ?_, c5, ?_, ?_, ?_, ?_, ?_⟩
  · rw [futex_wakelike_unfold_requeue current uaddr wake_max requeue_max uaddr
      s s1 s2 s3 s4 s5 s6 k ws.length g4 l1' a4 r1' b1 c1]
  · rw [c4]; omega
  · intro r hr
    rw [c6 r hr, b6 r hr, r7 r hr, a2 r hr, o2 r hr]
    exact hs.map_diff_queue_of hr _ hws
  · rw [c8, b8, r9, a6, l4, g6]
  · rw [c7, b7, r8, a5, l5, g5]
    exact hs.waits_fixed_queue_of _ ws hws
  · rw [c9, b9, r10, a7, l6, g7]
  · rw [c10, b10, r11, a8, l7, g8]

/-! ## States given by a table -/

theorem wf_of_table (fs : List futex) (waits : List (Nat × futex_ptr))
    (mem_ptr : Nat → Nat → Option Nat) (user_get_timespec : Nat → Nat → Option (Int × Int))
    (h : table_ok fs waits = true) : (World.of_table fs waits mem_ptr user_get_timespec).wf := by
  simp only [table_ok, Bool.and_eq_true, decide_eq_true_eq, List.all_eq_true] at h
  obtain ⟨⟨⟨⟨h1, h2⟩, h3⟩, h4⟩, h5⟩ := h
  have hmem : ∀ b f, f ∈ (World.of_table fs waits mem_ptr user_get_timespec).futex_hash b →
      f ∈ fs ∧ futex_hash_index f.addr f.mem = b := by
    intro b f hf
    have := List.mem_filter.1 hf
    exact ⟨this.1, by simpa using this.2⟩
  refine ⟨fun b f hf => (hmem b f hf).2, fun b => h1.sublist (List.filter_sublist _),
    fun b f hf => (h2 f (hmem b f hf).1).1.1.1, ?_, fun b f hf => (h2 f (hmem b f hf).1).1.2,
    fun b f hf => (h2 f (hmem b f hf).1).2, h3, ?_, h5⟩
  · intro b f hf w hw
    have := (h2 f (hmem b f hf).1).1.1.2 w hw
    simpa using this
  · intro e he
    have := h4 e he
    rw [List.any_eq_true] at this
    obtain ⟨f, hf, hfe⟩ := this
    simp only [World.deref, World.of_table]
    rw [List.find?_isSome]
    refine ⟨f, List.mem_filter.2 ⟨hf, ?_⟩, hfe⟩
    have hk := (futex.is_iff e.2 f).1 hfe
    rw [Prod.ext_iff] at hk
    simp only at hk
    simp [hk.1, hk.2]

theorem chain_modify_fixed (p : futex_ptr) (g : futex → futex) :
    ∀ (l : List futex) (f : futex), l.find? (futex.is p) = some f → g f = f →
      chain_modify p g l = l
  | [], _, h, _ => by simp at h
  | x :: xs, f, h, hg => by
    by_cases hx : x.is p = true
    · rw [List.find?_cons, hx] at h
      simp only [Option.some.injEq] at h
      subst h
      simp only [chain_modify, hx, if_true, hg]
    · have hx' : x.is p = false := by simpa using hx
      rw [List.find?_cons, hx'] at h
      simp only [chain_modify, hx', Bool.false_eq_true, if_false]
      rw [chain_modify_fixed p g xs f h hg]

theorem chain_modify_twice (p : futex_ptr) (g1 g2 : futex → futex) (hg : keeps_key g1) :
    ∀ l : List futex, chain_modify p g2 (chain_modify p g1 l) = chain_modify p (g2 ∘ g1) l
  | [] => rfl
  | x :: xs => by
    by_cases hx : x.is p = true
    · simp only [chain_modify, hx, if_true, futex.is_of_keeps hg, Function.comp]
    · have hx' : x.is p = false := by simpa using hx
      simp only [chain_modify, hx', Bool.false_eq_true, if_false]
      rw [chain_modify_twice p g1 g2 hg xs]

theorem futex_load_own (current : task) (addr : Nat) (s : World) :
    futex_load current (current.mem, addr) s = some (s.mem_ptr current.mem addr) := by
  simp only [futex_load, if_true]

/-- Taking a reference and dropping it again leaves the table as it was. -/
theorem futex_get_put (current : task) (addr : Nat) (s : World) (hs : s.wf) :
    futex_put_unlocked (current.mem, addr) (futex_get_unlocked current addr s).2 = some s := by
  cases hf : s.deref (current.mem, addr) with
  | none =>
    rw [futex_get_unlocked_new current addr s hf]
    have hd : World.deref { s with futex_hash := (Function.update s.futex_hash
        (futex_hash_index addr current.mem)
        ({ refcount := 1, mem := current.mem, addr := addr, queue := [] } ::
          s.futex_hash (futex_hash_index addr current.mem))) } (current.mem, addr)
        = some { refcount := 1, mem := current.mem, addr := addr, queue := [] } := by
      simp [World.deref, List.find?, futex.is]
    have e0 : ((1 : Nat) + 2 ^ 32 - 1) % 2 ^ 32 = 0 := by norm_num
    rw [futex_put_unlocked_free _ _ hd e0 rfl]
    simp [chain_remove, futex.is]
  | some f =>
    rw [futex_get_unlocked_found current addr s hf]
    have hr1 := hs.refcount_pos_of hf
    have hr2 := hs.refcount_le hf
    rw [MAX_PID_eq] at hr2
    have hd := World.deref_modify_self s
      (keeps_key_refcount (fun f => (f.refcount + 1) % 2 ^ 32)) (current.mem, addr)
    rw [hf] at hd
    simp only [Option.map_some'] at hd
    have e1 : ((f.refcount + 1) % 2 ^ 32 + 2 ^ 32 - 1) % 2 ^ 32 = f.refcount := by omega
    rw [futex_put_unlocked_keep _ _ hd (by simp only []; omega)]
    simp only [e1, World.modify, Function.update_same, Function.update_idem]
    rw [chain_modify_twice _ _ _ (keeps_key_refcount _),
      chain_modify_fixed _ _ _ f hf (by simp), Function.update_eq_self]

theorem futex_wait_fault (wait_for : Nat → Option timespec → World → Int × World)
    (current : task) (wait uaddr val : Nat) (timeout : Option timespec) (s : World)
    (hs : s.wf) (hm : s.mem_ptr current.mem uaddr = none) :
    futex_wait wait_for current wait uaddr val timeout s = some (_EFAULT, current, s) := by
  have h1 := futex_get_unlocked_eq current uaddr s
  have h2 := futex_get_unlocked_mem_ptr current uaddr s
  have h3 := futex_get_put current uaddr s hs
  simp only [futex_wait, futex_get, futex_load_own, futex_put]
  rw [h1]
  simp only [futex_load_own, h2, hm, h3]

theorem futex_wait_again (wait_for : Nat → Option timespec → World → Int × World)
    (current : task) (wait uaddr val : Nat) (timeout : Option timespec) (s : World)
    (hs : s.wf) (v : Nat) (hm : s.mem_ptr current.mem uaddr = some v) (hv : v ≠ val) :
    futex_wait wait_for current wait uaddr val timeout s = some (_EAGAIN, current, s) := by
  have h1 := futex_get_unlocked_eq current uaddr s
  have h2 := futex_get_unlocked_mem_ptr current uaddr s
  have h3 := futex_get_put current uaddr s hs
  simp only [futex_wait, futex_get, futex_load_own, futex_put]
  rw [h1]
  simp only [futex_load_own, h2, hm, h3, hv, ne_eq, not_false_eq_true, if_true]

theorem lookup_mem : ∀ (l : List (Nat × futex_ptr)) (w : Nat) (p : futex_ptr),
    l.lookup w = some p → (w, p) ∈ l
  | [], _, _, h => by simp at h
  | (a, b) :: l, w, p, h => by
    by_cases hw : w = a
    · subst hw
      simp only [List.lookup, beq_self_eq_true, Option.some.injEq] at h
      rw [h]; exact List.mem_cons_self _ _
    · have hb : (w == a) = false := by simpa using hw
      simp only [List.lookup, hb] at h
      exact List.mem_cons_of_mem _ (lookup_mem l w p h)

theorem erase_of_all_eq : ∀ (l : List Nat) (w : Nat), l.Nodup → (∀ x ∈ l, x = w) →
    l.erase w = []
  | [], _, _, _ => rfl
  | a :: t, w, hn, h => by
    rw [List.nodup_cons] at hn
    have ha : a = w := h a (List.mem_cons_self _ _)
    have ht : t = [] := by
      apply List.eq_nil_iff_forall_not_mem.2
      intro b hb
      have : b = w := h b (List.mem_cons_of_mem _ hb)
      rw [this, ← ha] at hb
      exact hn.1 hb
    rw [ht, ha]; simp

/-- When the last reference of a futex belongs to the wait record `wait`, no
other record is queued on it. -/
theorem World.wf.last_reference {s : World} (h : s.wf) {p : futex_ptr} {f : futex} {wait : Nat}
    (hf : s.deref p = some f) (hw : (wait, p) ∈ s.waits) (h1 : f.refcount = 1) :
    f.queue.erase wait = [] := by
  obtain ⟨m1, m2, m3⟩ := World.deref_mem hf
  have hc := h.refcount _ f m1
  rw [h1, m2, m3] at hc
  apply erase_of_all_eq _ _ (h.nodup_of hf)
  intro x hx
  have hx' : (x, p) ∈ s.waits.filter (fun e => decide (e.2 = p)) :=
    List.mem_filter.2 ⟨h.queued_live hf hx, by simp⟩
  have hw' : (wait, p) ∈ s.waits.filter (fun e => decide (e.2 = p)) :=
    List.mem_filter.2 ⟨hw, by simp⟩
  obtain ⟨e, he⟩ := List.length_eq_one.1 hc.symm
  rw [he, List.mem_singleton] at hx' hw'
  exact (Prod.ext_iff.1 (hx'.trans hw'.symm)).1

/-- The return path of `futex_wait` after the block: from a well-formed state
in which the wait record is still live, unlinking the record and dropping its
reference succeeds. -/
theorem futex_wait_resume_put (wait : Nat) (s : World) (hs : s.wf) (p : futex_ptr)
    (hw : s.wait_futex wait = some p) :
    ∃ s1 s', futex_wait_resume wait s = some (p, s1) ∧ futex_put_unlocked p s1 = some s' := by
  have hmem : (wait, p) ∈ s.waits := lookup_mem _ _ _ hw
  have hlive := hs.waits_live _ hmem
  obtain ⟨f, hf⟩ := Option.isSome_iff_exists.1 hlive
  simp only at hf
  have hr1 := hs.refcount_pos_of hf
  have hr2 := hs.refcount_le hf
  rw [MAX_PID_eq] at hr2
  have hd : World.deref { (s.list_remove_safe wait) with
      waits := (s.list_remove_safe wait).waits.filter (fun e => e.1 ≠ wait) } p
      = some { f with queue := f.queue.erase wait } := by
    have : World.deref { (s.list_remove_safe wait) with
      waits := (s.list_remove_safe wait).waits.filter (fun e => e.1 ≠ wait) } p
        = (s.list_remove wait).deref p := rfl
    rw [this, World.deref_list_remove, hf]; rfl
  have hc : World.chains_ok { (s.list_remove_safe wait) with
      waits := (s.list_remove_safe wait).waits.filter (fun e => e.1 ≠ wait) } :=
    World.chains_ok_list_remove s wait hs.chains_ok
  obtain ⟨s', p1, _⟩ := futex_put_unlocked_spec p _ _ hd hc hr1 (by simp only []; omega)
    (fun h1 => hs.last_reference hf hmem h1)
  exact ⟨_, s', by simp only [futex_wait_resume, hw], p1⟩

theorem futex_wait_blocks (wait_for : Nat → Option timespec → World → Int × World)
    (current : task) (wait uaddr val : Nat) (timeout : Option timespec) (s : World)
    (hm : s.mem_ptr current.mem uaddr = some val)
    (hwf : (wait_for wait timeout
      (futex_wait_enqueue (current.mem, uaddr) wait (futex_get current uaddr s).2)).2.wf)
    (hlive : ((wait_for wait timeout
      (futex_wait_enqueue (current.mem, uaddr) wait (futex_get current uaddr s).2)).2.wait_futex
        wait).isSome = true) :
    ∃ s', futex_wait wait_for current wait uaddr val timeout s
      = some ((wait_for wait timeout
          (futex_wait_enqueue (current.mem, uaddr) wait (futex_get current uaddr s).2)).1,
        task_may_block_end (task_may_block_start current), s') := by
  obtain ⟨p, hp⟩ := Option.isSome_iff_exists.1 hlive
  obtain ⟨s1, s', r1, r2⟩ := futex_wait_resume_put wait _ hwf p hp
  have h1 := futex_get_unlocked_eq current uaddr s
  have h2 := futex_get_unlocked_mem_ptr current uaddr s
  refine ⟨s', ?_⟩
  simp only [futex_get] at r1 r2 ⊢
  simp only [futex_wait, futex_get, futex_load_own, futex_put]
  rw [h1]
  simp only [futex_load_own, h2, hm, ne_eq, not_true_eq_false, if_false, r1, r2]

theorem ex_world_wf : ex_world.wf := wf_of_table _ _ _ _ (by decide)

theorem dword_of_int_natCast (n : Nat) (h : n < 2 ^ 32) : dword_of_int (n : Int) = n := by
  simp only [dword_of_int]
  omega

theorem take_min_length (n : Nat) (l : List Nat) : l.take (min n l.length) = l.take n := by
  rcases Nat.le_total n l.length with h | h
  · rw [Nat.min_eq_left h]
  · rw [Nat.min_eq_right h, List.take_of_length_le h, List.take_of_length_le (Nat.le_refl _)]

theorem drop_min_length (n : Nat) (l : List Nat) : l.drop (min n l.length) = l.drop n := by
  rcases Nat.le_total n l.length with h | h
  · rw [Nat.min_eq_left h]
  · rw [Nat.min_eq_right h, List.drop_of_length_le h, List.drop_of_length_le (Nat.le_refl _)]

/-- C1: a wake on an address whose queue holds `len` waiters on entry returns
exactly `min n len`, through `futex_wake`, through `futex_wakelike` with the
operation `FUTEX_WAKE_` and through `sys_futex` with a `FUTEX_WAKE_` command
(with or without flag bits); so the result is at most `n`, at most `len`, and
`0` when `n = 0` or nobody waits. -/
theorem wake_returns_min (current : task) (uaddr n : Nat) (s : World) (hs : s.wf) :
    (∃ s', futex_wake current uaddr n s
        = some (((min n (s.queue_of (current.mem, uaddr)).length : Nat) : Int), s'))
    ∧ (∀ requeue_max requeue_addr, ∃ s',
        futex_wakelike current (FUTEX_WAKE_ : Int) uaddr n requeue_max requeue_addr s
          = some (((min n (s.queue_of (current.mem, uaddr)).length : Nat) : Int), s'))
    ∧ (∀ wait_for wait op tv uaddr2 val3, op &&& FUTEX_CMD_MASK_ = FUTEX_WAKE_ →
        ∃ s', sys_futex wait_for current wait uaddr op n tv uaddr2 val3 s
          = some (min n (s.queue_of (current.mem, uaddr)).length, current, s')) := by
  have key : ∀ requeue_max requeue_addr, ∃ s',
      futex_wakelike current (FUTEX_WAKE_ : Int) uaddr n requeue_max requeue_addr s
        = some (((min n (s.queue_of (current.mem, uaddr)).length : Nat) : Int), s') := by
    intro rm ra
    obtain ⟨s', h, _⟩ := futex_wakelike_wake_spec current (FUTEX_WAKE_ : Int) uaddr n rm ra s hs
      (by decide)
    exact ⟨s', h⟩
  refine ⟨key 0 0, key, ?_⟩
  intro wait_for wait op tv uaddr2 val3 hop
  obtain ⟨s', h⟩ := key 0 0
  refine ⟨s', ?_⟩
  have hlen := hs.queue_of_le (current.mem, uaddr)
  have hR := hs.refcount_of_le (current.mem, uaddr)
  have h1 : int_of_unsigned FUTEX_WAKE_ = (FUTEX_WAKE_ : Int) := by decide
  have hne : ¬ (FUTEX_WAKE_ = FUTEX_WAIT_) := by decide
  simp only [sys_futex, hop, hne, false_and, if_false, if_true, h1, h]
  rw [dword_of_int_natCast _ (by omega)]

/-- The instance of `wake_returns_min` at `ex_world`: five waiters on address
16, `futex_wake` for up to 3 returns 3, and for up to 10 returns 5. -/
theorem wake_returns_min_witness :
    ex_world.wf ∧ (futex_wake ex_task 16 3 ex_world).map Prod.fst = some 3
      ∧ (futex_wake ex_task 16 10 ex_world).map Prod.fst = some 5 := by
  refine ⟨ex_world_wf, ?_, ?_⟩
  · obtain ⟨s', h⟩ := (wake_returns_min ex_task 16 3 ex_world ex_world_wf).1
    rw [h]
    show some (((min 3 (ex_world.queue_of (ex_task.mem, 16)).length : Nat) : Int)) = some 3
    decide
  · obtain ⟨s', h⟩ := (wake_returns_min ex_task 16 10 ex_world ex_world_wf).1
    rw [h]
    show some (((min 10 (ex_world.queue_of (ex_task.mem, 16)).length : Nat) : Int)) = some 5
    decide

theorem queue_of_enqueue (current : task) (uaddr wait : Nat) (s : World) :
    (futex_wait_enqueue (current.mem, uaddr) wait (futex_get current uaddr s).2).queue_of
        (current.mem, uaddr)
      = s.queue_of (current.mem, uaddr) ++ [wait] := by
  have h1 := World.deref_get_self current uaddr s
  have h2 : (futex_wait_enqueue (current.mem, uaddr) wait (futex_get current uaddr s).2).deref
      (current.mem, uaddr)
      = ((futex_get_unlocked current uaddr s).2.deref (current.mem, uaddr)).map
          (fun f => { f with queue := f.queue ++ [wait] }) := by
    simp only [futex_wait_enqueue, futex_get, World.list_add_tail]
    rw [World.deref_modify_self _ (keeps_key_queue _)]
    rfl
  rw [h1] at h2
  rw [World.queue_of_eq h2]
  cases hf : s.deref (current.mem, uaddr) with
  | none => simp [World.queue_of_none hf]
  | some f => simp [World.queue_of_eq hf]

/-- C2: wake is FIFO.  `futex_wake` for up to `n` on a queue `q` notifies
exactly the first `min n |q|` waiters of `q` (`q.take n`), in queue order,
and leaves the others (`q.drop n`) queued in their order; and `futex_wait`
links a new waiter at the tail of the queue. -/
theorem wake_fifo (current : task) (uaddr n : Nat) (s : World) (hs : s.wf) :
    (∃ r s', futex_wake current uaddr n s = some (r, s')
      ∧ s'.notified = s.notified ++ (s.queue_of (current.mem, uaddr)).take n
      ∧ s'.queue_of (current.mem, uaddr) = (s.queue_of (current.mem, uaddr)).drop n)
    ∧ (∀ wait, (futex_wait_enqueue (current.mem, uaddr) wait
          (futex_get current uaddr s).2).queue_of (current.mem, uaddr)
        = s.queue_of (current.mem, uaddr) ++ [wait]) := by
  refine ⟨?_, fun wait => queue_of_enqueue current uaddr wait s⟩
  obtain ⟨s', h1, _, h3, _, h5, _⟩ :=
    futex_wakelike_wake_spec current (FUTEX_WAKE_ : Int) uaddr n 0 0 s hs (by decide)
  refine ⟨_, s', h1, ?_, ?_⟩
  · rw [h5, take_min_length]
  · cases hf : s.deref (current.mem, uaddr) with
    | none =>
      rw [hf] at h3
      rw [World.queue_of_none h3, World.queue_of_none hf, List.drop_nil]
    | some f =>
      rw [hf] at h3
      rw [World.queue_of_eq h3, World.queue_of_eq hf]
      exact drop_min_length n f.queue

/-- The instance of `wake_fifo` at `ex_world`: waiters `1 .. 5` on address 16,
a wake for up to 2 notifies `1` then `2` and leaves `3, 4, 5` queued. -/
theorem wake_fifo_witness :
    ex_world.wf
      ∧ (futex_wake ex_task 16 2 ex_world).map (fun r => r.2.notified) = some [1, 2]
      ∧ (futex_wake ex_task 16 2 ex_world).map (fun r => r.2.queue_of (1000, 16))
          = some [3, 4, 5] := by
  obtain ⟨r, s', h1, h2, h3⟩ := (wake_fifo ex_task 16 2 ex_world ex_world_wf).1
  refine ⟨ex_world_wf, ?_, ?_⟩
  · rw [h1]
    show some s'.notified = some [1, 2]
    rw [h2]; decide
  · rw [h1]
    show some (s'.queue_of (ex_task.mem, 16)) = some [3, 4, 5]
    rw [h3]; decide

theorem lookup_map_set (ws : List Nat) (p2 : futex_ptr) :
    ∀ (l : List (Nat × futex_ptr)) (x : Nat),
      (l.map (fun e => if e.1 ∈ ws then (e.1, p2) else e)).lookup x
        = (l.lookup x).map (fun p => if x ∈ ws then p2 else p)
  | [], _ => rfl
  | (a, b) :: l, x => by
    have ih := lookup_map_set ws p2 l x
    by_cases hx : x = a
    · subst hx
      by_cases hm : x ∈ ws
      · have e : List.map (fun e => if e.1 ∈ ws then (e.1, p2) else e) ((x, b) :: l)
            = (x, p2) :: List.map (fun e => if e.1 ∈ ws then (e.1, p2) else e) l := by
          simp [hm]
        rw [e, List.lookup_cons, List.lookup_cons]
        simp [hm]
      · have e : List.map (fun e => if e.1 ∈ ws then (e.1, p2) else e) ((x, b) :: l)
            = (x, b) :: List.map (fun e => if e.1 ∈ ws then (e.1, p2) else e) l := by
          simp [hm]
        rw [e, List.lookup_cons, List.lookup_cons]
        simp [hm]
    · have hb : (x == a) = false := by simpa using hx
      by_cases hm : a ∈ ws
      · have e : List.map (fun e => if e.1 ∈ ws then (e.1, p2) else e) ((a, b) :: l)
            = (a, p2) :: List.map (fun e => if e.1 ∈ ws then (e.1, p2) else e) l := by
          simp [hm]
        rw [e, List.lookup_cons, List.lookup_cons, hb]
        exact ih
      · have e : List.map (fun e => if e.1 ∈ ws then (e.1, p2) else e) ((a, b) :: l)
            = (a, b) :: List.map (fun e => if e.1 ∈ ws then (e.1, p2) else e) l := by
          simp [hm]
        rw [e, List.lookup_cons, List.lookup_cons, hb]
        exact ih

theorem mem_lookup : ∀ (l : List (Nat × futex_ptr)) (w : Nat) (p : futex_ptr),
    (l.map Prod.fst).Nodup → (w, p) ∈ l → l.lookup w = some p
  | [], _, _, _, h => by simp at h
  | (a, b) :: l, w, p, hn, h => by
    rw [List.map_cons, List.nodup_cons] at hn
    rcases List.mem_cons.1 h with h1 | h2
    · rw [Prod.ext_iff] at h1
      simp only at h1
      rw [List.lookup_cons, h1.1, h1.2]
      simp
    · have hne : w ≠ a := by
        intro hwa
        exact hn.1 (List.mem_map.2 ⟨(w, p), h2, hwa⟩)
      have hb : (w == a) = false := by simpa using hne
      rw [List.lookup_cons, hb]
      exact mem_lookup l w p hn.2 h2

/-- C3: a requeue onto a different address.  With `q` the queue of `addr` on
entry (`len = |q|`), `d` the queue of `addr2`, `k = min w len` and
`m = min r (len - k)`, `requeue(addr, w, r, addr2)` returns `k + m`, notifies
the first `k` waiters of `q`, appends the next `m` to the tail of the queue of
`addr2` in their order with their back pointers set to the futex of `addr2`,
and leaves the last `len - k - m` on `addr`; the same value is returned through
`sys_futex` with a `FUTEX_REQUEUE_` command. -/
theorem requeue_moves (current : task) (uaddr w r uaddr2 : Nat) (s : World) (hs : s.wf)
    (hne : uaddr2 ≠ uaddr) (q d : List Nat) (k m : Nat)
    (hq : q = s.queue_of (current.mem, uaddr)) (hd : d = s.queue_of (current.mem, uaddr2))
    (hk : k = min w q.length) (hm : m = min r (q.length - k)) :
    (∃ s', futex_wakelike current (FUTEX_REQUEUE_ : Int) uaddr w r uaddr2 s
        = some (((k + m : Nat) : Int), s')
      ∧ s'.notified = s.notified ++ q.take k
      ∧ s'.queue_of (current.mem, uaddr2) = d ++ (q.drop k).take m
      ∧ s'.queue_of (current.mem, uaddr) = q.drop (k + m)
      ∧ (∀ x ∈ (q.drop k).take m, s'.wait_futex x = some (current.mem, uaddr2))
      ∧ (∀ x, x ∉ (q.drop k).take m → s'.wait_futex x = s.wait_futex x))
    ∧ (∀ wait_for wait op val3, op &&& FUTEX_CMD_MASK_ = FUTEX_REQUEUE_ →
        ∃ s', sys_futex wait_for current wait uaddr op w r uaddr2 val3 s
          = some (k + m, current, s')) := by
  obtain ⟨s', h1, _, h3, _, _, h6, _, _, _, h10, h11, _⟩ :=
    futex_wakelike_requeue_spec current uaddr w r uaddr2 s hs hne q d k m hq hd hk hm
  have hlen := hs.queue_of_le (current.mem, uaddr)
  have hR := hs.refcount_of_le (current.mem, uaddr)
  rw [← hq] at hlen
  refine ⟨⟨s', h1, h10, h6, h3, ?_, ?_⟩, ?_⟩
  · intro x hx
    have hxq : x ∈ s.queue_of (current.mem, uaddr) := by
      rw [← hq]; exact List.mem_of_mem_drop (List.mem_of_mem_take hx)
    have hlive : (x, (current.mem, uaddr)) ∈ s.waits := by
      cases hf : s.deref (current.mem, uaddr) with
      | none => rw [World.queue_of_none hf] at hxq; simp at hxq
      | some f => rw [World.queue_of_eq hf] at hxq; exact hs.queued_live hf hxq
    simp only [World.wait_futex, h11]
    rw [lookup_map_set, mem_lookup _ _ _ hs.waits_nodup hlive]
    simp [hx]
  · intro x hx
    simp only [World.wait_futex, h11]
    rw [lookup_map_set]
    cases s.waits.lookup x <;> simp [hx]
  · intro wait_for wait op val3 hop
    refine ⟨s', ?_⟩
    have e1 : int_of_unsigned FUTEX_REQUEUE_ = (FUTEX_REQUEUE_ : Int) := by decide
    have n0 : ¬ (FUTEX_REQUEUE_ = FUTEX_WAIT_) := by decide
    have n1 : ¬ (FUTEX_REQUEUE_ = FUTEX_WAKE_) := by decide
    simp only [sys_futex, hop, n0, n1, false_and, if_false, if_true, e1, h1]
    rw [dword_of_int_natCast _ (by omega)]

/-- The instance of `requeue_moves` at `ex_world`, the scenario of the spec:
five waiters on `a = 16`, `requeue(a, 2, 10, b)` with `b = 32` returns 5 with
waiters `3, 4, 5` now on `b`, and a following `wake(b, 10)` returns 3. -/
theorem requeue_moves_witness :
    ex_world.wf ∧ (32 : Nat) ≠ 16
      ∧ (futex_wakelike ex_task (FUTEX_REQUEUE_ : Int) 16 2 10 32 ex_world).map Prod.fst = some 5
      ∧ (futex_wakelike ex_task (FUTEX_REQUEUE_ : Int) 16 2 10 32 ex_world).map
          (fun r => r.2.queue_of (1000, 32)) = some [3, 4, 5]
      ∧ ((futex_wakelike ex_task (FUTEX_REQUEUE_ : Int) 16 2 10 32 ex_world).bind
          (fun r => futex_wake ex_task 32 10 r.2)).map Prod.fst = some 3 := by
  obtain ⟨s', h1, _, h3, _⟩ := (requeue_moves ex_task 16 2 10 32 ex_world ex_world_wf
    (by decide) [1, 2, 3, 4, 5] [] 2 3 (by decide) (by decide) (by decide) (by decide)).1
  refine ⟨ex_world_wf, by decide, ?_, ?_, by decide⟩
  · rw [h1]; rfl
  · rw [h1]
    show some (s'.queue_of (ex_task.mem, 32)) = some [3, 4, 5]
    rw [h3]; rfl

theorem int_of_unsigned_le (x : Nat) : int_of_unsigned x ≤ (x : Int) := by
  simp only [int_of_unsigned]
  split <;> omega

/-- C4, as stated, fails: at `ex_world` (five waiters on address 16, none on
address 32) `requeue(16, 2, 10, 32)` returns 5 while the number of waiters
queued on the two futexes goes from 5 to 3, and `5 ≠ 3 + 5`: the three moved
waiters are counted in the return value but are still queued. -/
theorem requeue_conservation_counterexample :
    ex_world.wf
      ∧ (futex_wakelike ex_task (FUTEX_REQUEUE_ : Int) 16 2 10 32 ex_world).map
          (fun r => (r.1, ex_world.queued_total (1000, 16) (1000, 32),
            r.2.queued_total (1000, 16) (1000, 32))) = some (5, 5, 3)
      ∧ (futex_wakelike ex_task (FUTEX_REQUEUE_ : Int) 16 2 10 32 ex_world).map
          (fun r => decide ((ex_world.queued_total (1000, 16) (1000, 32) : Int)
            = r.2.queued_total (1000, 16) (1000, 32) + r.1)) = some false :=
  ⟨ex_world_wf, by decide, by decide⟩

/-- C4, amended: every requeue returns at most `w + r`, and the number of
waiters queued on the source and destination futexes before the call is the
number queued on them after the call plus the number of waiters woken,
`min w len` (the waiters moved to the destination stay queued). -/
theorem requeue_conservation (current : task) (uaddr w r uaddr2 : Nat) (s : World)
    (hs : s.wf) :
    ∃ ret s', futex_wakelike current (FUTEX_REQUEUE_ : Int) uaddr w r uaddr2 s = some (ret, s')
      ∧ ret ≤ ((w + r : Nat) : Int)
      ∧ s.queued_total (current.mem, uaddr) (current.mem, uaddr2)
          = s'.queued_total (current.mem, uaddr) (current.mem, uaddr2)
            + min w (s.queue_of (current.mem, uaddr)).length := by
  by_cases hne : uaddr2 = uaddr
  · subst hne
    obtain ⟨s', n, q', h1, h2, _, h4, h5, _⟩ :=
      futex_wakelike_requeue_same_spec current uaddr2 w r s hs _ _ rfl rfl
    refine ⟨_, s', h1, ?_, ?_⟩
    · have a1 := int_of_unsigned_le ((min w (s.queue_of (current.mem, uaddr2)).length + n) % 2 ^ 32)
      have a2 : (min w (s.queue_of (current.mem, uaddr2)).length + n) % 2 ^ 32
          ≤ min w (s.queue_of (current.mem, uaddr2)).length + n := Nat.mod_le _ _
      omega
    · simp only [World.queued_total, if_true, Nat.add_zero]
      rw [h4, h5.length_eq, List.length_drop]
      omega
  · obtain ⟨s', h1, _, h3, _, _, h6, _⟩ :=
      futex_wakelike_requeue_spec current uaddr w r uaddr2 s hs hne _ _ _ _ rfl rfl rfl rfl
    have hp : ¬ ((current.mem, uaddr2) = (current.mem, uaddr)) := by
      intro h; exact hne (Prod.ext_iff.1 h).2
    refine ⟨_, s', h1, ?_, ?_⟩
    · omega
    · simp only [World.queued_total, hp, if_false]
      rw [h3, h6, List.length_drop, List.length_append, List.length_take, List.length_drop]
      omega

/-- The instance of `requeue_conservation` at `ex_world`: `requeue(16, 2, 10, 32)`
returns `5 ≤ 12`, and of the 5 waiters queued before, 3 are queued afterwards
and 2 were woken. -/
theorem requeue_conservation_witness :
    ex_world.wf
      ∧ ∃ ret s', futex_wakelike ex_task (FUTEX_REQUEUE_ : Int) 16 2 10 32 ex_world
          = some (ret, s')
        ∧ ret ≤ ((2 + 10 : Nat) : Int)
        ∧ ex_world.queued_total (ex_task.mem, 16) (ex_task.mem, 32)
            = s'.queued_total (ex_task.mem, 16) (ex_task.mem, 32)
              + min 2 (ex_world.queue_of (ex_task.mem, 16)).length :=
  ⟨ex_world_wf, requeue_conservation ex_task 16 2 10 32 ex_world ex_world_wf⟩

theorem find_of_mem_unique : ∀ (l : List futex) (f : futex),
    l.Pairwise (fun f g => ¬ (f.mem = g.mem ∧ f.addr = g.addr)) → f ∈ l →
    l.find? (futex.is (f.mem, f.addr)) = some f
  | [], _, _, h => by simp at h
  | x :: xs, f, hp, h => by
    rw [List.pairwise_cons] at hp
    rcases List.mem_cons.1 h with rfl | h
    · rw [List.find?_cons, (futex.is_iff _ _).2 rfl]
    · have hx : x.is (f.mem, f.addr) = false := by
        by_contra hc
        have hc1 : x.is (f.mem, f.addr) = true := by simpa using hc
        have := (futex.is_iff _ _).1 hc1
        rw [Prod.ext_iff] at this
        exact hp.1 f h this
      rw [List.find?_cons, hx]
      exact find_of_mem_unique xs f hp.2 h

/-- In a table with well-placed, unique keys, the futexes on the chains are
the futexes that pointers reach. -/
theorem World.deref_of_mem {s : World} (hc : s.chains_ok) {b : Nat} {f : futex}
    (hf : f ∈ s.futex_hash b) : s.deref (f.mem, f.addr) = some f := by
  have hb := hc.2 b f hf
  simp only [World.deref]
  rw [hb]
  exact find_of_mem_unique _ f (hc.1 b) hf

/-- Well-formedness from what pointers observe. -/
theorem World.wf_of_obs {s : World} (hc : s.chains_ok)
    (hq : ∀ p f, s.deref p = some f → f.queue.Nodup ∧ (∀ w ∈ f.queue, (w, p) ∈ s.waits)
      ∧ f.refcount = (s.waits.filter (fun e => decide (e.2 = p))).length ∧ 0 < f.refcount)
    (hn : (s.waits.map Prod.fst).Nodup)
    (hl : ∀ e ∈ s.waits, (s.deref e.2).isSome = true)
    (hb : s.waits.length ≤ MAX_PID) : s.wf :=
  { bucket := hc.2
    unique := hc.1
    queue_nodup := fun _ f hf => (hq _ f (World.deref_of_mem hc hf)).1
    queue_waits := fun _ f hf => (hq _ f (World.deref_of_mem hc hf)).2.1
    refcount := fun _ f hf => (hq _ f (World.deref_of_mem hc hf)).2.2.1
    refcount_pos := fun _ f hf => (hq _ f (World.deref_of_mem hc hf)).2.2.2
    waits_nodup := hn
    waits_live := hl
    waits_bound := hb }

theorem World.wf.obs {s : World} (h : s.wf) {p : futex_ptr} {f : futex}
    (hf : s.deref p = some f) :
    f.queue.Nodup ∧ (∀ w ∈ f.queue, (w, p) ∈ s.waits)
      ∧ f.refcount = (s.waits.filter (fun e => decide (e.2 = p))).length ∧ 0 < f.refcount := by
  obtain ⟨m1, m2, m3⟩ := World.deref_mem hf
  refine ⟨h.nodup_of hf, fun w hw => h.queued_live hf hw, ?_, h.refcount_pos_of hf⟩
  have := h.refcount _ f m1
  rwa [m2, m3] at this

theorem World.wf.refcount_of_count {s : World} (h : s.wf) (p : futex_ptr) :
    s.refcount_of p = (s.waits.filter (fun e => decide (e.2 = p))).length := by
  cases hf : s.deref p with
  | some f => rw [World.refcount_of_eq hf]; exact (h.obs hf).2.2.1
  | none =>
    rw [World.refcount_of_none hf]
    symm
    rw [List.length_eq_zero, List.filter_eq_nil_iff]
    intro e he hep
    have h1 := h.waits_live e he
    simp only [decide_eq_true_eq] at hep
    rw [hep, hf] at h1
    simp at h1

/-- The state in which `futex_wait` blocks is well-formed: taking the
reference and linking a fresh wait record keeps the table well-formed. -/
theorem wf_enqueue (current : task) (uaddr wait : Nat) (s : World) (hs : s.wf)
    (hfresh : wait ∉ s.waits.map Prod.fst) (hroom : s.waits.length < MAX_PID) :
    (futex_wait_enqueue (current.mem, uaddr) wait (futex_get current uaddr s).2).wf := by
  have hR := hs.refcount_of_le (current.mem, uaddr)
  have g1 := World.deref_get_obs current uaddr s (by omega)
  have g2 := fun r hr => @World.deref_get_other current uaddr s r hr
  have g3 := World.chains_ok_get current uaddr s hs.chains_ok
  have g5 := futex_get_unlocked_waits current uaddr s
  have hw : (futex_wait_enqueue (current.mem, uaddr) wait (futex_get current uaddr s).2).waits
      = (wait, (current.mem, uaddr)) :: s.waits := by
    simp only [futex_wait_enqueue, futex_get, World.list_add_tail, World.modify, g5]
  have d1 : (futex_wait_enqueue (current.mem, uaddr) wait (futex_get current uaddr s).2).deref
      (current.mem, uaddr)
      = some { refcount := s.refcount_of (current.mem, uaddr) + 1, mem := current.mem,
               addr := uaddr, queue := s.queue_of (current.mem, uaddr) ++ [wait] } := by
    have : (futex_wait_enqueue (current.mem, uaddr) wait (futex_get current uaddr s).2).deref
        (current.mem, uaddr)
        = ((futex_get_unlocked current uaddr s).2.deref (current.mem, uaddr)).map
          (fun f => { f with queue := f.queue ++ [wait] }) := by
      simp only [futex_wait_enqueue, futex_get, World.list_add_tail]
      rw [World.deref_modify_self _ (keeps_key_queue _)]
      rfl
    rw [this, g1]; rfl
  have d2 : ∀ r, r ≠ (current.mem, uaddr) →
      (futex_wait_enqueue (current.mem, uaddr) wait (futex_get current uaddr s).2).deref r
        = s.deref r := by
    intro r hr
    have : (futex_wait_enqueue (current.mem, uaddr) wait (futex_get current uaddr s).2).deref r
        = (futex_get_unlocked current uaddr s).2.deref r := by
      simp only [futex_wait_enqueue, futex_get, World.list_add_tail]
      rw [World.deref_modify_other _ (keeps_key_queue _) hr]
      rfl
    rw [this, g2 r hr]
  have hc : (futex_wait_enqueue (current.mem, uaddr) wait
      (futex_get current uaddr s).2).chains_ok := by
    simp only [futex_wait_enqueue, futex_get, World.list_add_tail]
    exact World.chains_ok_modify _ (keeps_key_queue _) _ g3
  have hnotq : ∀ p, wait ∉ s.queue_of p := by
    intro p hmem
    cases hf : s.deref p with
    | none => rw [World.queue_of_none hf] at hmem; simp at hmem
    | some f =>
      rw [World.queue_of_eq hf] at hmem
      exact hfresh (List.mem_map.2 ⟨(wait, p), hs.queued_live hf hmem, rfl⟩)
  apply World.wf_of_obs hc
  · intro p f hf
    by_cases hp : p = (current.mem, uaddr)
    · subst hp
      rw [d1] at hf
      simp only [Option.some.injEq] at hf
      subst hf
      rw [hw]
      refine ⟨?_, ?_, ?_, by simp⟩
      · simp only []
        rw [List.nodup_append]
        refine ⟨hs.queue_of_nodup _, List.nodup_singleton _, ?_⟩
        intro a ha hb
        rw [List.mem_singleton] at hb
        subst hb
        exact hnotq _ ha
      · intro w hw'
        simp only [List.mem_append, List.mem_singleton] at hw'
        rcases hw' with hw' | rfl
        · refine List.mem_cons_of_mem _ ?_
          cases hf : s.deref (current.mem, uaddr) with
          | none => rw [World.queue_of_none hf] at hw'; simp at hw'
          | some f => rw [World.queue_of_eq hf] at hw'; exact hs.queued_live hf hw'
        · exact List.mem_cons_self _ _
      · simp only []
        rw [hs.refcount_of_count, List.filter_cons]
        simp
    · rw [d2 p hp] at hf
      obtain ⟨o1, o2, o3, o4⟩ := hs.obs hf
      rw [hw]
      refine ⟨o1, fun w hw' => List.mem_cons_of_mem _ (o2 w hw'), ?_, o4⟩
      rw [o3, List.filter_cons]
      have : decide ((wait, (current.mem, uaddr)).2 = p) = false := by
        simp only [decide_eq_false_iff_not]
        exact fun h => hp h.symm
      rw [this]
      rfl
  · rw [hw, List.map_cons, List.nodup_cons]
    exact ⟨hfresh, hs.waits_nodup⟩
  · intro e he
    rw [hw] at he
    by_cases hp : e.2 = (current.mem, uaddr)
    · rw [hp, d1]; rfl
    · rw [d2 _ hp]
      rcases List.mem_cons.1 he with rfl | he
      · exact absurd rfl hp
      · exact hs.waits_live e he
  · rw [hw, List.length_cons]
    omega

theorem futex_wait_block_result (wait_for : Nat → Option timespec → World → Int × World)
    (current : task) (wait uaddr val : Nat) (timeout : Option timespec) (s : World)
    (hm : s.mem_ptr current.mem uaddr = some val) (r : Int) (t' : task) (s' : World)
    (h : futex_wait wait_for current wait uaddr val timeout s = some (r, t', s')) :
    r = (wait_for wait timeout
      (futex_wait_enqueue (current.mem, uaddr) wait (futex_get current uaddr s).2)).1 := by
  have h1 := futex_get_unlocked_eq current uaddr s
  have h2 := futex_get_unlocked_mem_ptr current uaddr s
  simp only [futex_wait, futex_get, futex_load_own, futex_put] at h
  rw [h1] at h
  simp only [futex_load_own, h2, hm, ne_eq, not_true_eq_false, if_false] at h
  simp only [futex_get]
  split at h
  · exact absurd h (by simp)
  · split at h
    · exact absurd h (by simp)
    · simp only [Option.some.injEq, Prod.mk.injEq] at h
      exact h.1.symm

/-- C5: the result of `futex_wait`.  `_EFAULT` when the guest word is
unreadable, whatever the expected value; otherwise `_EAGAIN` when the word
differs from the expected value; otherwise the caller is queued and the result
is the outcome of the blocking `wait_for`, unchanged (so `_ETIMEDOUT` when
`wait_for` times out, as it does on a zero timeout, `0` on a wake, `_EINTR` on
a signal).  The blocking case assumes that the state in which the caller runs
again is well-formed and still holds its wait record. -/
theorem futex_wait_result (wait_for : Nat → Option timespec → World → Int × World)
    (current : task) (wait uaddr val : Nat) (timeout : Option timespec) (s : World)
    (hs : s.wf) :
    (s.mem_ptr current.mem uaddr = none →
      ∃ t' s', futex_wait wait_for current wait uaddr val timeout s = some (_EFAULT, t', s'))
    ∧ (∀ v, s.mem_ptr current.mem uaddr = some v → v ≠ val →
      ∃ t' s', futex_wait wait_for current wait uaddr val timeout s = some (_EAGAIN, t', s'))
    ∧ (s.mem_ptr current.mem uaddr = some val →
      (wait_for wait timeout
        (futex_wait_enqueue (current.mem, uaddr) wait (futex_get current uaddr s).2)).2.wf →
      ((wait_for wait timeout
        (futex_wait_enqueue (current.mem, uaddr) wait (futex_get current uaddr s).2)).2.wait_futex
          wait).isSome = true →
      wait ∈ (futex_wait_enqueue (current.mem, uaddr) wait
          (futex_get current uaddr s).2).queue_of (current.mem, uaddr)
      ∧ ∃ t' s', futex_wait wait_for current wait uaddr val timeout s
          = some ((wait_for wait timeout (futex_wait_enqueue (current.mem, uaddr) wait
              (futex_get current uaddr s).2)).1, t', s')) := by
  refine ⟨fun hm => ⟨current, s, futex_wait_fault wait_for current wait uaddr val timeout s hs hm⟩,
    fun v hm hv => ⟨current, s,
      futex_wait_again wait_for current wait uaddr val timeout s hs v hm hv⟩, ?_⟩
  intro hm hwf hlive
  refine ⟨?_, ?_⟩
  · rw [queue_of_enqueue]; simp
  · obtain ⟨s', h⟩ := futex_wait_blocks wait_for current wait uaddr val timeout s hm hwf hlive
    exact ⟨_, s', h⟩

/-- The instance of `futex_wait_result` at `ex_world` with a `wait_for` that
times out at once, as on the zero timeout `{0, 0}`: `_ETIMEDOUT` when the word
at 16 (which is 0) is the expected value, `_EAGAIN` when it is not, `_EFAULT`
at the unmapped address 80. -/
theorem futex_wait_result_witness :
    ex_world.wf
      ∧ (futex_wait wait_for_timeout ex_task 9 16 0 (some ⟨0, 0⟩) ex_world).map Prod.fst
          = some _ETIMEDOUT
      ∧ (futex_wait wait_for_timeout ex_task 9 16 1 (some ⟨0, 0⟩) ex_world).map Prod.fst
          = some _EAGAIN
      ∧ (futex_wait wait_for_timeout ex_task 9 80 0 (some ⟨0, 0⟩) ex_world).map Prod.fst
          = some _EFAULT := by
  refine ⟨ex_world_wf, ?_, ?_, ?_⟩
  · obtain ⟨_, t', s', h⟩ :=
      (futex_wait_result wait_for_timeout ex_task 9 16 0 (some ⟨0, 0⟩) ex_world ex_world_wf).2.2
        (by decide) (wf_enqueue ex_task 16 9 ex_world ex_world_wf (by decide) (by decide))
        (by decide)
    rw [h]; rfl
  · obtain ⟨t', s', h⟩ :=
      (futex_wait_result wait_for_timeout ex_task 9 16 1 (some ⟨0, 0⟩) ex_world ex_world_wf).2.1
        0 (by decide) (by decide)
    rw [h]; rfl
  · obtain ⟨t', s', h⟩ :=
      (futex_wait_result wait_for_timeout ex_task 9 80 0 (some ⟨0, 0⟩) ex_world ex_world_wf).1
        (by decide)
    rw [h]; rfl

/-- C6: a failed `futex_wait` is atomic.  When the guest word is unreadable
(`_EFAULT`) or differs from the expected value (`_EAGAIN`), the call returns
with the task and the whole state (hash table with its futexes, reference
counts and queues, wait records, notify trace) exactly as before; and as
`wait_for` itself never yields `_EAGAIN` or `_EFAULT`, whenever `futex_wait`
returns one of these two the state is unchanged. -/
theorem futex_wait_failure_atomic (wait_for : Nat → Option timespec → World → Int × World)
    (current : task) (wait uaddr val : Nat) (timeout : Option timespec) (s : World)
    (hs : s.wf) :
    (s.mem_ptr current.mem uaddr = none →
      futex_wait wait_for current wait uaddr val timeout s = some (_EFAULT, current, s))
    ∧ (∀ v, s.mem_ptr current.mem uaddr = some v → v ≠ val →
      futex_wait wait_for current wait uaddr val timeout s = some (_EAGAIN, current, s))
    ∧ (∀ r t' s', futex_wait wait_for current wait uaddr val timeout s = some (r, t', s') →
      (r = _EAGAIN ∨ r = _EFAULT) →
      (wait_for wait timeout (futex_wait_enqueue (current.mem, uaddr) wait
        (futex_get current uaddr s).2)).1 ≠ _EAGAIN →
      (wait_for wait timeout (futex_wait_enqueue (current.mem, uaddr) wait
        (futex_get current uaddr s).2)).1 ≠ _EFAULT →
      t' = current ∧ s' = s) := by
  refine ⟨futex_wait_fault wait_for current wait uaddr val timeout s hs,
    futex_wait_again wait_for current wait uaddr val timeout s hs, ?_⟩
  intro r t' s' h hr h1 h2
  cases hm : s.mem_ptr current.mem uaddr with
  | none =>
    rw [futex_wait_fault wait_for current wait uaddr val timeout s hs hm] at h
    simp only [Option.some.injEq, Prod.mk.injEq] at h
    exact ⟨h.2.1.symm, h.2.2.symm⟩
  | some v =>
    by_cases hv : v = val
    · subst hv
      have := futex_wait_block_result wait_for current wait uaddr v timeout s hm r t' s' h
      rcases hr with hr | hr
      · exact absurd (this.symm.trans hr) h1
      · exact absurd (this.symm.trans hr) h2
    · rw [futex_wait_again wait_for current wait uaddr val timeout s hs v hm hv] at h
      simp only [Option.some.injEq, Prod.mk.injEq] at h
      exact ⟨h.2.1.symm, h.2.2.symm⟩

/-- The instance of `futex_wait_failure_atomic` at `ex_world`, the scenario of
the spec: the word at `a = 48` is 7, `wait(a, 3)` returns `_EAGAIN` and leaves
the task and the state as they were. -/
theorem futex_wait_failure_atomic_witness :
    ex_world.wf ∧ ex_world.mem_ptr ex_task.mem 48 = some 7
      ∧ futex_wait wait_for_timeout ex_task 9 48 3 none ex_world
          = some (_EAGAIN, ex_task, ex_world) :=
  ⟨ex_world_wf, by decide,
    (futex_wait_failure_atomic wait_for_timeout ex_task 9 48 3 none ex_world ex_world_wf).2.1
      7 (by decide) (by decide)⟩

/-- C7: futex keying and isolation.  A wake or requeue by a task with memory
space `M` on `addr` returns, and in the state it leaves every futex whose key
is neither `(M, addr)` nor, for a requeue, `(M, addr2)` is as it was (same
record: queue and reference count) - whatever its address, memory space or
bucket; only waits that were queued under `(M, addr)` are notified; the queue
of `(M, addr)` only loses waits, and a requeue adds to the queue of
`(M, addr2)` only waits taken from `(M, addr)`. -/
theorem wakelike_frame (current : task) (op : Int)
    (uaddr wake_max requeue_max requeue_addr : Nat) (s : World) (hs : s.wf) :
    ∃ ret s', futex_wakelike current op uaddr wake_max requeue_max requeue_addr s
        = some (ret, s')
      ∧ (∀ r, r ≠ (current.mem, uaddr) →
          (op = (FUTEX_REQUEUE_ : Int) → r ≠ (current.mem, requeue_addr)) →
          s'.deref r = s.deref r)
      ∧ (∃ l, s'.notified = s.notified ++ l ∧ ∀ w ∈ l, w ∈ s.queue_of (current.mem, uaddr))
      ∧ (∀ w ∈ s'.queue_of (current.mem, uaddr), w ∈ s.queue_of (current.mem, uaddr))
      ∧ (op = (FUTEX_REQUEUE_ : Int) → ∀ w ∈ s'.queue_of (current.mem, requeue_addr),
          w ∈ s.queue_of (current.mem, requeue_addr) ∨ w ∈ s.queue_of (current.mem, uaddr)) := by
  by_cases hop : op = (FUTEX_REQUEUE_ : Int)
  · subst hop
    by_cases hne : requeue_addr = uaddr
    · subst hne
      obtain ⟨s', n, q', h1, _, _, h4, h5, _, _, h8, h9, _⟩ :=
        futex_wakelike_requeue_same_spec current requeue_addr wake_max requeue_max s hs _ _
          rfl rfl
      refine ⟨_, s', h1, fun r hr _ => h8 r hr, ⟨_, h9, fun w hw => List.mem_of_mem_take hw⟩,
        ?_, ?_⟩
      · intro w hw
        rw [h4] at hw
        exact List.mem_of_mem_drop (h5.subset hw)
      · intro _ w hw
        rw [h4] at hw
        exact Or.inl (List.mem_of_mem_drop (h5.subset hw))
    · obtain ⟨s', h1, _, h3, _, _, h6, _, _, h9, h10, _⟩ :=
        futex_wakelike_requeue_spec current uaddr wake_max requeue_max requeue_addr s hs hne
          _ _ _ _ rfl rfl rfl rfl
      refine ⟨_, s', h1, fun r hr hr' => h9 r hr (hr' rfl),
        ⟨_, h10, fun w hw => List.mem_of_mem_take hw⟩, ?_, ?_⟩
      · intro w hw
        rw [h3] at hw
        exact List.mem_of_mem_drop hw
      · intro _ w hw
        rw [h6, List.mem_append] at hw
        rcases hw with hw | hw
        · exact Or.inl hw
        · exact Or.inr (List.mem_of_mem_drop (List.mem_of_mem_take hw))
  · obtain ⟨s', h1, _, h3, h4, h5, _⟩ :=
      futex_wakelike_wake_spec current op uaddr wake_max requeue_max requeue_addr s hs hop
    refine ⟨_, s', h1, fun r hr _ => h4 r hr, ⟨_, h5, fun w hw => List.mem_of_mem_take hw⟩,
      ?_, fun h => absurd h hop⟩
    intro w hw
    cases hf : s.deref (current.mem, uaddr) with
    | none => rw [hf] at h3; rw [World.queue_of_none h3] at hw; simp at hw
    | some f =>
      rw [hf] at h3
      rw [World.queue_of_eq h3] at hw
      rw [World.queue_of_eq hf]
      exact List.mem_of_mem_drop hw

/-- The instance of `wakelike_frame` at `ex_world`: the futex of memory space
5096 at address 16 sits in the same bucket as the futex of memory space 1000
at the same address 16; waking all waiters of the latter leaves the former,
with its waiter `6` and its reference count, as it was. -/
theorem wakelike_frame_witness :
    ex_world.wf ∧ futex_hash_index 16 5096 = futex_hash_index 16 1000
      ∧ (futex_wake ex_task 16 10 ex_world).map (fun r => r.2.deref (5096, 16))
          = some (some { refcount := 1, mem := 5096, addr := 16, queue := [6] }) := by
  obtain ⟨ret, s', h1, h2, _⟩ :=
    wakelike_frame ex_task (FUTEX_WAKE_ : Int) 16 10 0 0 ex_world ex_world_wf
  refine ⟨ex_world_wf, by decide, ?_⟩
  have h1' : futex_wake ex_task 16 10 ex_world = some (ret, s') := h1
  rw [h1']
  show some (s'.deref (5096, 16)) = _
  rw [h2 (5096, 16) (by decide) (by decide)]
  decide

theorem cmd_mask_or (op fl : Nat) (hfl : fl &&& FUTEX_CMD_MASK_ = 0) :
    (op ||| fl) &&& FUTEX_CMD_MASK_ = op &&& FUTEX_CMD_MASK_ := by
  rw [Nat.and_distrib_right, hfl, Nat.or_zero]

theorem sys_futex_cmd (wait_for : Nat → Option timespec → World → Int × World)
    (current : task) (wait uaddr op op' val tv uaddr2 val3 : Nat) (s : World)
    (h : op &&& FUTEX_CMD_MASK_ = op' &&& FUTEX_CMD_MASK_) :
    sys_futex wait_for current wait uaddr op val tv uaddr2 val3 s
      = sys_futex wait_for current wait uaddr op' val tv uaddr2 val3 s := by
  simp only [sys_futex, h]

/-- C8: every operation word whose command part (the word with the PRIVATE
bit 128 and the CLOCK_REALTIME bit 256 cleared) is not WAIT, WAKE or REQUEUE
makes `sys_futex` return `ENOSYS`, whatever the other arguments, with the task
and the whole state (futex table, guest memory) untouched; in particular the
commands 2 and 4 to 12, alone or with either flag. -/
theorem sys_futex_enosys (wait_for : Nat → Option timespec → World → Int × World)
    (current : task) (wait uaddr val tv uaddr2 val3 : Nat) (s : World) :
    (∀ op, op &&& FUTEX_CMD_MASK_ ≠ FUTEX_WAIT_ → op &&& FUTEX_CMD_MASK_ ≠ FUTEX_WAKE_ →
      op &&& FUTEX_CMD_MASK_ ≠ FUTEX_REQUEUE_ →
      sys_futex wait_for current wait uaddr op val tv uaddr2 val3 s
        = some (dword_of_int _ENOSYS, current, s))
    ∧ (∀ cmd ∈ [FUTEX_FD_, FUTEX_CMP_REQUEUE_, FUTEX_WAKE_OP_, FUTEX_LOCK_PI_, FUTEX_UNLOCK_PI_,
          FUTEX_TRYLOCK_PI_, FUTEX_WAIT_BITSET_, FUTEX_WAKE_BITSET_, FUTEX_WAIT_REQUEUE_PI_,
          FUTEX_CMP_REQUEUE_PI_],
        ∀ fl ∈ [0, FUTEX_PRIVATE_FLAG_, FUTEX_CLOCK_REALTIME_,
          FUTEX_PRIVATE_FLAG_ ||| FUTEX_CLOCK_REALTIME_],
        sys_futex wait_for current wait uaddr (cmd ||| fl) val tv uaddr2 val3 s
          = some (dword_of_int _ENOSYS, current, s)) := by
  have key : ∀ op, op &&& FUTEX_CMD_MASK_ ≠ FUTEX_WAIT_ → op &&& FUTEX_CMD_MASK_ ≠ FUTEX_WAKE_ →
      op &&& FUTEX_CMD_MASK_ ≠ FUTEX_REQUEUE_ →
      sys_futex wait_for current wait uaddr op val tv uaddr2 val3 s
        = some (dword_of_int _ENOSYS, current, s) := by
    intro op h0 h1 h3
    simp only [sys_futex, h0, h1, h3, false_and, if_false]
  refine ⟨key, ?_⟩
  intro cmd hcmd fl hfl
  have hm : ∀ c ∈ [FUTEX_FD_, FUTEX_CMP_REQUEUE_, FUTEX_WAKE_OP_, FUTEX_LOCK_PI_, FUTEX_UNLOCK_PI_,
      FUTEX_TRYLOCK_PI_, FUTEX_WAIT_BITSET_, FUTEX_WAKE_BITSET_, FUTEX_WAIT_REQUEUE_PI_,
      FUTEX_CMP_REQUEUE_PI_],
      ∀ f ∈ [0, FUTEX_PRIVATE_FLAG_, FUTEX_CLOCK_REALTIME_,
        FUTEX_PRIVATE_FLAG_ ||| FUTEX_CLOCK_REALTIME_],
      (c ||| f) &&& FUTEX_CMD_MASK_ ≠ FUTEX_WAIT_ ∧ (c ||| f) &&& FUTEX_CMD_MASK_ ≠ FUTEX_WAKE_
        ∧ (c ||| f) &&& FUTEX_CMD_MASK_ ≠ FUTEX_REQUEUE_ := by decide
  obtain ⟨a, b, c⟩ := hm cmd hcmd fl hfl
  exact key _ a b c

/-- The instance of `sys_futex_enosys` at `FUTEX_WAIT_BITSET_PRIVATE_` (137)
on `ex_world`. -/
theorem sys_futex_enosys_witness :
    (137 &&& FUTEX_CMD_MASK_ ≠ FUTEX_WAIT_ ∧ 137 &&& FUTEX_CMD_MASK_ ≠ FUTEX_WAKE_
        ∧ 137 &&& FUTEX_CMD_MASK_ ≠ FUTEX_REQUEUE_)
      ∧ sys_futex wait_for_timeout ex_task 9 16 137 0 64 0 0 ex_world
          = some (4294967258, ex_task, ex_world) :=
  ⟨by decide,
    (sys_futex_enosys wait_for_timeout ex_task 9 16 0 64 0 0 ex_world).1 137
      (by decide) (by decide) (by decide)⟩

/-- C9: the PRIVATE and CLOCK_REALTIME flags do not influence `sys_futex`:
setting either or both in the operation word gives the same result, task and
state (logging, the only place where the PRIVATE bit is looked at, is not
represented). -/
theorem sys_futex_flags_ignored (wait_for : Nat → Option timespec → World → Int × World)
    (current : task) (wait uaddr op val tv uaddr2 val3 : Nat) (s : World) :
    sys_futex wait_for current wait uaddr (op ||| FUTEX_PRIVATE_FLAG_) val tv uaddr2 val3 s
        = sys_futex wait_for current wait uaddr op val tv uaddr2 val3 s
    ∧ sys_futex wait_for current wait uaddr (op ||| FUTEX_CLOCK_REALTIME_) val tv uaddr2 val3 s
        = sys_futex wait_for current wait uaddr op val tv uaddr2 val3 s
    ∧ sys_futex wait_for current wait uaddr (op ||| (FUTEX_PRIVATE_FLAG_ ||| FUTEX_CLOCK_REALTIME_))
          val tv uaddr2 val3 s
        = sys_futex wait_for current wait uaddr op val tv uaddr2 val3 s :=
  ⟨sys_futex_cmd _ _ _ _ _ _ _ _ _ _ _ (cmd_mask_or op _ (by decide)),
   sys_futex_cmd _ _ _ _ _ _ _ _ _ _ _ (cmd_mask_or op _ (by decide)),
   sys_futex_cmd _ _ _ _ _ _ _ _ _ _ _ (cmd_mask_or op _ (by decide))⟩

theorem modify_critical_region_counter_undo (t : task) :
    modify_critical_region_counter (modify_critical_region_counter t 1) (-1) = t := by
  cases t
  simp [modify_critical_region_counter]

theorem sys_futex_wait_unfold (wait_for : Nat → Option timespec → World → Int × World)
    (current : task) (wait uaddr op val tv uaddr2 val3 : Nat) (s : World)
    (hop : op &&& FUTEX_CMD_MASK_ = FUTEX_WAIT_) (htv : tv ≠ 0) (sec nsec : Int)
    (hget : s.user_get_timespec current.mem tv = some (sec, nsec)) :
    sys_futex wait_for current wait uaddr op val tv uaddr2 val3 s
      = (futex_wait wait_for (modify_critical_region_counter current 1) wait uaddr val
          (some { tv_sec := sec, tv_nsec := nsec }) s).map
        (fun r => (dword_of_int r.1, modify_critical_region_counter r.2.1 (-1), r.2.2)) := by
  simp only [sys_futex, hop, htv, ne_eq, not_false_eq_true, and_self, if_true, hget]
  cases futex_wait wait_for (modify_critical_region_counter current 1) wait uaddr val
      (some { tv_sec := sec, tv_nsec := nsec }) s <;> rfl

/-- C10, as stated, fails: `sys_futex` has no range check on the timespec.  At
`ex_world` the guest timespec at address 64 is `{0, 2000000000}`, with
`nsec ≥ 1000000000`; a `FUTEX_WAIT_` on address 48 (word 7) expecting 3 returns
`EAGAIN`, and one on address 16 (word 0) expecting 0 queues the caller and
returns the outcome of `wait_for` (here `ETIMEDOUT`); neither is `EINVAL`. -/
theorem sys_futex_timespec_counterexample :
    ex_world.wf ∧ ex_world.user_get_timespec ex_task.mem 64 = some (0, 2000000000)
      ∧ (sys_futex wait_for_timeout ex_task 9 48 FUTEX_WAIT_ 3 64 0 0 ex_world).map Prod.fst
          = some (dword_of_int _EAGAIN)
      ∧ (sys_futex wait_for_timeout ex_task 9 16 FUTEX_WAIT_ 0 64 0 0 ex_world).map Prod.fst
          = some (dword_of_int _ETIMEDOUT)
      ∧ dword_of_int _EAGAIN ≠ dword_of_int _EINVAL
      ∧ dword_of_int _ETIMEDOUT ≠ dword_of_int _EINVAL :=
  ⟨ex_world_wf, by decide, by decide, by decide, by decide, by decide⟩

/-- C10, amended: for a `FUTEX_WAIT_` with a non-null readable guest timespec
`{sec, nsec}`, whatever `sec` and `nsec` are, `sys_futex` returns `EFAULT` when
the futex word is unreadable and `EAGAIN` when it differs from `val`, in both
cases with the task and the state untouched (the caller is not queued);
otherwise it queues the caller and returns the outcome of `wait_for`, which
receives the timeout `{sec, nsec}` as read. -/
theorem sys_futex_wait_timespec (wait_for : Nat → Option timespec → World → Int × World)
    (current : task) (wait uaddr op val tv uaddr2 val3 : Nat) (s : World) (hs : s.wf)
    (hop : op &&& FUTEX_CMD_MASK_ = FUTEX_WAIT_) (htv : tv ≠ 0) (sec nsec : Int)
    (hget : s.user_get_timespec current.mem tv = some (sec, nsec)) :
    (s.mem_ptr current.mem uaddr = none →
      sys_futex wait_for current wait uaddr op val tv uaddr2 val3 s
        = some (dword_of_int _EFAULT, current, s))
    ∧ (∀ v, s.mem_ptr current.mem uaddr = some v → v ≠ val →
      sys_futex wait_for current wait uaddr op val tv uaddr2 val3 s
        = some (dword_of_int _EAGAIN, current, s))
    ∧ (s.mem_ptr current.mem uaddr = some val →
      (wait_for wait (some { tv_sec := sec, tv_nsec := nsec })
        (futex_wait_enqueue (current.mem, uaddr) wait (futex_get current uaddr s).2)).2.wf →
      ((wait_for wait (some { tv_sec := sec, tv_nsec := nsec })
        (futex_wait_enqueue (current.mem, uaddr) wait (futex_get current uaddr s).2)).2.wait_futex
          wait).isSome = true →
      ∃ t' s', sys_futex wait_for current wait uaddr op val tv uaddr2 val3 s
        = some (dword_of_int (wait_for wait (some { tv_sec := sec, tv_nsec := nsec })
            (futex_wait_enqueue (current.mem, uaddr) wait (futex_get current uaddr s).2)).1,
          t', s')) := by
  have hu := sys_futex_wait_unfold wait_for current wait uaddr op val tv uaddr2 val3 s hop htv
    sec nsec hget
  refine ⟨?_, ?_, ?_⟩
  · intro hm
    rw [hu, futex_wait_fault wait_for (modify_critical_region_counter current 1) wait uaddr val
      _ s hs hm]
    simp only [Option.map_some', modify_critical_region_counter_undo]
  · intro v hm hv
    rw [hu, futex_wait_again wait_for (modify_critical_region_counter current 1) wait uaddr val
      _ s hs v hm hv]
    simp only [Option.map_some', modify_critical_region_counter_undo]
  · intro hm hwf hlive
    obtain ⟨s', h⟩ := futex_wait_blocks wait_for (modify_critical_region_counter current 1)
      wait uaddr val (some { tv_sec := sec, tv_nsec := nsec }) s hm hwf hlive
    rw [hu, h]
    exact ⟨_, s', rfl⟩

/-- The instance of `sys_futex_wait_timespec` at `ex_world` with the timespec
`{0, 2000000000}` at address 64: `EAGAIN` on address 48 expecting 3, with the
task and the state untouched. -/
theorem sys_futex_wait_timespec_witness :
    ex_world.wf ∧ FUTEX_WAIT_ &&& FUTEX_CMD_MASK_ = FUTEX_WAIT_ ∧ (64 : Nat) ≠ 0
      ∧ ex_world.user_get_timespec ex_task.mem 64 = some (0, 2000000000)
      ∧ sys_futex wait_for_timeout ex_task 9 48 FUTEX_WAIT_ 3 64 0 0 ex_world
          = some (dword_of_int _EAGAIN, ex_task, ex_world) :=
  ⟨ex_world_wf, by decide, by decide, by decide,
    (sys_futex_wait_timespec wait_for_timeout ex_task 9 48 FUTEX_WAIT_ 3 64 0 0 ex_world
      ex_world_wf (by decide) (by decide) 0 2000000000 (by decide)).2.1 7 (by decide)
      (by decide)⟩

/-! ## The robust list -/

theorem sizeof_robust_list_head_eq : sizeof_robust_list_head_ = 12 := rfl

theorem user_put_writable (m : guest_mem) (addr value : Nat)
    (hw : ∀ i, i < 4 → m.writable (addr + i) = true) :
    ∃ m', user_put m addr value = some m' ∧ m'.writable = m.writable
      ∧ (∀ a, (a < addr ∨ addr + 4 ≤ a) → m'.byte a = m.byte a)
      ∧ (value < 2 ^ 32 → m'.load addr = value) := by
  have h0 := hw 0 (by omega)
  have h1 := hw 1 (by omega)
  have h2 := hw 2 (by omega)
  have h3 := hw 3 (by omega)
  simp only [Nat.add_zero] at h0
  have hput : user_put m addr value = some { m with byte := store_dword m.byte addr value } := by
    simp only [user_put, h0, h1, h2, h3, and_self, if_true]
  refine ⟨_, hput, rfl, ?_, ?_⟩
  · intro a ha
    have e0 : a ≠ addr := by omega
    have e1 : a ≠ addr + 1 := by omega
    have e2 : a ≠ addr + 2 := by omega
    have e3 : a ≠ addr + 3 := by omega
    simp only [store_dword, e0, e1, e2, e3, if_false]
  · intro hv
    have e1 : addr + 1 ≠ addr := by omega
    have e2 : addr + 2 ≠ addr := by omega
    have e3 : addr + 3 ≠ addr := by omega
    have e4 : addr + 2 ≠ addr + 1 := by omega
    have e5 : addr + 3 ≠ addr + 1 := by omega
    have e6 : addr + 3 ≠ addr + 2 := by omega
    simp only [guest_mem.load, store_dword, if_true, e1, e2, e3, e4, e5, e6, if_false]
    omega

theorem guest_mem.load_congr (m m' : guest_mem) (addr : Nat)
    (h : ∀ a, addr ≤ a → a < addr + 4 → m'.byte a = m.byte a) : m'.load addr = m.load addr := by
  simp only [guest_mem.load]
  rw [h addr (by omega) (by omega), h (addr + 1) (by omega) (by omega),
    h (addr + 2) (by omega) (by omega), h (addr + 3) (by omega) (by omega)]

/-- C12: `sys_set_robust_list(addr, len)` returns `EINVAL` exactly when
`len` is not 12, the size of the three-word `robust_list_head_`; on `EINVAL`
the task is unchanged (so is its stored robust-list pointer); on `0` the
stored pointer is `addr` and no other field of the task changes. -/
theorem sys_set_robust_list_spec (current : task) (addr len : Nat) :
    sizeof_robust_list_head_ = 12
    ∧ ((sys_set_robust_list current addr len).1 = _EINVAL ↔ len ≠ 12)
    ∧ ((sys_set_robust_list current addr len).1 = _EINVAL →
        (sys_set_robust_list current addr len).2 = current)
    ∧ ((sys_set_robust_list current addr len).1 ≠ _EINVAL →
        (sys_set_robust_list current addr len).1 = 0
        ∧ (sys_set_robust_list current addr len).2 = { current with robust_list := addr }) := by
  by_cases h : len = 12
  · subst h
    refine ⟨rfl, ?_, ?_, ?_⟩
    · simp [sys_set_robust_list, sizeof_robust_list_head_, _EINVAL]
    · intro hr; simp [sys_set_robust_list, sizeof_robust_list_head_, _EINVAL] at hr
    · intro _; simp [sys_set_robust_list, sizeof_robust_list_head_]
  · have h' : len ≠ sizeof_robust_list_head_ := h
    refine ⟨rfl, ?_, ?_, ?_⟩
    · simp [sys_set_robust_list, h', h]
    · intro _; simp [sys_set_robust_list, h']
    · intro hr; simp [sys_set_robust_list, h'] at hr

/-- C11: the robust-list round trip.  When `sys_set_robust_list(a, L)` returns
0, a following `sys_get_robust_list` on the caller's own pid with writable
output pointers returns 0; it stores `a` at the first pointer and then `L`,
which is 12, at the second, so that afterwards the second holds `L` and the
first, a 4-byte object apart from the second, holds `a`. -/
theorem robust_list_round_trip (pid_get_task : Nat → Option Nat) (current_addr : Nat)
    (current : task) (a L robust_list_ptr len_ptr : Nat) (m : guest_mem)
    (hset : (sys_set_robust_list current a L).1 = 0)
    (ha : a < 2 ^ 32)
    (hself : pid_get_task (dword_of_int (current.pid : Int)) = some current_addr)
    (hw1 : ∀ i, i < 4 → m.writable (robust_list_ptr + i) = true)
    (hw2 : ∀ i, i < 4 → m.writable (len_ptr + i) = true) :
    L = 12
    ∧ (sys_get_robust_list pid_get_task current_addr (sys_set_robust_list current a L).2
        ((sys_set_robust_list current a L).2.pid : Int) robust_list_ptr len_ptr m).1 = 0
    ∧ (user_put m robust_list_ptr a).bind (fun m1 => user_put m1 len_ptr L)
        = some (sys_get_robust_list pid_get_task current_addr (sys_set_robust_list current a L).2
            ((sys_set_robust_list current a L).2.pid : Int) robust_list_ptr len_ptr m).2
    ∧ (sys_get_robust_list pid_get_task current_addr (sys_set_robust_list current a L).2
        ((sys_set_robust_list current a L).2.pid : Int) robust_list_ptr len_ptr m).2.load len_ptr
        = L
    ∧ ((robust_list_ptr + 4 ≤ len_ptr ∨ len_ptr + 4 ≤ robust_list_ptr) →
      (sys_get_robust_list pid_get_task current_addr (sys_set_robust_list current a L).2
        ((sys_set_robust_list current a L).2.pid : Int) robust_list_ptr len_ptr m).2.load
          robust_list_ptr = a) := by
  have hL : L = 12 := by
    by_contra h
    have h' : L ≠ sizeof_robust_list_head_ := h
    simp [sys_set_robust_list, h', _EINVAL] at hset
  subst hL
  have hs : sys_set_robust_list current a 12 = (0, { current with robust_list := a }) := by
    simp [sys_set_robust_list, sizeof_robust_list_head_]
  obtain ⟨m1, p1, w1, b1, l1⟩ := user_put_writable m robust_list_ptr a hw1
  obtain ⟨m2, p2, _, b2, l2⟩ := user_put_writable m1 len_ptr 12 (by rw [w1]; exact hw2)
  have hg : sys_get_robust_list pid_get_task current_addr { current with robust_list := a }
      (current.pid : Int) robust_list_ptr len_ptr m = (0, m2) := by
    have p2' : user_put m1 len_ptr sizeof_robust_list_head_ = some m2 := p2
    simp only [sys_get_robust_list, hself, ne_eq, not_true_eq_false, if_false, p1, p2']
  rw [hs]
  simp only [hg]
  refine ⟨trivial, trivial, ?_, l2 (by norm_num), ?_⟩
  · rw [p1]; exact p2
  · intro hd
    rw [← l1 ha]
    apply guest_mem.load_congr
    intro x hx1 hx2
    exact b2 x (by omega)

/-- The instance of `robust_list_round_trip` for the task at address 7000
with pid 42: after `set_robust_list(0x5000, 12)`, `get_robust_list(42, 256, 512)`
returns 0 and leaves `0x5000` at address 256 and 12 at address 512. -/
theorem robust_list_round_trip_witness :
    (sys_set_robust_list ex_task 20480 12).1 = 0
      ∧ ex_pid_get_task (dword_of_int (ex_task.pid : Int)) = some 7000
      ∧ (sys_get_robust_list ex_pid_get_task 7000 (sys_set_robust_list ex_task 20480 12).2
          ((sys_set_robust_list ex_task 20480 12).2.pid : Int) 256 512 ex_mem).1 = 0
      ∧ (sys_get_robust_list ex_pid_get_task 7000 (sys_set_robust_list ex_task 20480 12).2
          ((sys_set_robust_list ex_task 20480 12).2.pid : Int) 256 512 ex_mem).2.load 512 = 12
      ∧ (sys_get_robust_list ex_pid_get_task 7000 (sys_set_robust_list ex_task 20480 12).2
          ((sys_set_robust_list ex_task 20480 12).2.pid : Int) 256 512 ex_mem).2.load 256
            = 20480 := by
  have h := robust_list_round_trip ex_pid_get_task 7000 ex_task 20480 12 256 512 ex_mem
    (by decide) (by norm_num) (by decide) (by intro i hi; simp [ex_mem]; omega)
    (by intro i hi; simp [ex_mem]; omega)
  exact ⟨by decide, by decide, h.2.1, h.2.2.2.1, h.2.2.2.2 (by omega)⟩

/-- C13: the result of `sys_get_robust_list`.  It is `EPERM` exactly when
`pid_get_task` does not resolve the pid to the calling task - the pid of
another task, a pid without task, pid 0 when it has no task - and then guest
memory is left as it was, whatever the output pointers are.  When the pid
resolves to the caller, the result is `EFAULT` exactly when one of the two
guest writes fails, and 0 otherwise. -/
theorem sys_get_robust_list_result (pid_get_task : Nat → Option Nat) (current_addr : Nat)
    (current : task) (pid : Int) (robust_list_ptr len_ptr : Nat) (m : guest_mem) :
    ((sys_get_robust_list pid_get_task current_addr current pid robust_list_ptr len_ptr m).1
        = _EPERM ↔ pid_get_task (dword_of_int pid) ≠ some current_addr)
    ∧ (pid_get_task (dword_of_int pid) ≠ some current_addr →
        (sys_get_robust_list pid_get_task current_addr current pid robust_list_ptr len_ptr m).2
          = m)
    ∧ (pid_get_task 0 = none →
        sys_get_robust_list pid_get_task current_addr current 0 robust_list_ptr len_ptr m
          = (_EPERM, m))
    ∧ (pid_get_task (dword_of_int pid) = some current_addr →
        ((sys_get_robust_list pid_get_task current_addr current pid robust_list_ptr len_ptr m).1
            = _EFAULT ↔
          (user_put m robust_list_ptr current.robust_list = none
            ∨ ∃ m1, user_put m robust_list_ptr current.robust_list = some m1
              ∧ user_put m1 len_ptr 12 = none))
        ∧ ((sys_get_robust_list pid_get_task current_addr current pid robust_list_ptr len_ptr
              m).1 = 0 ↔
          ¬ (user_put m robust_list_ptr current.robust_list = none
            ∨ ∃ m1, user_put m robust_list_ptr current.robust_list = some m1
              ∧ user_put m1 len_ptr 12 = none))) := by
  refine ⟨?_, ?_, ?_, ?_⟩
  · by_cases h : pid_get_task (dword_of_int pid) = some current_addr
    · simp only [sys_get_robust_list, h, ne_eq, not_true_eq_false, if_false, iff_false]
      cases h1 : user_put m robust_list_ptr current.robust_list with
      | none => simp [_EFAULT, _EPERM]
      | some m1 =>
        cases h2 : user_put m1 len_ptr sizeof_robust_list_head_ with
        | none => simp [_EFAULT, _EPERM, h2]
        | some m2 => simp [_EPERM, h2]
    · simp only [sys_get_robust_list, h, ne_eq, not_false_eq_true, if_true]
  · intro h
    simp only [sys_get_robust_list, h, ne_eq, not_false_eq_true, if_true]
  · intro h
    have h0 : dword_of_int 0 = 0 := by decide
    simp only [sys_get_robust_list, h0, h, ne_eq, not_false_eq_true, if_true, reduceCtorEq]
  · intro h
    simp only [sys_get_robust_list, h, ne_eq, not_true_eq_false, if_false]
    cases h1 : user_put m robust_list_ptr current.robust_list with
    | none => simp [_EFAULT]
    | some m1 =>
      cases h2 : user_put m1 len_ptr sizeof_robust_list_head_ with
      | none =>
        have h2' : user_put m1 len_ptr 12 = none := h2
        simp [_EFAULT, h2', h2]
      | some m2 =>
        have h2' : user_put m1 len_ptr 12 = some m2 := h2
        simp [_EFAULT, h2', h2]

/-- The instance of `sys_get_robust_list_result` for the task at address 7000
with pid 42: asking for pid 43 (another task), pid 99 (no task) or pid 0 gives
`EPERM` and leaves memory alone although the output pointers 8000 and 9000 are
not writable; asking for pid 42 with these pointers gives `EFAULT`. -/
theorem sys_get_robust_list_result_witness :
    (ex_pid_get_task (dword_of_int 43) ≠ some 7000 ∧ ex_pid_get_task 0 = none
        ∧ ex_pid_get_task (dword_of_int 42) = some 7000)
      ∧ (sys_get_robust_list ex_pid_get_task 7000 ex_task 43 8000 9000 ex_mem).1 = _EPERM
      ∧ (sys_get_robust_list ex_pid_get_task 7000 ex_task 43 8000 9000 ex_mem).2 = ex_mem
      ∧ sys_get_robust_list ex_pid_get_task 7000 ex_task 0 8000 9000 ex_mem = (_EPERM, ex_mem)
      ∧ (sys_get_robust_list ex_pid_get_task 7000 ex_task 42 8000 9000 ex_mem).1 = _EFAULT := by
  have h43 := sys_get_robust_list_result ex_pid_get_task 7000 ex_task 43 8000 9000 ex_mem
  have h42 := sys_get_robust_list_result ex_pid_get_task 7000 ex_task 42 8000 9000 ex_mem
  exact ⟨⟨by decide, by decide, by decide⟩, h43.1.2 (by decide), h43.2.1 (by decide),
    h43.2.2.1 (by decide), (h42.2.2.2 (by decide)).1.2 (Or.inl (by simp [user_put, ex_mem]))⟩

/-! ## The root directory of `/proc` -/

theorem PROC_ROOT_LEN_eq : PROC_ROOT_LEN = 14 := by decide

/-- C14: the table `proc_root_entries` has 14 entries, `cpuinfo` to `vmstat`,
whose names are strictly increasing in the byte-wise lexicographic order (each
name is before every later one), and for every index `i` below `PROC_ROOT_LEN`
the call `proc_root_readdir` returns true, stores the `i`-th table entry and
advances the index to `i + 1`; so the calls from index 0 on yield the static
entries in table order, which is alphabetical, at the indices `0..N-1`. -/
theorem proc_root_static_order (pid_get_task : Nat → Option Nat) (current : task) :
    PROC_ROOT_LEN = 14
    ∧ proc_root_entries.map (fun e => e.name)
        = ["cpuinfo", "diskstats", "filesystems", "ish", "loadavg", "meminfo", "mounts", "net",
            "self", "stat", "sys", "uptime", "version", "vmstat"].map String.toList
    ∧ List.Pairwise (fun a b => strcmp_lt a.name b.name = true) proc_root_entries
    ∧ (∀ i, i < PROC_ROOT_LEN →
        proc_root_readdir pid_get_task current i
          = some ⟨true, i + 1, some (.root_entry i), current⟩) := by
  refine ⟨by decide, by decide, by decide, ?_⟩
  intro i hi
  have hN := PROC_ROOT_LEN_eq
  have hmod : (i + 1) % 2 ^ 64 = i + 1 := Nat.mod_eq_of_lt (by omega)
  simp only [proc_root_readdir, hi, if_true, hmod]

/-- The instance of `proc_root_static_order` at index 6: the call returns the
entry `mounts` and the index 7. -/
theorem proc_root_static_order_witness :
    proc_root_readdir ex_pid_get_task ex_task 6 = some ⟨true, 7, some (.root_entry 6), ex_task⟩
      ∧ (proc_root_entries.get? 6).map (fun e => e.name) = some "mounts".toList :=
  ⟨(proc_root_static_order ex_pid_get_task ex_task).2.2.2 6 (by decide), by decide⟩

theorem pid_scan_spec (f : Nat → Option Nat) :
    ∀ (fuel p : Nat), p ≤ MAX_PID → MAX_PID + 1 - p ≤ fuel →
      ∃ q : Nat, pid_scan f fuel (p : Int) = some (q : Int) ∧ p < q ∧ q ≤ MAX_PID + 1
        ∧ (∀ j, p < j → j < q → f j = none) ∧ (q ≤ MAX_PID → f q ≠ none) := by
  intro fuel
  induction fuel with
  | zero => intro p hp hf; omega
  | succ fuel ih =>
    intro p hp hf
    have hM := MAX_PID_eq
    have hd : dword_of_int ((p : Int) + 1) = p + 1 := by
      have := dword_of_int_natCast (p + 1) (by omega)
      simpa using this
    have hle : ((p : Int) + 1 ≤ (MAX_PID : Int)) ↔ p + 1 ≤ MAX_PID := by omega
    simp only [pid_scan, hd, hle]
    by_cases hc : p + 1 ≤ MAX_PID ∧ f (p + 1) = none
    · rw [if_pos hc]
      obtain ⟨q, hq, h1, h2, h3, h4⟩ := ih (p + 1) hc.1 (by omega)
      refine ⟨q, ?_, by omega, h2, ?_, h4⟩
      · rw [← hq]; push_cast; rfl
      · intro j hj1 hj2
        by_cases hj : j = p + 1
        · rw [hj]; exact hc.2
        · exact h3 j (by omega) hj2
    · rw [if_neg hc]
      refine ⟨p + 1, by push_cast; rfl, by omega, by omega, ?_, ?_⟩
      · intro j hj1 hj2; omega
      · intro hq hn; exact hc ⟨hq, hn⟩

theorem proc_root_readdir_scan (f : Nat → Option Nat) (current : task) (p : Nat)
    (hp : p ≤ MAX_PID) :
    ∃ q : Nat, p < q ∧ q ≤ MAX_PID + 1 ∧ (∀ j, p < j → j < q → f j = none)
      ∧ (q ≤ MAX_PID → f q ≠ none)
      ∧ proc_root_readdir f current (p + PROC_ROOT_LEN)
          = some (if MAX_PID < q then ⟨false, p + PROC_ROOT_LEN, none, current⟩
              else ⟨true, q + PROC_ROOT_LEN, some (.pid_entry q), current⟩) := by
  have hM := MAX_PID_eq
  have hN := PROC_ROOT_LEN_eq
  obtain ⟨q, hq, h1, h2, h3, h4⟩ := pid_scan_spec f (MAX_PID + 1 - p) p hp (le_refl _)
  refine ⟨q, h1, h2, h3, h4, ?_⟩
  have hlt : ¬ p + PROC_ROOT_LEN < PROC_ROOT_LEN := by omega
  have hsub : (p + PROC_ROOT_LEN - PROC_ROOT_LEN) % 2 ^ 64 = p := by
    rw [Nat.add_sub_cancel]; exact Nat.mod_eq_of_lt (by omega)
  have hpid : int_of_unsigned p = (p : Int) := int_of_unsigned_small p (by omega)
  have hle : (p : Int) ≤ (MAX_PID : Int) := by omega
  have hfuel : ((MAX_PID : Int) + 1 - (p : Int)).toNat = MAX_PID + 1 - p := by omega
  simp only [proc_root_readdir, hlt, if_false, hsub, hpid, hle, if_true, hfuel, hq,
    modify_critical_region_counter_undo]
  by_cases hgt : MAX_PID < q
  · have : (q : Int) > (MAX_PID : Int) := by omega
    simp only [this, hgt, if_true]
  · have : ¬ (q : Int) > (MAX_PID : Int) := by omega
    have hu : ulong_of_int ((q : Int) + (PROC_ROOT_LEN : Int)) = q + PROC_ROOT_LEN := by
      simp only [ulong_of_int]; omega
    simp only [this, hgt, if_false, hu]

theorem filter_range_skip (live : Nat → Bool) (n : Nat) :
    ∀ (k a : Nat), (∀ j, a ≤ j → j < a + k → live j = false) → live (a + k) = true →
      (List.range' a (k + 1 + n)).filter live
        = (a + k) :: (List.range' (a + k + 1) n).filter live := by
  intro k
  induction k with
  | zero =>
    intro a _ hl
    have : 0 + 1 + n = n + 1 := by omega
    rw [this, List.range'_succ]
    simp only [Nat.add_zero] at hl ⊢
    rw [List.filter_cons_of_pos hl]
  | succ k ih =>
    intro a hn hl
    have : k + 1 + 1 + n = (k + 1 + n) + 1 := by omega
    rw [this, List.range'_succ]
    have ha : live a = false := hn a (le_refl _) (by omega)
    rw [List.filter_cons_of_neg (by simp [ha])]
    have h := ih (a + 1) (fun j hj1 hj2 => hn j (by omega) (by omega))
      (by have : a + 1 + k = a + (k + 1) := by omega
          rw [this]; exact hl)
    have e1 : a + 1 + k = a + (k + 1) := by omega
    rw [e1] at h
    exact h

theorem filter_range_none (live : Nat → Bool) :
    ∀ (n a : Nat), (∀ j, a ≤ j → j < a + n → live j = false) →
      (List.range' a n).filter live = [] := by
  intro n a h
  rw [List.filter_eq_nil_iff]
  intro j hj
  rw [List.mem_range'_1] at hj
  simp [h j hj.1 hj.2]

theorem readdir_all_spec (f : Nat → Option Nat) (current : task) :
    ∀ (fuel p : Nat), p ≤ MAX_PID → MAX_PID + 1 - p ≤ fuel →
      readdir_all f current fuel (p + PROC_ROOT_LEN)
        = some (List.map (fun q : Nat => proc_entry.pid_entry (q : Int))
            ((List.range' (p + 1) (MAX_PID - p)).filter (fun q => (f q).isSome))) := by
  intro fuel
  induction fuel with
  | zero => intro p hp hf; omega
  | succ fuel ih =>
    intro p hp hf
    obtain ⟨q, h1, h2, h3, h4, hr⟩ := proc_root_readdir_scan f current p hp
    simp only [readdir_all, hr]
    by_cases hgt : MAX_PID < q
    · simp only [hgt, if_true, Bool.false_eq_true, if_false]
      rw [filter_range_none]
      · rfl
      · intro j hj1 hj2
        simp [h3 j (by omega) (by omega)]
    · have hq : q ≤ MAX_PID := by omega
      simp only [hgt, if_false, if_true]
      rw [ih q hq (by omega)]
      have hsplit : MAX_PID - p = (q - (p + 1)) + 1 + (MAX_PID - q) := by omega
      have hlive : (fun q => (f q).isSome) (p + 1 + (q - (p + 1))) = true := by
        have : p + 1 + (q - (p + 1)) = q := by omega
        rw [this]
        exact Option.isSome_iff_ne_none.mpr (h4 hq)
      rw [hsplit, filter_range_skip (fun q => (f q).isSome) (MAX_PID - q) (q - (p + 1)) (p + 1)
        (fun j hj1 hj2 => by simp [h3 j (by omega) (by omega)]) hlive]
      have e : p + 1 + (q - (p + 1)) = q := by omega
      simp only [e, Option.map_some', Option.toList_some, List.map_cons, List.singleton_append]

/-- C15: the pid phase of `proc_root_readdir`.  For an index between
`PROC_ROOT_LEN` and `PROC_ROOT_LEN + MAX_PID`, with `p` the index minus
`PROC_ROOT_LEN`, the call returns, leaves `current` as it was, and returns
true exactly when some pid `q` with `p < q ≤ MAX_PID` has a task; then `q` is
the least such pid, the entry stored is the pid entry of `q` and the index
becomes `q + PROC_ROOT_LEN`; when it returns false the index is unchanged and
nothing is stored.  Repeated calls from index `PROC_ROOT_LEN` on return the
pid entries of a strictly ascending list that holds exactly the pids from 1
to `MAX_PID` with a task, and then false; and the call at index
`PROC_ROOT_LEN + MAX_PID` returns false. -/
theorem proc_root_readdir_pids (pid_get_task : Nat → Option Nat) (current : task) (index : Nat)
    (h1 : PROC_ROOT_LEN ≤ index) (h2 : index ≤ PROC_ROOT_LEN + MAX_PID) :
    (∃ r, proc_root_readdir pid_get_task current index = some r ∧ r.current = current
      ∧ (r.ret = true ↔
          ∃ q, index - PROC_ROOT_LEN < q ∧ q ≤ MAX_PID ∧ pid_get_task q ≠ none)
      ∧ (r.ret = true →
          ∃ q, index - PROC_ROOT_LEN < q ∧ q ≤ MAX_PID ∧ pid_get_task q ≠ none
            ∧ (∀ j, index - PROC_ROOT_LEN < j → j < q → pid_get_task j = none)
            ∧ r.next_entry = some (.pid_entry q) ∧ r.index = q + PROC_ROOT_LEN)
      ∧ (r.ret = false → r.index = index ∧ r.next_entry = none))
    ∧ (∃ l : List Nat,
        readdir_all pid_get_task current (MAX_PID + 1) PROC_ROOT_LEN
          = some (List.map (fun q : Nat => proc_entry.pid_entry (q : Int)) l)
        ∧ l.Pairwise (fun a b => a < b)
        ∧ ∀ q, q ∈ l ↔ (1 ≤ q ∧ q ≤ MAX_PID ∧ pid_get_task q ≠ none))
    ∧ (proc_root_readdir pid_get_task current (PROC_ROOT_LEN + MAX_PID)).map (fun r => r.ret)
        = some false := by
  refine ⟨?_, ?_, ?_⟩
  · obtain ⟨q, hq1, hq2, hq3, hq4, hr⟩ :=
      proc_root_readdir_scan pid_get_task current (index - PROC_ROOT_LEN) (by omega)
    have hi : index - PROC_ROOT_LEN + PROC_ROOT_LEN = index := by omega
    rw [hi] at hr
    refine ⟨_, hr, ?_, ?_, ?_, ?_⟩
    · split <;> rfl
    · constructor
      · intro h
        by_cases hgt : MAX_PID < q
        · simp [hgt] at h
        · exact ⟨q, hq1, by omega, hq4 (by omega)⟩
      · rintro ⟨q', h1', h2', h3'⟩
        by_cases hgt : MAX_PID < q
        · exact absurd (hq3 q' h1' (by omega)) h3'
        · simp [hgt]
    · intro h
      by_cases hgt : MAX_PID < q
      · simp [hgt] at h
      · refine ⟨q, hq1, by omega, hq4 (by omega), hq3, ?_, ?_⟩ <;> simp [hgt]
    · intro h
      by_cases hgt : MAX_PID < q
      · simp [hgt]
      · simp [hgt] at h
  · refine ⟨(List.range' 1 MAX_PID).filter (fun q => (pid_get_task q).isSome), ?_, ?_, ?_⟩
    · have := readdir_all_spec pid_get_task current (MAX_PID + 1) 0 (by omega) (by omega)
      simpa using this
    · apply List.Pairwise.filter
      exact List.pairwise_lt_range' 1 MAX_PID
    · intro q
      rw [List.mem_filter, List.mem_range'_1, Option.isSome_iff_ne_none]
      constructor
      · rintro ⟨⟨a, b⟩, c⟩; exact ⟨a, by omega, c⟩
      · rintro ⟨a, b, c⟩; exact ⟨⟨a, by omega⟩, c⟩
  · obtain ⟨q, hq1, hq2, hq3, hq4, hr⟩ :=
      proc_root_readdir_scan pid_get_task current MAX_PID (le_refl _)
    have hc : MAX_PID + PROC_ROOT_LEN = PROC_ROOT_LEN + MAX_PID := by omega
    rw [hc] at hr
    rw [hr]
    have : MAX_PID < q := hq1
    simp [this]

/-- The instance of `proc_root_readdir_pids` for the pid table with the pids
42 and 43, at the index of pid 42: the call returns true with the pid entry
of 43. -/
theorem proc_root_readdir_pids_witness :
    (PROC_ROOT_LEN ≤ 56 ∧ 56 ≤ PROC_ROOT_LEN + MAX_PID)
      ∧ proc_root_readdir ex_pid_get_task ex_task 56
          = some ⟨true, 57, some (.pid_entry 43), ex_task⟩
      ∧ (∃ r, proc_root_readdir ex_pid_get_task ex_task 56 = some r ∧ r.current = ex_task
          ∧ (r.ret = true ↔ ∃ q, 56 - PROC_ROOT_LEN < q ∧ q ≤ MAX_PID ∧ ex_pid_get_task q ≠ none)
          ∧ (r.ret = true →
              ∃ q, 56 - PROC_ROOT_LEN < q ∧ q ≤ MAX_PID ∧ ex_pid_get_task q ≠ none
                ∧ (∀ j, 56 - PROC_ROOT_LEN < j → j < q → ex_pid_get_task j = none)
                ∧ r.next_entry = some (.pid_entry q) ∧ r.index = q + PROC_ROOT_LEN)
          ∧ (r.ret = false → r.index = 56 ∧ r.next_entry = none)) :=
  ⟨⟨by decide, by decide⟩, by decide,
    (proc_root_readdir_pids ex_pid_get_task ex_task 56 (by decide) (by decide)).1⟩

/-! ## The flags of `cpuinfo` -/

theorem edx_bit_test (edx i : Nat) (hi : i < 32) :
    (edx % 2 ^ 32 &&& (1 <<< i) % 2 ^ 32 ≠ 0) ↔ edx.testBit i = true := by
  have hpow : (1 <<< i) % 2 ^ 32 = 2 ^ i := by
    rw [Nat.one_shiftLeft]
    exact Nat.mod_eq_of_lt (Nat.pow_lt_pow_right (by decide) hi)
  rw [hpow, Nat.and_two_pow, Nat.testBit_mod_two_pow]
  have hpos : 0 < 2 ^ i := Nat.pos_pow_of_pos i (by decide)
  simp only [hi, decide_True, Bool.true_and]
  cases h : edx.testBit i
  · simp
  · simp

theorem enumerated_c_str : ∀ i, i < 32 → c_str (enumerated.getD i []) = enumerated.getD i [] := by
  decide

theorem enumerated_no_NUL : ∀ i, i < 32 → NUL ∉ enumerated.getD i [] := by
  decide

theorem memcpy_nil (mem : Nat → Char) (dst : Nat) : memcpy mem dst [] = mem := by
  funext a
  simp [memcpy]

theorem memcpy_append (mem : Nat → Char) (dst : Nat) (s t : List Char) :
    memcpy (memcpy mem dst s) (dst + s.length) t = memcpy mem dst (s ++ t) := by
  funext a
  simp only [memcpy]
  by_cases h1 : dst + s.length ≤ a
  · have h2 : dst ≤ a := by omega
    rw [if_pos h1, if_pos h2, if_pos h2, List.getD_append_right _ _ _ _ (by omega)]
    have e : a - dst - s.length = a - (dst + s.length) := by omega
    rw [e, List.getD_eq_default s (mem a) (by omega)]
  · rw [if_neg h1]
    by_cases h2 : dst ≤ a
    · rw [if_pos h2, if_pos h2, List.getD_append _ _ _ _ (by omega)]
    · rw [if_neg h2, if_neg h2]

theorem parse_edx_flags_fold (edx edx_flags : Nat) :
    ∀ (l : List Nat) (mem : Nat → Char) (offset : Nat), (∀ i ∈ l, i < 32) →
      l.foldl (parse_edx_flags_step edx edx_flags) (mem, offset)
        = (memcpy mem (edx_flags + offset)
            (l.flatMap (fun i => if edx.testBit i then enumerated.getD i [] else [])),
          offset + (l.flatMap (fun i => if edx.testBit i then enumerated.getD i []
            else [])).length) := by
  intro l
  induction l with
  | nil => intro mem offset _; simp [memcpy_nil]
  | cons i l ih =>
    intro mem offset hl
    have hi : i < 32 := hl i (List.mem_cons_self _ _)
    have hl2 : ∀ j ∈ l, j < 32 := fun j hj => hl j (List.mem_cons_of_mem _ hj)
    rw [List.foldl_cons, List.flatMap_cons]
    by_cases hb : edx.testBit i = true
    · have hc : edx % 2 ^ 32 &&& (1 <<< i) % 2 ^ 32 ≠ 0 := (edx_bit_test edx i hi).mpr hb
      have hstep : parse_edx_flags_step edx edx_flags (mem, offset) i
          = (memcpy mem (edx_flags + offset) (enumerated.getD i []),
              offset + (enumerated.getD i []).length) := by
        simp only [parse_edx_flags_step, if_pos hc, enumerated_c_str i hi, List.take_length]
      rw [hstep, ih _ _ hl2, if_pos hb]
      have e : edx_flags + (offset + (enumerated.getD i []).length)
          = edx_flags + offset + (enumerated.getD i []).length := by omega
      rw [e, memcpy_append, List.length_append, Nat.add_assoc]
    · have hc : ¬ (edx % 2 ^ 32 &&& (1 <<< i) % 2 ^ 32 ≠ 0) := fun h =>
        hb ((edx_bit_test edx i hi).mp h)
      have hstep : parse_edx_flags_step edx edx_flags (mem, offset) i = (mem, offset) := by
        simp only [parse_edx_flags_step, if_neg hc]
      rw [hstep, ih _ _ hl2, if_neg hb, List.nil_append]

theorem parse_edx_flags_eq (edx : Nat) (mem : Nat → Char) (edx_flags : Nat) :
    parse_edx_flags edx mem edx_flags
      = Function.update (memcpy mem edx_flags (edx_flags_text edx))
          (edx_flags + (edx_flags_text edx).length) NUL := by
  have h := parse_edx_flags_fold edx edx_flags (List.range 32) mem 0
    (fun i hi => List.mem_range.mp hi)
  simp only [parse_edx_flags, h, Nat.add_zero, Nat.zero_add, edx_flags_text]

theorem flags_length_le (edx : Nat) :
    ∀ l : List Nat,
      (l.flatMap (fun i => if edx.testBit i then enumerated.getD i [] else [])).length
        ≤ (l.map (fun i => (enumerated.getD i []).length)).sum := by
  intro l
  induction l with
  | nil => simp
  | cons i l ih =>
    rw [List.flatMap_cons, List.length_append, List.map_cons, List.sum_cons]
    have : (if edx.testBit i then enumerated.getD i [] else []).length
        ≤ (enumerated.getD i []).length := by
      split <;> simp
    omega

theorem edx_flags_text_length (edx : Nat) : (edx_flags_text edx).length ≤ 146 := by
  have h := flags_length_le edx (List.range 32)
  have hsum : ((List.range 32).map (fun i => (enumerated.getD i []).length)).sum = 146 := by
    decide
  rw [hsum] at h
  exact h

theorem edx_flags_text_no_NUL (edx : Nat) : NUL ∉ edx_flags_text edx := by
  intro h
  simp only [edx_flags_text, List.mem_flatMap, List.mem_range] at h
  obtain ⟨i, hi, hm⟩ := h
  by_cases hb : edx.testBit i = true
  · rw [if_pos hb] at hm
    exact enumerated_no_NUL i hi hm
  · rw [if_neg hb] at hm
    exact absurd hm (List.not_mem_nil _)

theorem read_chars_add (mem : Nat → Char) (addr a b : Nat) :
    read_chars mem addr (a + b) = read_chars mem addr a ++ read_chars mem (addr + a) b := by
  simp only [read_chars, List.range_add, List.map_append, List.map_map]
  congr 1
  apply List.map_congr_left
  intro j _
  simp [Nat.add_assoc]

theorem read_chars_memcpy (mem : Nat → Char) (addr : Nat) (s : List Char) :
    read_chars (memcpy mem addr s) addr s.length = s := by
  apply List.ext_getElem
  · simp [read_chars]
  · intro n h1 h2
    simp only [read_chars, List.getElem_map, List.getElem_range, memcpy]
    rw [if_pos (by omega), Nat.add_sub_cancel_left, List.getD_eq_getElem _ _ h2]

theorem read_chars_congr (m1 m2 : Nat → Char) (addr len : Nat)
    (h : ∀ a, addr ≤ a → a < addr + len → m1 a = m2 a) :
    read_chars m1 addr len = read_chars m2 addr len := by
  simp only [read_chars]
  apply List.map_congr_left
  intro j hj
  rw [List.mem_range] at hj
  exact h _ (by omega) (by omega)

/-- C16: `parse_edx_flags` writes, from the address `edx_flags` on, the text
`edx_flags_text edx` - the mnemonics of the table for the bits set in `edx`,
in ascending bit order - followed by a `NUL`; the text holds no `NUL` and at
most 146 characters, so that a buffer of 148 characters holds it as a C
string, and no other address is written.  Only the low 32 bits of `edx`
count.  Each of the bits 10, 20 and 30 alone gives `Reserved `, bit 16 alone
and `edx = 0` give the empty string. -/
theorem parse_edx_flags_spec (edx : Nat) (mem : Nat → Char) (edx_flags : Nat) :
    read_chars (parse_edx_flags edx mem edx_flags) edx_flags (edx_flags_text edx).length
        = edx_flags_text edx
    ∧ parse_edx_flags edx mem edx_flags (edx_flags + (edx_flags_text edx).length) = NUL
    ∧ NUL ∉ edx_flags_text edx
    ∧ (edx_flags_text edx).length ≤ 146
    ∧ c_str (read_chars (parse_edx_flags edx mem edx_flags) edx_flags 148) = edx_flags_text edx
    ∧ (∀ a, a < edx_flags ∨ edx_flags + (edx_flags_text edx).length < a →
        parse_edx_flags edx mem edx_flags a = mem a)
    ∧ parse_edx_flags (edx % 2 ^ 32) mem edx_flags = parse_edx_flags edx mem edx_flags
    ∧ edx_flags_text (2 ^ 10) = "Reserved ".toList
    ∧ edx_flags_text (2 ^ 20) = "Reserved ".toList
    ∧ edx_flags_text (2 ^ 30) = "Reserved ".toList
    ∧ edx_flags_text (2 ^ 16) = []
    ∧ edx_flags_text 0 = []
    ∧ edx_flags_text (2 ^ 0 + 2 ^ 4 + 2 ^ 17 + 2 ^ 26) = "fpu tsc pse-36 sse2 ".toList := by
  have heq := parse_edx_flags_eq edx mem edx_flags
  have hlen := edx_flags_text_length edx
  have hnul := edx_flags_text_no_NUL edx
  have hread : read_chars (parse_edx_flags edx mem edx_flags) edx_flags
      (edx_flags_text edx).length = edx_flags_text edx := by
    rw [heq, read_chars_congr _ (memcpy mem edx_flags (edx_flags_text edx)) _ _ ?_,
      read_chars_memcpy]
    intro a h1 h2
    rw [Function.update_noteq (by omega)]
  have hterm : parse_edx_flags edx mem edx_flags (edx_flags + (edx_flags_text edx).length)
      = NUL := by
    rw [heq, Function.update_same]
  refine ⟨hread, hterm, hnul, hlen, ?_, ?_, ?_, by decide, by decide, by decide, by decide,
    by decide, by decide⟩
  · have hsplit : 148 = (edx_flags_text edx).length + (1 + (147 - (edx_flags_text edx).length)) := by
      omega
    rw [hsplit, read_chars_add, read_chars_add, hread]
    have h1 : read_chars (parse_edx_flags edx mem edx_flags)
        (edx_flags + (edx_flags_text edx).length) 1 = [NUL] := by
      have h0 : read_chars (parse_edx_flags edx mem edx_flags)
          (edx_flags + (edx_flags_text edx).length) 1
          = [parse_edx_flags edx mem edx_flags (edx_flags + (edx_flags_text edx).length + 0)] :=
        rfl
      rw [h0, Nat.add_zero, hterm]
    rw [h1, c_str, List.takeWhile_append]
    have hall : List.takeWhile (fun c => c != NUL) (edx_flags_text edx) = edx_flags_text edx := by
      rw [List.takeWhile_eq_self_iff]
      intro c hc
      simp only [bne_iff_ne, ne_eq]
      intro h
      exact hnul (h ▸ hc)
    rw [hall]
    simp
  · intro a ha
    rw [heq, Function.update_noteq (by omega)]
    simp only [memcpy]
    by_cases h : edx_flags ≤ a
    · rw [if_pos h, List.getD_eq_default _ _ (by omega)]
    · rw [if_neg h]
  · have htext : edx_flags_text (edx % 2 ^ 32) = edx_flags_text edx := by
      simp only [edx_flags_text]
      apply List.flatMap_congr
      intro i hi
      rw [List.mem_range] at hi
      rw [Nat.testBit_mod_two_pow]
      simp [hi]
    rw [parse_edx_flags_eq, heq, htext]

/-! ## Escaping and the file `mounts` -/

theorem c_str_nil : c_str [] = [] := rfl

theorem c_str_cons_NUL (s : List Char) : c_str (NUL :: s) = [] := by
  simp [c_str]

theorem c_str_cons (c : Char) (s : List Char) (h : c ≠ NUL) : c_str (c :: s) = c :: c_str s := by
  simp [c_str, h]

theorem c_str_eq_nil_iff (s : List Char) : c_str s = [] ↔ s.headD NUL = NUL := by
  cases s with
  | nil => simp [c_str]
  | cons c s =>
    by_cases h : c = NUL
    · subst h; simp [c_str]
    · simp [c_str, h]

theorem c_str_no_NUL (s : List Char) : NUL ∉ c_str s := by
  intro h
  have := List.mem_takeWhile_imp h
  simp at this

theorem c_str_idem (s : List Char) : c_str (c_str s) = c_str s := by
  rw [c_str, List.takeWhile_eq_self_iff]
  intro c hc
  simp only [bne_iff_ne, ne_eq]
  intro h
  exact c_str_no_NUL s (h ▸ hc)

theorem proc_print_escaped_eq (str : List Char) :
    ∀ buf, proc_print_escaped buf str = buf ++ (c_str str).flatMap escape_char := by
  induction str with
  | nil => intro buf; simp [proc_print_escaped, c_str]
  | cons c str ih =>
    intro buf
    by_cases h0 : c = NUL
    · subst h0
      simp [proc_print_escaped, c_str_cons_NUL]
    · rw [c_str_cons c str h0, List.flatMap_cons]
      simp only [proc_print_escaped, if_neg h0]
      by_cases h1 : c = ' '
      · subst h1
        have : fmt_03o 32 = ['0', '4', '0'] := by decide
        simp [ih, proc_printf, escape_char, this]
      · by_cases h2 : c = '\t'
        · subst h2
          have : fmt_03o 9 = ['0', '1', '1'] := by decide
          simp [ih, proc_printf, escape_char, this]
        · by_cases h3 : c = '\\'
          · subst h3
            have : fmt_03o 92 = ['1', '3', '4'] := by decide
            simp [ih, proc_printf, escape_char, this]
          · simp [ih, proc_printf, escape_char, h1, h2, h3, fmt_c]

theorem unescape_fuel_escape :
    ∀ (s : List Char) (fuel : Nat), (s.flatMap escape_char).length ≤ fuel →
      unescape_fuel fuel (s.flatMap escape_char) = s := by
  intro s
  induction s with
  | nil => intro fuel _; cases fuel <;> rfl
  | cons c s ih =>
    intro fuel hf
    rw [List.flatMap_cons] at hf ⊢
    by_cases h1 : c = ' '
    · subst h1
      have he : escape_char ' ' = ['\\', '0', '4', '0'] := by decide
      rw [he] at hf ⊢
      simp only [List.length_append, List.length_cons, List.length_nil] at hf
      obtain ⟨k, rfl⟩ : ∃ k, fuel = k + 1 := ⟨fuel - 1, by omega⟩
      have hc : Char.ofNat ((octal_value '0' * 8 + octal_value '4') * 8 + octal_value '0')
          = ' ' := by decide
      show unescape_fuel (k + 1) ('\\' :: '0' :: '4' :: '0' :: s.flatMap escape_char) = ' ' :: s
      simp only [unescape_fuel, if_true, hc]
      rw [ih k (by omega)]
    · by_cases h2 : c = '\t'
      · subst h2
        have he : escape_char '\t' = ['\\', '0', '1', '1'] := by decide
        rw [he] at hf ⊢
        simp only [List.length_append, List.length_cons, List.length_nil] at hf
        obtain ⟨k, rfl⟩ : ∃ k, fuel = k + 1 := ⟨fuel - 1, by omega⟩
        have hc : Char.ofNat ((octal_value '0' * 8 + octal_value '1') * 8 + octal_value '1')
            = '\t' := by decide
        show unescape_fuel (k + 1) ('\\' :: '0' :: '1' :: '1' :: s.flatMap escape_char) = '\t' :: s
        simp only [unescape_fuel, if_true, hc]
        rw [ih k (by omega)]
      · by_cases h3 : c = '\\'
        · subst h3
          have he : escape_char '\\' = ['\\', '1', '3', '4'] := by decide
          rw [he] at hf ⊢
          simp only [List.length_append, List.length_cons, List.length_nil] at hf
          obtain ⟨k, rfl⟩ : ∃ k, fuel = k + 1 := ⟨fuel - 1, by omega⟩
          have hc : Char.ofNat ((octal_value '1' * 8 + octal_value '3') * 8 + octal_value '4')
              = '\\' := by decide
          show unescape_fuel (k + 1) ('\\' :: '1' :: '3' :: '4' :: s.flatMap escape_char) = '\\' :: s
          simp only [unescape_fuel, if_true, hc]
          rw [ih k (by omega)]
        · have he : escape_char c = [c] := by simp [escape_char, h1, h2, h3]
          rw [he] at hf ⊢
          simp only [List.length_append, List.length_cons, List.length_nil] at hf
          obtain ⟨k, rfl⟩ : ∃ k, fuel = k + 1 := ⟨fuel - 1, by omega⟩
          show unescape_fuel (k + 1) (c :: s.flatMap escape_char) = c :: s
          simp only [unescape_fuel, if_neg h3]
          rw [ih k (by omega)]

theorem unescape_escape (s : List Char) : unescape (s.flatMap escape_char) = s :=
  unescape_fuel_escape s _ (le_refl _)

theorem escape_char_no_blank (c d : Char) (h : d ∈ escape_char c) : d ≠ ' ' ∧ d ≠ '\t' := by
  by_cases h1 : c = ' '
  · subst h1
    have he : escape_char ' ' = ['\\', '0', '4', '0'] := by decide
    rw [he] at h
    simp only [List.mem_cons, List.mem_singleton, List.not_mem_nil, or_false] at h
    rcases h with h | h | h | h <;> subst h <;> decide
  · by_cases h2 : c = '\t'
    · subst h2
      have he : escape_char '\t' = ['\\', '0', '1', '1'] := by decide
      rw [he] at h
      simp only [List.mem_cons, List.mem_singleton, List.not_mem_nil, or_false] at h
      rcases h with h | h | h | h <;> subst h <;> decide
    · by_cases h3 : c = '\\'
      · subst h3
        have he : escape_char '\\' = ['\\', '1', '3', '4'] := by decide
        rw [he] at h
        simp only [List.mem_cons, List.mem_singleton, List.not_mem_nil, or_false] at h
        rcases h with h | h | h | h <;> subst h <;> decide
      · have he : escape_char c = [c] := by simp [escape_char, h1, h2, h3]
        rw [he, List.mem_singleton] at h
        subst h
        exact ⟨h1, h2⟩

/-- C17: `proc_print_escaped` appends to the buffer the image, character by
character, of the C string `str`: a space becomes `\040`, a tab `\011`, a
backslash `\134`, every other character is copied.  The text appended holds
no space and no tab, octal unescaping gives the string back, and so two
strings with the same image are equal.  The string `/a b<TAB>c\d` is rendered
as `/a\040b\011c\134d`. -/
theorem proc_print_escaped_spec (buf str : List Char) :
    proc_print_escaped buf str = buf ++ (c_str str).flatMap escape_char
    ∧ escape_char ' ' = ['\\', '0', '4', '0']
    ∧ escape_char '\t' = ['\\', '0', '1', '1']
    ∧ escape_char '\\' = ['\\', '1', '3', '4']
    ∧ (∀ c, c ≠ ' ' → c ≠ '\t' → c ≠ '\\' → escape_char c = [c])
    ∧ (∀ d, d ∈ (c_str str).flatMap escape_char → d ≠ ' ' ∧ d ≠ '\t')
    ∧ unescape ((c_str str).flatMap escape_char) = c_str str
    ∧ (∀ str2, proc_print_escaped buf str = proc_print_escaped buf str2 → c_str str = c_str str2)
    ∧ proc_print_escaped [] "/a b\tc\\d".toList = "/a\\040b\\011c\\134d".toList := by
  refine ⟨proc_print_escaped_eq str buf, by decide, by decide, by decide, ?_, ?_,
    unescape_escape _, ?_, by decide⟩
  · intro c h1 h2 h3
    simp [escape_char, h1, h2, h3]
  · intro d hd
    rw [List.mem_flatMap] at hd
    obtain ⟨c, _, hc⟩ := hd
    exact escape_char_no_blank c d hc
  · intro str2 h
    rw [proc_print_escaped_eq, proc_print_escaped_eq] at h
    have h2 := List.append_cancel_left h
    rw [← unescape_escape (c_str str), h2, unescape_escape]

theorem c_str_of_no_NUL (s : List Char) (h : NUL ∉ s) : c_str s = s := by
  rw [c_str, List.takeWhile_eq_self_iff]
  intro c hc
  simp only [bne_iff_ne, ne_eq]
  intro e
  exact h (e ▸ hc)

theorem proc_show_mounts_entry_eq (buf : List Char) (m : mount) :
    proc_show_mounts_entry buf m = buf ++ mount_line m := by
  have hro : c_str ['r', 'o'] = ['r', 'o'] := by decide
  have hrw : c_str ['r', 'w'] = ['r', 'w'] := by decide
  have hcomma : c_str [','] = [','] := by decide
  have hslash : c_str ['/'] = ['/'] := by decide
  have hpoint : c_str (if m.point.headD NUL = NUL then ['/'] else m.point)
      = if c_str m.point = [] then ['/'] else c_str m.point := by
    by_cases h : m.point.headD NUL = NUL
    · rw [if_pos h, if_pos ((c_str_eq_nil_iff _).mpr h), hslash]
    · rw [if_neg h, if_neg (fun e => h ((c_str_eq_nil_iff _).mp e))]
  have hinfo : (m.info.headD NUL ≠ NUL) ↔ c_str m.info ≠ [] := by
    rw [ne_eq, ne_eq, c_str_eq_nil_iff]
  simp only [proc_show_mounts_entry, mount_line, mount_opts, mount_opts_list,
    proc_print_escaped_eq, proc_printf, proc_printf_comma, fmt_s, hpoint, hinfo]
  by_cases h1 : m.flags &&& MS_READONLY_ ≠ 0 <;> by_cases h2 : m.flags &&& MS_NOSUID_ ≠ 0 <;>
    by_cases h3 : m.flags &&& MS_NODEV_ ≠ 0 <;> by_cases h4 : m.flags &&& MS_NOEXEC_ ≠ 0 <;>
    by_cases h5 : c_str m.info ≠ [] <;>
    simp [h1, h2, h3, h4, h5, hro, hrw, hcomma, c_str_nil, List.intercalate, List.intersperse,
      c_str_idem]

theorem proc_show_mounts_fold (mounts : List mount) :
    ∀ buf, mounts.foldl proc_show_mounts_entry buf = buf ++ mounts.flatMap mount_line := by
  induction mounts with
  | nil => intro buf; simp
  | cons m mounts ih =>
    intro buf
    rw [List.foldl_cons, proc_show_mounts_entry_eq, ih, List.flatMap_cons, List.append_assoc]

theorem getLast?_append_cons (a b : List Char) (c : Char) :
    (a ++ c :: b).getLast? = (c :: b).getLast? := by
  rw [List.getLast?_append]
  simp [List.getLast?_cons]

theorem mount_opts_props (m : mount) :
    mount_opts m ≠ [] ∧ (mount_opts m).head? = some 'r'
      ∧ ((mount_opts m).getLast? = some ',' ↔ (c_str m.info).getLast? = some ',') := by
  simp only [mount_opts, mount_opts_list]
  by_cases h5 : c_str m.info = []
  · by_cases h1 : m.flags &&& MS_READONLY_ ≠ 0 <;> by_cases h2 : m.flags &&& MS_NOSUID_ ≠ 0 <;>
      by_cases h3 : m.flags &&& MS_NODEV_ ≠ 0 <;> by_cases h4 : m.flags &&& MS_NOEXEC_ ≠ 0 <;>
      simp [h1, h2, h3, h4, h5, List.intercalate, List.intersperse]
  · obtain ⟨c, t, ht⟩ : ∃ c t, c_str m.info = c :: t := by
      cases h : c_str m.info with
      | nil => exact absurd h h5
      | cons c t => exact ⟨c, t, rfl⟩
    by_cases h1 : m.flags &&& MS_READONLY_ ≠ 0 <;> by_cases h2 : m.flags &&& MS_NOSUID_ ≠ 0 <;>
      by_cases h3 : m.flags &&& MS_NODEV_ ≠ 0 <;> by_cases h4 : m.flags &&& MS_NOEXEC_ ≠ 0 <;>
      simp only [h1, h2, h3, h4, ht, ne_eq, not_true_eq_false, not_false_eq_true, if_true,
        if_false, List.intercalate, List.intersperse, List.flatten, List.cons_append,
        List.nil_append, List.append_nil, List.head?_cons, reduceCtorEq, true_and,
        List.getLast?_cons_cons, not_not]

/-- C18, as stated, fails: the mount `ex_mount_comma`, whose info string is a
single comma, is printed as the line `/dev/root / ext4 rw,, 0 0`: its options
field `rw,,` ends with a comma. -/
theorem mount_opts_comma_counterexample :
    (proc_show_mounts [] [ex_mount_comma]).2 = "/dev/root / ext4 rw,, 0 0\n".toList
      ∧ mount_line ex_mount_comma
          = "/dev/root / ext4 ".toList ++ mount_opts ex_mount_comma ++ " 0 0\n".toList
      ∧ mount_opts ex_mount_comma = "rw,,".toList
      ∧ (mount_opts ex_mount_comma).getLast? = some ',' := by
  decide

/-- C18, amended: `proc_show_mounts` returns 0 and appends one line per mount,
in list order, of the form
`<escaped source> <escaped point> <fstype> <opts> 0 0` with a newline, an
empty mount point rendered as `/`, and `<opts>` the comma-separated list of
`ro` or `rw`, then `nosuid`, `nodev`, `noexec` for the flags set, then the
info string if it is not empty.  `<opts>` is never empty and starts with
`r`, hence never with a comma; it ends with a comma exactly when the info
string does. -/
theorem proc_show_mounts_spec (buf : List Char) (mounts : List mount) :
    proc_show_mounts buf mounts = (0, buf ++ mounts.flatMap mount_line)
    ∧ (∀ m : mount,
        mount_line m
            = (c_str m.source).flatMap escape_char ++ [' ']
              ++ (if c_str m.point = [] then ['/'] else c_str m.point).flatMap escape_char
              ++ [' '] ++ c_str m.fs.name ++ [' '] ++ mount_opts m ++ " 0 0\n".toList
        ∧ mount_opts m = List.intercalate [','] (mount_opts_list m)
        ∧ mount_opts m ≠ []
        ∧ (mount_opts m).head? = some 'r'
        ∧ (mount_opts m).head? ≠ some ','
        ∧ ((mount_opts m).getLast? = some ',' ↔ (c_str m.info).getLast? = some ',')) := by
  refine ⟨?_, ?_⟩
  · simp only [proc_show_mounts, proc_show_mounts_fold]
  · intro m
    obtain ⟨h1, h2, h3⟩ := mount_opts_props m
    refine ⟨rfl, rfl, h1, h2, ?_, h3⟩
    rw [h2]
    decide

/-- The instance of `proc_show_mounts_spec` for the two example mounts: the
text appended is the line of the read-only `nodev` mount, with its escaped
source, followed by the line of the mount whose info is a comma. -/
theorem proc_show_mounts_spec_witness :
    proc_show_mounts [] [ex_mount, ex_mount_comma]
        = (0, [] ++ [ex_mount, ex_mount_comma].flatMap mount_line)
      ∧ [ex_mount, ex_mount_comma].flatMap mount_line
          = ("/a\\040b\\011c\\134d /mnt tmpfs ro,nodev,mode=755 0 0\n"
              ++ "/dev/root / ext4 rw,, 0 0\n").toList
      ∧ mount_opts ex_mount = "ro,nodev,mode=755".toList :=
  ⟨(proc_show_mounts_spec [] [ex_mount, ex_mount_comma]).1, by decide, by decide⟩

/-! ## The files `uptime` and `loadavg` -/

theorem fmt_u_one_digit : ∀ f, f < 10 → fmt_u f = [Nat.digitChar f] := by decide

theorem fmt_u_two_digits :
    ∀ f, f < 100 → 10 ≤ f → fmt_u f = [Nat.digitChar (f / 10), Nat.digitChar (f % 10)] := by
  decide

theorem digitChar_ne_blank : ∀ f, f < 10 → Nat.digitChar f ≠ ' ' := by decide

/-- C19 does not hold of the code: `proc_show_uptime` prints the fraction
`uptime % 100` with `%u`, without padding.  For every tick count below
`2 ^ 32` its text is the text of the claim exactly when the fraction has two
digits, that is when `uptime_ticks % 100` is at least 10; for a fraction
below 10 it prints a single digit after the point. -/
theorem proc_show_uptime_fraction (buf : List Char) (info : uptime_info)
    (h32 : info.uptime_ticks < 2 ^ 32) :
    ((proc_show_uptime buf info).2 = buf ++ uptime_text info.uptime_ticks
        ↔ 10 ≤ info.uptime_ticks % 100)
    ∧ (info.uptime_ticks % 100 < 10 →
        (proc_show_uptime buf info).2
          = buf ++ (fmt_u (info.uptime_ticks / 100)
              ++ ['.', Nat.digitChar (info.uptime_ticks % 100), ' ']
              ++ fmt_u (info.uptime_ticks / 100)
              ++ ['.', Nat.digitChar (info.uptime_ticks % 100), '\n'])) := by
  have hmod : info.uptime_ticks % 2 ^ 32 = info.uptime_ticks := Nat.mod_eq_of_lt h32
  have hlt : info.uptime_ticks % 100 < 100 := Nat.mod_lt _ (by decide)
  have hone : info.uptime_ticks % 100 < 10 →
      (proc_show_uptime buf info).2
        = buf ++ (fmt_u (info.uptime_ticks / 100)
            ++ ['.', Nat.digitChar (info.uptime_ticks % 100), ' ']
            ++ fmt_u (info.uptime_ticks / 100)
            ++ ['.', Nat.digitChar (info.uptime_ticks % 100), '\n']) := by
    intro hf
    simp only [proc_show_uptime, proc_printf, hmod, fmt_u_one_digit _ hf]
    simp
  refine ⟨?_, hone⟩
  constructor
  · intro h
    by_contra hf
    have hf2 : info.uptime_ticks % 100 < 10 := by omega
    rw [hone hf2] at h
    have h2 := List.append_cancel_left h
    simp only [uptime_text, List.append_assoc] at h2
    have h3 := List.append_cancel_left h2
    simp only [List.cons_append, List.nil_append, List.cons.injEq, true_and] at h3
    have hd : info.uptime_ticks % 100 % 10 < 10 := Nat.mod_lt _ (by decide)
    exact digitChar_ne_blank _ hd h3.2.1.symm
  · intro hf
    simp only [proc_show_uptime, proc_printf, hmod, fmt_u_two_digits _ hlt hf, uptime_text]

/-- The instance of `proc_show_uptime_fraction` at 105 ticks: the code prints
`1.5 1.5`, the text of the claim is `1.05 1.05`. -/
theorem proc_show_uptime_fraction_witness :
    ex_uptime.uptime_ticks = 105
      ∧ (proc_show_uptime [] ex_uptime).2 = "1.5 1.5\n".toList
      ∧ uptime_text 105 = "1.05 1.05\n".toList
      ∧ (proc_show_uptime [] ex_uptime).2 ≠ [] ++ uptime_text ex_uptime.uptime_ticks :=
  ⟨rfl, by decide, by decide, fun h =>
    absurd ((proc_show_uptime_fraction [] ex_uptime (by decide)).1.mp h) (by decide)⟩

theorem double_of_uint64_exact (n : Nat) (h : n < 2 ^ 53) : double_of_uint64 n = n := by
  have hmod : n % 2 ^ 64 = n := Nat.mod_eq_of_lt (by omega)
  have hr : List.range 12 = 0 :: [1, 2, 3, 4, 5, 6, 7, 8, 9, 10, 11] := by decide
  have h0 : n / 2 ^ 0 < 2 ^ 53 := by simpa using h
  have hfind : (List.range 12).find? (fun e => decide (n / 2 ^ e < 2 ^ 53)) = some 0 := by
    rw [hr, List.find?_cons_of_pos]
    simpa using h
  simp only [double_of_uint64, hmod, hfind, Option.getD_some, pow_zero, Nat.mod_one, Nat.div_one,
    Nat.mul_one, Nat.mul_zero]
  simp

theorem round_hundredths_near (num : Nat) :
    100 * num ≤ 65536 * round_hundredths num 65536 + 32768
      ∧ 65536 * round_hundredths num 65536 ≤ 100 * num + 32768 := by
  simp only [round_hundredths]
  split
  · omega
  · split
    · omega
    · split <;> omega

/-- C20: `proc_show_loadavg` returns 0 and appends the three loads with two
decimals, a blank between them, then `<running>/<alive> <last_pid>` and a
newline, where running is the minimum of the cpu count and alive minus
blocked, and last_pid is the id of the pid allocated last, 0 when there is
none.  The counts are taken in the range of `int`, with blocked at most
alive.  Every load is printed as its hundredths `h`, integer part, point and
two digits; for a load below `2 ^ 53` the `double` is exactly `load / 65536`
and `h / 100` is within half a hundredth of it. -/
theorem proc_show_loadavg_spec (buf : List Char) (uptime : uptime_info) (last_pid : Option Nat)
    (blocked alive : Nat) (cpu_count : Nat)
    (hb : blocked ≤ alive) (ha : alive < 2 ^ 31) (hc : cpu_count < 2 ^ 31)
    (hp : last_pid.getD 0 < 2 ^ 31) :
    proc_show_loadavg buf uptime last_pid blocked alive (cpu_count : Int)
        = (0, buf ++ (fmt_2f (double_of_uint64 uptime.load_1m) 65536 ++ [' ']
            ++ fmt_2f (double_of_uint64 uptime.load_5m) 65536 ++ [' ']
            ++ fmt_2f (double_of_uint64 uptime.load_15m) 65536 ++ [' ']
            ++ fmt_u (min cpu_count (alive - blocked)) ++ ['/'] ++ fmt_u alive ++ [' ']
            ++ fmt_u (last_pid.getD 0) ++ ['\n']))
    ∧ (∀ load, fmt_2f load 65536
        = fmt_u (round_hundredths load 65536 / 100) ++ ['.']
          ++ [Nat.digitChar (round_hundredths load 65536 / 10 % 10),
              Nat.digitChar (round_hundredths load 65536 % 10)])
    ∧ (∀ load, load < 2 ^ 53 →
        double_of_uint64 load = load
        ∧ 100 * load ≤ 65536 * round_hundredths load 65536 + 32768
        ∧ 65536 * round_hundredths load 65536 ≤ 100 * load + 32768) := by
  refine ⟨?_, ?_, ?_⟩
  · have hal : int_of_unsigned alive = (alive : Int) := int_of_unsigned_small alive ha
    have hbl : int_of_unsigned blocked = (blocked : Int) :=
      int_of_unsigned_small blocked (by omega)
    have hsub : (alive : Int) - (blocked : Int) = ((alive - blocked : Nat) : Int) := by omega
    have hd1 : dword_of_int ((alive - blocked : Nat) : Int) = alive - blocked :=
      dword_of_int_natCast _ (by omega)
    have hrun : int_of_unsigned (alive - blocked) = ((alive - blocked : Nat) : Int) :=
      int_of_unsigned_small _ (by omega)
    have hmin : min (cpu_count : Int) ((alive - blocked : Nat) : Int)
        = ((min cpu_count (alive - blocked) : Nat) : Int) := by omega
    have hd2 : dword_of_int ((min cpu_count (alive - blocked) : Nat) : Int)
        = min cpu_count (alive - blocked) := dword_of_int_natCast _ (by omega)
    have hd3 : dword_of_int (alive : Int) = alive := dword_of_int_natCast _ (by omega)
    simp only [proc_show_loadavg, proc_printf, hal, hbl, hsub, hd1, hrun, hmin, hd2, hd3]
    cases last_pid with
    | none =>
      have h0 : dword_of_int 0 = 0 := by decide
      simp only [h0, Option.getD_none]
    | some id =>
      simp only [Option.getD_some] at hp ⊢
      rw [int_of_unsigned_small id hp, dword_of_int_natCast id (by omega)]
  · intro load
    have h1 : round_hundredths load 65536 / 10 % 10 < 10 := Nat.mod_lt _ (by decide)
    have h2 : round_hundredths load 65536 % 10 < 10 := Nat.mod_lt _ (by decide)
    have e1 := fmt_u_one_digit _ h1
    have e2 := fmt_u_one_digit _ h2
    simp only [fmt_u] at e1 e2
    simp only [fmt_2f, e1, e2, List.append_assoc, List.cons_append, List.nil_append]
  · intro load hl
    exact ⟨double_of_uint64_exact load hl, round_hundredths_near load⟩

/-- The instance of `proc_show_loadavg_spec` for the loads 65536, 32768 and
16384, 10 tasks alive, 3 of them blocked, 4 cpus and the last pid 123: the
text is `1.00 0.50 0.25 4/10 123` and a newline. -/
theorem proc_show_loadavg_spec_witness :
    (3 ≤ 10 ∧ 10 < 2 ^ 31 ∧ 4 < 2 ^ 31 ∧ (some 123 : Option Nat).getD 0 < 2 ^ 31)
      ∧ proc_show_loadavg [] ex_uptime (some 123) 3 10 4
          = (0, "1.00 0.50 0.25 4/10 123\n".toList)
      ∧ proc_show_loadavg [] ex_uptime (some 123) 3 10 ((4 : Nat) : Int)
          = (0, [] ++ (fmt_2f (double_of_uint64 ex_uptime.load_1m) 65536 ++ [' ']
              ++ fmt_2f (double_of_uint64 ex_uptime.load_5m) 65536 ++ [' ']
              ++ fmt_2f (double_of_uint64 ex_uptime.load_15m) 65536 ++ [' ']
              ++ fmt_u (min 4 (10 - 3)) ++ ['/'] ++ fmt_u 10 ++ [' ']
              ++ fmt_u ((some 123 : Option Nat).getD 0) ++ ['\n'])) :=
  ⟨by decide, by decide,
    (proc_show_loadavg_spec [] ex_uptime (some 123) 3 10 4 (by decide) (by decide) (by decide)
      (by decide)).1⟩

/-! ## The flags buffer does not overflow -/

theorem buf_memcpy_append (pre rest src : List Char) (h : src.length ≤ rest.length) :
    buf_memcpy (pre ++ rest) pre.length src = some (pre ++ src ++ rest.drop src.length) := by
  have hc : pre.length + src.length ≤ (pre ++ rest).length := by
    rw [List.length_append]; omega
  simp only [buf_memcpy, if_pos hc]
  rw [List.take_left', List.drop_append]
  rfl

theorem parse_edx_flags_checked_fold (edx : Nat) :
    ∀ (l : List Nat) (pre rest : List Char), (∀ i ∈ l, i < 32) →
      (l.map (fun i => (enumerated.getD i []).length)).sum ≤ rest.length →
      l.foldl (parse_edx_flags_step_checked edx) (some (pre ++ rest, pre.length))
        = some (pre ++ l.flatMap (fun i => if edx.testBit i then enumerated.getD i [] else [])
            ++ rest.drop (l.flatMap (fun i => if edx.testBit i then enumerated.getD i []
              else [])).length,
          pre.length + (l.flatMap (fun i => if edx.testBit i then enumerated.getD i []
            else [])).length) := by
  intro l
  induction l with
  | nil => intro pre rest _ _; simp
  | cons i l ih =>
    intro pre rest hl hsum
    have hi : i < 32 := hl i (List.mem_cons_self _ _)
    have hl2 : ∀ j ∈ l, j < 32 := fun j hj => hl j (List.mem_cons_of_mem _ hj)
    rw [List.map_cons, List.sum_cons] at hsum
    rw [List.foldl_cons, List.flatMap_cons]
    by_cases hb : edx.testBit i = true
    · have hc : edx % 2 ^ 32 &&& (1 <<< i) % 2 ^ 32 ≠ 0 := (edx_bit_test edx i hi).mpr hb
      have hcopy := buf_memcpy_append pre rest (enumerated.getD i []) (by omega)
      have hstep : parse_edx_flags_step_checked edx (some (pre ++ rest, pre.length)) i
          = some ((pre ++ enumerated.getD i []) ++ rest.drop (enumerated.getD i []).length,
              (pre ++ enumerated.getD i []).length) := by
        simp only [parse_edx_flags_step_checked, if_pos hc, enumerated_c_str i hi,
          List.take_length, hcopy, List.length_append]
      rw [hstep, ih _ _ hl2 (by rw [List.length_drop]; omega), if_pos hb]
      simp only [List.append_assoc, List.length_append, List.drop_drop, Nat.add_assoc]
    · have hc : ¬ (edx % 2 ^ 32 &&& (1 <<< i) % 2 ^ 32 ≠ 0) := fun h =>
        hb ((edx_bit_test edx i hi).mp h)
      have hstep : parse_edx_flags_step_checked edx (some (pre ++ rest, pre.length)) i
          = some (pre ++ rest, pre.length) := by
        simp only [parse_edx_flags_step_checked, if_neg hc]
      rw [hstep, ih _ _ hl2 (by omega), if_neg hb, List.nil_append]

theorem parse_edx_flags_checked_fold_nil (edx : Nat) (l : List Nat) (buf : List Char)
    (hl : ∀ i ∈ l, i < 32)
    (hsum : (l.map (fun i => (enumerated.getD i []).length)).sum ≤ buf.length) :
    l.foldl (parse_edx_flags_step_checked edx) (some (buf, 0))
      = some (l.flatMap (fun i => if edx.testBit i then enumerated.getD i [] else [])
          ++ buf.drop (l.flatMap (fun i => if edx.testBit i then enumerated.getD i []
            else [])).length,
        (l.flatMap (fun i => if edx.testBit i then enumerated.getD i [] else [])).length) := by
  have h := parse_edx_flags_checked_fold edx l [] buf hl hsum
  rw [List.nil_append, List.nil_append, List.length_nil, Nat.zero_add] at h
  exact h

theorem enumerated_total :
    ((List.range 32).map (fun i => (enumerated.getD i []).length)).sum = 146 := by decide

theorem buf_store_append (text rest : List Char) (c : Char) (h : rest ≠ []) :
    buf_store (text ++ rest) text.length c = some (text ++ c :: rest.drop 1) := by
  cases rest with
  | nil => exact absurd rfl h
  | cons d t =>
    have hlt : text.length < (text ++ d :: t).length := by
      rw [List.length_append, List.length_cons]; omega
    simp only [buf_store, if_pos hlt]
    rw [List.set_append_right _ _ (le_refl _), Nat.sub_self]
    rfl

theorem parse_edx_flags_checked_of_fold (edx : Nat) (buf b : List Char) (offset : Nat)
    (h : (List.range 32).foldl (parse_edx_flags_step_checked edx) (some (buf, 0))
      = some (b, offset)) :
    parse_edx_flags_checked edx buf = buf_store b offset NUL := by
  unfold parse_edx_flags_checked
  rw [h]

theorem parse_edx_flags_checked_eq (edx : Nat) (buf : List Char) (h : 147 ≤ buf.length) :
    parse_edx_flags_checked edx buf
      = some (edx_flags_text edx ++ NUL :: buf.drop ((edx_flags_text edx).length + 1)) := by
  have hlen := edx_flags_text_length edx
  have hsum : ((List.range 32).map (fun i => (enumerated.getD i []).length)).sum
      ≤ buf.length := by
    rw [enumerated_total]; omega
  have hfold : (List.range 32).foldl (parse_edx_flags_step_checked edx) (some (buf, 0))
      = some (edx_flags_text edx ++ buf.drop (edx_flags_text edx).length,
          (edx_flags_text edx).length) :=
    parse_edx_flags_checked_fold_nil edx (List.range 32) buf
      (fun i hi => List.mem_range.mp hi) hsum
  have hne : buf.drop (edx_flags_text edx).length ≠ [] := by
    intro he
    have := congrArg List.length he
    rw [List.length_drop, List.length_nil] at this
    omega
  rw [parse_edx_flags_checked_of_fold edx buf _ _ hfold]
  generalize edx_flags_text edx = t at hne ⊢
  rw [buf_store_append _ _ _ hne, List.drop_drop]

theorem c_str_append_NUL (t rest : List Char) (h : NUL ∉ t) : c_str (t ++ NUL :: rest) = t := by
  rw [c_str, List.takeWhile_append]
  have hall : List.takeWhile (fun c => c != NUL) t = t := by
    rw [List.takeWhile_eq_self_iff]
    intro c hc
    simp only [bne_iff_ne, ne_eq]
    intro e
    exact h (e ▸ hc)
  rw [hall]
  simp

set_option maxRecDepth 8000

/-- C25: the flags buffer does not overflow.  For every `edx` the text that
`parse_edx_flags` writes has at most 146 characters, and exactly 146 for
`edx = 0xFFFFFFFF`; on a buffer of at least 147 characters, so on the 148 of
`proc_show_cpuinfo`, every write of the function stays inside the buffer: the
call ends with the buffer holding the text, the terminating `NUL` and its old
content behind them, with its size unchanged, and reading back as the C
string of the text.  A buffer of 146 characters would be overrun at
`0xFFFFFFFF`. -/
theorem parse_edx_flags_no_overflow (edx : Nat) (edx_flags : List Char)
    (h : 147 ≤ edx_flags.length) :
    (edx_flags_text edx).length ≤ 146
    ∧ (edx_flags_text 0xFFFFFFFF).length = 146
    ∧ (edx_flags_text edx).length + 1 ≤ 147
    ∧ (∃ buf, parse_edx_flags_checked edx edx_flags = some buf
        ∧ buf = edx_flags_text edx ++ NUL :: edx_flags.drop ((edx_flags_text edx).length + 1)
        ∧ buf.length = edx_flags.length
        ∧ c_str buf = edx_flags_text edx)
    ∧ parse_edx_flags_checked 0xFFFFFFFF (List.replicate 146 NUL) = none := by
  have hlen := edx_flags_text_length edx
  refine ⟨hlen, by decide, by omega, ⟨_, parse_edx_flags_checked_eq edx edx_flags h, rfl, ?_,
    c_str_append_NUL _ _ (edx_flags_text_no_NUL edx)⟩, by decide⟩
  rw [List.length_append, List.length_cons, List.length_drop]
  omega

/-- The instance of `parse_edx_flags_no_overflow` for `edx = 0xFFFFFFFF` and
the zeroed buffer of 148 characters of `proc_show_cpuinfo`: the call writes
the 146 characters of all the mnemonics and the `NUL` at index 146. -/
theorem parse_edx_flags_no_overflow_witness :
    147 ≤ ex_edx_flags.length
      ∧ (edx_flags_text 0xFFFFFFFF).length + 1 ≤ 147
      ∧ (∃ buf, parse_edx_flags_checked 0xFFFFFFFF ex_edx_flags = some buf
          ∧ buf = edx_flags_text 0xFFFFFFFF
              ++ NUL :: ex_edx_flags.drop ((edx_flags_text 0xFFFFFFFF).length + 1)
          ∧ buf.length = ex_edx_flags.length
          ∧ c_str buf = edx_flags_text 0xFFFFFFFF)
      ∧ parse_edx_flags_checked 0xFFFFFFFF ex_edx_flags
          = some (edx_flags_text 0xFFFFFFFF ++ [NUL, NUL]) :=
  ⟨by decide,
    (parse_edx_flags_no_overflow 0xFFFFFFFF ex_edx_flags (by decide)).2.2.1,
    (parse_edx_flags_no_overflow 0xFFFFFFFF ex_edx_flags (by decide)).2.2.2.1, by decide⟩

/-! ## The root directory past the pid range -/

theorem proc_root_readdir_past (pid_get_task : Nat → Option Nat) (current : task) (index : Nat)
    (h1 : PROC_ROOT_LEN + MAX_PID < index) (h2 : index < PROC_ROOT_LEN + 2 ^ 31) :
    proc_root_readdir pid_get_task current index = some ⟨false, index, none, current⟩ := by
  have hN := PROC_ROOT_LEN_eq
  have hM := MAX_PID_eq
  have hlt : ¬ index < PROC_ROOT_LEN := by omega
  have hmod : (index - PROC_ROOT_LEN) % 2 ^ 64 = index - PROC_ROOT_LEN :=
    Nat.mod_eq_of_lt (by omega)
  have hpid : int_of_unsigned (index - PROC_ROOT_LEN) = ((index - PROC_ROOT_LEN : Nat) : Int) :=
    int_of_unsigned_small _ (by omega)
  have hgt : ¬ ((index - PROC_ROOT_LEN : Nat) : Int) ≤ (MAX_PID : Int) := by omega
  simp only [proc_root_readdir, hlt, if_false, hmod, hpid, hgt]

/-- C27 does not hold of the code: `proc_root_readdir` narrows
`*index - PROC_ROOT_LEN` to the 32 bits of `pid_t_` before the test
`pid <= MAX_PID`.  The call returns false and leaves the index alone for every
index above `PROC_ROOT_LEN + MAX_PID` and below `PROC_ROOT_LEN + 2 ^ 31`; but
at the index `2 ^ 32 - 1`, where the difference narrows to `-15`, and at
`PROC_ROOT_LEN + 2 ^ 32`, where it narrows to 0, and at `2 ^ 64 - 1`, the
call with the pids 42 and 43 alive returns true with the entry of pid 42 and
sets the index back to `42 + PROC_ROOT_LEN`. -/
theorem proc_root_readdir_narrowing (pid_get_task : Nat → Option Nat) (current : task) :
    (∀ index, PROC_ROOT_LEN + MAX_PID < index → index < PROC_ROOT_LEN + 2 ^ 31 →
      proc_root_readdir pid_get_task current index = some ⟨false, index, none, current⟩)
    ∧ proc_root_readdir ex_pid_get_task ex_task (2 ^ 32 - 1)
        = some ⟨true, 56, some (.pid_entry 42), ex_task⟩
    ∧ proc_root_readdir ex_pid_get_task ex_task (PROC_ROOT_LEN + 2 ^ 32)
        = some ⟨true, 56, some (.pid_entry 42), ex_task⟩
    ∧ proc_root_readdir ex_pid_get_task ex_task (2 ^ 64 - 1)
        = some ⟨true, 56, some (.pid_entry 42), ex_task⟩
    ∧ PROC_ROOT_LEN + MAX_PID < 2 ^ 32 - 1 ∧ 56 < 2 ^ 32 - 1 := by
  refine ⟨fun index h1 h2 => proc_root_readdir_past pid_get_task current index h1 h2,
    by decide, by decide, by decide, by decide, by decide⟩

/-! ## Regions that may block -/

theorem run_calls_append (calls : List may_block_call) (c : may_block_call) (t : task) :
    run_calls (calls ++ [c]) t = c.run (run_calls calls t) := by
  simp [run_calls, List.foldl_append]

theorem run_calls_count (calls : List may_block_call) :
    ∀ t : task, (run_calls calls t).critical_region_count
      = t.critical_region_count + (calls.count .start : Int) - (calls.count .finish : Int) := by
  induction calls with
  | nil => intro t; simp [run_calls]
  | cons c calls ih =>
    intro t
    have hstep : run_calls (c :: calls) t = run_calls calls (c.run t) := rfl
    rw [hstep, ih]
    cases c
    · simp [may_block_call.run, task_may_block_start, modify_critical_region_counter,
        List.count_cons]
      omega
    · simp [may_block_call.run, task_may_block_end, modify_critical_region_counter,
        List.count_cons]
      omega

theorem not_nested_depth :
    ∀ (calls : List may_block_call) (c : may_block_call) (inside : Bool),
      not_nested inside (calls ++ [c]) = true →
        depth_after (if inside then 1 else 0) (calls ++ [c]) = if c = .start then 1 else 0 := by
  intro calls
  induction calls with
  | nil =>
    intro c inside h
    cases c <;> cases inside <;> simp_all [not_nested, depth_after]
  | cons a calls ih =>
    intro c inside h
    cases a <;> cases inside
    · have := ih c true (by simpa [not_nested] using h)
      simpa [depth_after] using this
    · simp [not_nested] at h
    · simp [not_nested] at h
    · have := ih c false (by simpa [not_nested] using h)
      simpa [depth_after] using this

theorem not_nested_properly :
    ∀ (calls : List may_block_call) (inside : Bool), not_nested inside calls = true →
      properly_nested (if inside then 1 else 0) calls = true := by
  intro calls
  induction calls with
  | nil => intro inside _; simp [properly_nested]
  | cons a calls ih =>
    intro inside h
    cases a <;> cases inside
    · have := ih true (by simpa [not_nested] using h)
      simpa [properly_nested] using this
    · simp [not_nested] at h
    · simp [not_nested] at h
    · have := ih false (by simpa [not_nested] using h)
      simpa [properly_nested] using this

theorem TASK_MAY_BLOCK_eq {σ : Type} (body : σ → task → σ × task) (st : σ) (current : task) :
    TASK_MAY_BLOCK body st current
      = some (1, (body st (task_may_block_start current)).1,
          task_may_block_end (body st (task_may_block_start current)).2) := by
  simp [TASK_MAY_BLOCK, TASK_MAY_BLOCK_loop]

/-- C24, as stated, fails: after the properly nested calls start, start, end
the task is still inside the outer region (depth 1), yet `io_block` is
false. -/
theorem may_block_nested_counterexample :
    properly_nested 0 [.start, .start, .finish] = true
      ∧ depth_after 0 [.start, .start, .finish] = 1
      ∧ (run_calls [.start, .start, .finish] ex_task).io_block = false := by
  decide

/-- C24, amended: after each call of a sequence of `task_may_block_start` and
`task_may_block_end` calls, `io_block` is true exactly when that call was
`task_may_block_start`, and the critical-region count is its first value
plus the starts minus the ends.  Hence for a properly nested sequence in
which no region is entered inside another, `io_block` is true after each
call exactly when the task is inside a region (depth above 0).  A
`TASK_MAY_BLOCK` block executes its body once, between one start and one
end; `io_block` is false after it, and the critical-region count is back at
its entry value when the body leaves the count as it finds it. -/
theorem may_block_io_block (calls : List may_block_call) (c : may_block_call) (t : task) :
    ((run_calls (calls ++ [c]) t).io_block = true ↔ c = .start)
    ∧ (run_calls (calls ++ [c]) t).critical_region_count
        = t.critical_region_count + ((calls ++ [c]).count .start : Int)
          - ((calls ++ [c]).count .finish : Int)
    ∧ (not_nested false (calls ++ [c]) = true →
        properly_nested 0 (calls ++ [c]) = true
        ∧ ((run_calls (calls ++ [c]) t).io_block = true ↔ 0 < depth_after 0 (calls ++ [c])))
    ∧ (∀ (σ : Type) (body : σ → task → σ × task) (st : σ),
        TASK_MAY_BLOCK body st t
          = some (1, (body st (task_may_block_start t)).1,
              task_may_block_end (body st (task_may_block_start t)).2)
        ∧ (task_may_block_end (body st (task_may_block_start t)).2).io_block = false
        ∧ ((body st (task_may_block_start t)).2.critical_region_count
              = (task_may_block_start t).critical_region_count →
            (task_may_block_end (body st (task_may_block_start t)).2).critical_region_count
              = t.critical_region_count)) := by
  have hio : (run_calls (calls ++ [c]) t).io_block = true ↔ c = .start := by
    rw [run_calls_append]
    cases c <;>
      simp [may_block_call.run, task_may_block_start, task_may_block_end,
        modify_critical_region_counter]
  refine ⟨hio, run_calls_count _ t, ?_, ?_⟩
  · intro h
    refine ⟨not_nested_properly _ false h, ?_⟩
    have hd := not_nested_depth calls c false h
    simp only [Bool.false_eq_true, if_false] at hd
    rw [hio, hd]
    cases c <;> simp
  · intro σ body st
    refine ⟨TASK_MAY_BLOCK_eq body st t, ?_, ?_⟩
    · simp [task_may_block_end, modify_critical_region_counter]
    · intro hb
      have hb2 := hb
      simp only [task_may_block_start, modify_critical_region_counter] at hb2
      simp only [task_may_block_end, modify_critical_region_counter, task_may_block_start]
      omega

/-- The instance of `may_block_io_block` for the calls start, end, start on
`ex_task`, which are not nested: `io_block` is true after the last call, at
depth 1. -/
theorem may_block_io_block_witness :
    not_nested false ([.start, .finish] ++ [.start]) = true
      ∧ ((run_calls ([.start, .finish] ++ [.start]) ex_task).io_block = true
          ↔ 0 < depth_after 0 ([.start, .finish] ++ [.start]))
      ∧ (run_calls ([.start, .finish] ++ [.start]) ex_task).io_block = true
      ∧ TASK_MAY_BLOCK (fun (n : Nat) t => (n + 1, t)) 0 ex_task = some (1, 1, ex_task) :=
  ⟨by decide,
    ((may_block_io_block [.start, .finish] .start ex_task).2.2.1 (by decide)).2,
    by decide, by decide⟩

/-! ## Well-formedness is kept by every step -/

theorem World.queue_of_map {s s' : World} {p : futex_ptr} (g : List Nat → List Nat)
    (hg : g [] = [])
    (h : s'.deref p = (s.deref p).map (fun f => { f with queue := g f.queue })) :
    s'.queue_of p = g (s.queue_of p) := by
  cases hf : s.deref p with
  | none =>
    rw [hf] at h
    rw [World.queue_of_none hf, World.queue_of_none h, hg]
  | some f =>
    rw [hf] at h
    rw [World.queue_of_eq hf, World.queue_of_eq h]

theorem World.queue_of_congr {s s' : World} {p : futex_ptr} (h : s'.deref p = s.deref p) :
    s'.queue_of p = s.queue_of p := by
  simp only [World.queue_of, h]

theorem World.refcount_of_congr {s s' : World} {p : futex_ptr} (h : s'.deref p = s.deref p) :
    s'.refcount_of p = s.refcount_of p := by
  simp only [World.refcount_of, h]

theorem World.wf.mem_queue_of {s : World} (h : s.wf) {p : futex_ptr} {w : Nat}
    (hw : w ∈ s.queue_of p) : (w, p) ∈ s.waits := by
  cases hf : s.deref p with
  | none => rw [World.queue_of_none hf] at hw; simp at hw
  | some f => rw [World.queue_of_eq hf] at hw; exact h.queued_live hf hw

/-- A wake keeps the table well-formed. -/
theorem wf_wake (current : task) (op : Int) (uaddr wake_max requeue_max requeue_addr : Nat)
    (s : World) (hs : s.wf) (hop : op ≠ (FUTEX_REQUEUE_ : Int)) (ret : Int) (s' : World)
    (h : futex_wakelike current op uaddr wake_max requeue_max requeue_addr s = some (ret, s')) :
    s'.wf := by
  obtain ⟨s2, h1, hc, hd, ho, _, hw, _, _⟩ :=
    futex_wakelike_wake_spec current op uaddr wake_max requeue_max requeue_addr s hs hop
  rw [h1] at h
  simp only [Option.some.injEq, Prod.mk.injEq] at h
  obtain ⟨_, rfl⟩ := h
  apply World.wf_of_obs hc
  · intro p f hf
    by_cases hp : p = (current.mem, uaddr)
    · subst hp
      rw [hd] at hf
      cases hg : s.deref (current.mem, uaddr) with
      | none => rw [hg] at hf; simp at hf
      | some g =>
        rw [hg] at hf
        simp only [Option.map_some', Option.some.injEq] at hf
        subst hf
        obtain ⟨o1, o2, o3, o4⟩ := hs.obs hg
        rw [hw]
        exact ⟨o1.sublist (List.drop_sublist _ _), fun w hw' => o2 w (List.mem_of_mem_drop hw'),
          o3, o4⟩
    · rw [ho p hp] at hf
      rw [hw]
      exact hs.obs hf
  · rw [hw]; exact hs.waits_nodup
  · intro e he
    rw [hw] at he
    by_cases hp : e.2 = (current.mem, uaddr)
    · have := hs.waits_live e he
      rw [hp] at this ⊢
      rw [hd]
      cases hg : s.deref (current.mem, uaddr) with
      | none => rw [hg] at this; simp at this
      | some g => rfl
    · rw [ho _ hp]; exact hs.waits_live e he
  · rw [hw]; exact hs.waits_bound

/-- A requeue onto the same address keeps the table well-formed. -/
theorem wf_requeue_same (current : task) (uaddr wake_max requeue_max : Nat)
    (s : World) (hs : s.wf) (ret : Int) (s' : World)
    (h : futex_wakelike current (FUTEX_REQUEUE_ : Int) uaddr wake_max requeue_max uaddr s
      = some (ret, s')) :
    s'.wf := by
  obtain ⟨s2, n, q', h1, _, hc, hq, hperm, hr, hiff, ho, _, hw, _, _⟩ :=
    futex_wakelike_requeue_same_spec current uaddr wake_max requeue_max s hs _ _ rfl rfl
  rw [h1] at h
  simp only [Option.some.injEq, Prod.mk.injEq] at h
  obtain ⟨_, rfl⟩ := h
  have hsub : ∀ w, w ∈ q' → w ∈ s.queue_of (current.mem, uaddr) := fun w hw' =>
    List.mem_of_mem_drop (hperm.subset hw')
  apply World.wf_of_obs hc
  · intro p f hf
    by_cases hp : p = (current.mem, uaddr)
    · subst hp
      have e1 := World.queue_of_eq hf
      have e2 := World.refcount_of_eq hf
      rw [hq] at e1
      rw [hr] at e2
      rw [hw, ← e1, ← e2]
      refine ⟨?_, fun w hw' => hs.mem_queue_of (hsub w hw'), hs.refcount_of_count _, ?_⟩
      · exact hperm.nodup_iff.2 ((hs.queue_of_nodup _).sublist (List.drop_sublist _ _))
      · have := hiff.1 (by rw [hf]; rfl)
        rwa [hr] at this
    · rw [ho p hp] at hf
      rw [hw]
      exact hs.obs hf
  · rw [hw]; exact hs.waits_nodup
  · intro e he
    rw [hw] at he
    by_cases hp : e.2 = (current.mem, uaddr)
    · rw [hp, hiff, hr, ← hs.isSome_iff, ← hp]
      exact hs.waits_live e he
    · rw [ho _ hp]; exact hs.waits_live e he
  · rw [hw]; exact hs.waits_bound

theorem count_without (waits : List (Nat × futex_ptr)) (wait : Nat) (p x : futex_ptr) :
    (waits.map Prod.fst).Nodup → (wait, p) ∈ waits →
    ((waits.filter (fun e => decide (e.1 ≠ wait))).filter (fun e => decide (e.2 = x))).length
      + (if x = p then 1 else 0)
      = (waits.filter (fun e => decide (e.2 = x))).length := by
  induction waits with
  | nil => intro _ h; simp at h
  | cons e l ih =>
    intro hn hm
    rw [List.map_cons, List.nodup_cons] at hn
    by_cases he : e.1 = wait
    · have hep : e = (wait, p) := by
        rcases List.mem_cons.1 hm with h | h
        · exact h.symm
        · exact absurd (List.mem_map.2 ⟨(wait, p), h, rfl⟩) (he ▸ hn.1)
      have hrest : l.filter (fun e => decide (e.1 ≠ wait)) = l := by
        rw [List.filter_eq_self]
        intro a ha
        simp only [ne_eq, decide_eq_true_eq]
        intro h
        exact hn.1 (List.mem_map.2 ⟨a, ha, h.trans he.symm⟩)
      subst hep
      simp only [List.filter_cons, ne_eq, not_true_eq_false, decide_False, Bool.false_eq_true,
        if_false, hrest]
      by_cases hx : x = p
      · subst hx; simp
      · have : ¬ p = x := fun h => hx h.symm
        simp [hx, this]
    · have hm2 : (wait, p) ∈ l := by
        rcases List.mem_cons.1 hm with h | h
        · exact absurd (by rw [← h]) he
        · exact h
      have := ih hn.2 hm2
      simp only [ne_eq] at this
      simp only [List.filter_cons, ne_eq, he, not_false_eq_true, decide_True, if_true]
      by_cases hx : e.2 = x
      · simp only [hx, decide_True, if_true, List.length_cons]
        omega
      · simp only [hx, decide_False, Bool.false_eq_true, if_false]
        exact this

theorem futex_wait_resume_eq (wait : Nat) (s : World) (p : futex_ptr) (s1 : World)
    (h : futex_wait_resume wait s = some (p, s1)) :
    s.wait_futex wait = some p
      ∧ s1 = { s.list_remove wait with waits := s.waits.filter (fun e => e.1 ≠ wait) } := by
  simp only [futex_wait_resume] at h
  cases hw : s.wait_futex wait with
  | none => rw [hw] at h; simp at h
  | some q =>
    rw [hw] at h
    simp only [Option.some.injEq, Prod.mk.injEq] at h
    obtain ⟨rfl, rfl⟩ := h
    exact ⟨rfl, rfl⟩

/-- What the completion of a wait leaves: the record is off every queue and
off the list of live records, and its futex has one reference less or is
gone. -/
theorem wait_complete_obs (wait : Nat) (p : futex_ptr) (s s1 s' : World) (hs : s.wf)
    (h1 : futex_wait_resume wait s = some (p, s1)) (h2 : futex_put p s1 = some s') :
    (wait, p) ∈ s.waits
      ∧ s'.chains_ok
      ∧ (∃ f, s.deref p = some f
          ∧ s'.deref p = if f.refcount = 1 then none
              else some { f with queue := f.queue.erase wait, refcount := f.refcount - 1 })
      ∧ (∀ r, r ≠ p → s'.deref r
          = (s.deref r).map (fun g => { g with queue := g.queue.erase wait }))
      ∧ s'.waits = s.waits.filter (fun e => e.1 ≠ wait)
      ∧ s'.notified = s.notified ∧ s'.mem_ptr = s.mem_ptr
      ∧ s'.user_get_timespec = s.user_get_timespec := by
  obtain ⟨hw, rfl⟩ := futex_wait_resume_eq wait s p s1 h1
  have hmem : (wait, p) ∈ s.waits := lookup_mem _ _ _ hw
  have hlive := hs.waits_live _ hmem
  cases hf : s.deref p with
  | none => rw [hf] at hlive; simp at hlive
  | some f =>
    have hd : ∀ r, World.deref { s.list_remove wait with
        waits := s.waits.filter (fun e => e.1 ≠ wait) } r
        = (s.deref r).map (fun g => { g with queue := g.queue.erase wait }) :=
      fun r => World.deref_list_remove s wait r
    have hc : World.chains_ok { s.list_remove wait with
        waits := s.waits.filter (fun e => e.1 ≠ wait) } :=
      World.chains_ok_list_remove s wait hs.chains_ok
    have hf1 := hd p
    rw [hf] at hf1
    obtain ⟨s2, e1, c2, d2, o2, w2, n2, m2, u2⟩ :=
      futex_put_unlocked_spec p _ _ hf1 hc (show 0 < f.refcount from hs.refcount_pos_of hf)
        (show f.refcount < 2 ^ 32 by have := hs.refcount_le hf; have := MAX_PID_eq; omega)
        (fun h1 => hs.last_reference hf hmem h1)
    simp only [futex_put] at h2
    rw [e1] at h2
    simp only [Option.some.injEq] at h2
    subst h2
    refine ⟨hmem, c2, ⟨f, rfl, d2⟩, ?_, w2, n2, m2, u2⟩
    intro r hr
    rw [o2 r hr, hd r]

/-- The completion of a wait keeps the table well-formed. -/
theorem wf_wait_complete (wait : Nat) (p : futex_ptr) (s s1 s' : World) (hs : s.wf)
    (h1 : futex_wait_resume wait s = some (p, s1)) (h2 : futex_put p s1 = some s') :
    s'.wf := by
  obtain ⟨hmem, hc, ⟨f, hf, hd⟩, ho, hw, _, _, _⟩ := wait_complete_obs wait p s s1 s' hs h1 h2
  have hcount := fun x => count_without s.waits wait p x hs.waits_nodup hmem
  have herase : ∀ (r : futex_ptr) (g : futex), s.deref r = some g →
      ∀ w ∈ g.queue.erase wait, (w, r) ∈ s.waits.filter (fun e => e.1 ≠ wait) := by
    intro r g hg w hw'
    have hn := hs.nodup_of hg
    rw [hn.mem_erase_iff] at hw'
    rw [List.mem_filter]
    exact ⟨hs.queued_live hg hw'.2, by simpa using hw'.1⟩
  apply World.wf_of_obs hc
  · intro r g hg
    rw [hw]
    by_cases hr : r = p
    · subst hr
      rw [hd] at hg
      by_cases h1 : f.refcount = 1
      · rw [if_pos h1] at hg; simp at hg
      · rw [if_neg h1] at hg
        simp only [Option.some.injEq] at hg
        subst hg
        obtain ⟨o1, _, o3, o4⟩ := hs.obs hf
        have hcp := hcount r
        rw [if_pos rfl] at hcp
        refine ⟨o1.sublist (List.erase_sublist _ _), herase r f hf, ?_, ?_⟩
        · simp only [ne_eq] at hcp ⊢
          omega
        · simp only []; omega
    · rw [ho r hr] at hg
      cases hg0 : s.deref r with
      | none => rw [hg0] at hg; simp at hg
      | some g0 =>
        rw [hg0] at hg
        simp only [Option.map_some', Option.some.injEq] at hg
        subst hg
        obtain ⟨o1, _, o3, o4⟩ := hs.obs hg0
        have hcp := hcount r
        rw [if_neg hr] at hcp
        refine ⟨o1.sublist (List.erase_sublist _ _), herase r g0 hg0, ?_, o4⟩
        simp only [ne_eq] at hcp ⊢
        omega
  · rw [hw]
    exact hs.waits_nodup.sublist ((List.filter_sublist _).map _)
  · intro e he
    rw [hw] at he
    have he0 := List.mem_filter.1 he
    by_cases hr : e.2 = p
    · rw [hr, hd]
      have hcp := hcount p
      rw [if_pos rfl] at hcp
      have hpos : 0 < ((s.waits.filter (fun e => decide (e.1 ≠ wait))).filter
          (fun e => decide (e.2 = p))).length := by
        apply List.length_pos_of_mem (a := e)
        rw [List.mem_filter]
        exact ⟨he, by simpa using hr⟩
      have o3 := (hs.obs hf).2.2.1
      have h1 : f.refcount ≠ 1 := by omega
      rw [if_neg h1]; rfl
    · rw [ho _ hr]
      have := hs.waits_live e he0.1
      cases hg0 : s.deref e.2 with
      | none => rw [hg0] at this; simp at this
      | some g0 => rfl
  · rw [hw]
    exact le_trans (List.length_filter_le _ _) hs.waits_bound

theorem count_moved (P P2 x : futex_ptr) (hne : P2 ≠ P) :
    ∀ (waits : List (Nat × futex_ptr)) (moved : List Nat),
      (waits.map Prod.fst).Nodup → moved.Nodup → (∀ w ∈ moved, (w, P) ∈ waits) →
      ((waits.map (fun e => if e.1 ∈ moved then (e.1, P2) else e)).filter
          (fun e => decide (e.2 = x))).length + (if x = P then moved.length else 0)
        = (waits.filter (fun e => decide (e.2 = x))).length
          + (if x = P2 then moved.length else 0) := by
  intro waits
  induction waits with
  | nil =>
    intro moved _ _ hm
    cases moved with
    | nil => simp
    | cons w ws => exact absurd (hm w (List.mem_cons_self _ _)) (List.not_mem_nil _)
  | cons e l ih =>
    intro moved hn hmn hm
    rw [List.map_cons, List.nodup_cons] at hn
    have hfst : ∀ a ∈ l, a.1 ≠ e.1 := fun a ha h =>
      hn.1 (List.mem_map.2 ⟨a, ha, h⟩)
    by_cases he : e.1 ∈ moved
    · have hep : e.2 = P := by
        rcases List.mem_cons.1 (hm e.1 he) with h | h
        · rw [← h]
        · exact absurd (List.mem_map.2 ⟨(e.1, P), h, rfl⟩) hn.1
      have hmap : l.map (fun a => if a.1 ∈ moved then (a.1, P2) else a)
          = l.map (fun a => if a.1 ∈ moved.erase e.1 then (a.1, P2) else a) := by
        apply List.map_congr_left
        intro a ha
        have : a.1 ∈ moved.erase e.1 ↔ a.1 ∈ moved := by
          rw [hmn.mem_erase_iff]
          exact ⟨fun h => h.2, fun h => ⟨hfst a ha, h⟩⟩
        simp only [this]
      have hm2 : ∀ w ∈ moved.erase e.1, (w, P) ∈ l := by
        intro w hw
        rw [hmn.mem_erase_iff] at hw
        rcases List.mem_cons.1 (hm w hw.2) with h | h
        · exact absurd (by rw [← h]) hw.1
        · exact h
      have hih := ih (moved.erase e.1) hn.2 (hmn.erase _) hm2
      have hlen : moved.length = (moved.erase e.1).length + 1 := by
        rw [List.length_erase_of_mem he]
        have := List.length_pos_of_mem he
        omega
      rw [List.map_cons, if_pos he, hmap, List.filter_cons, List.filter_cons, hep, hlen]
      by_cases hx : x = P
      · subst hx
        have h2 : ¬ P2 = x := hne
        have h3 : ¬ x = P2 := fun h => hne h.symm
        simp only [h2, h3, decide_False, decide_True, Bool.false_eq_true, if_false, if_true,
          List.length_cons] at hih ⊢
        omega
      · by_cases hx2 : x = P2
        · subst hx2
          have h2 : ¬ P = x := fun h => hx h.symm
          simp only [h2, hx, decide_False, decide_True, Bool.false_eq_true, if_false, if_true,
            List.length_cons] at hih ⊢
          omega
        · have h2 : ¬ P = x := fun h => hx h.symm
          have h3 : ¬ P2 = x := fun h => hx2 h.symm
          simp only [h2, h3, hx, hx2, decide_False, Bool.false_eq_true, if_false] at hih ⊢
          omega
    · have hm2 : ∀ w ∈ moved, (w, P) ∈ l := by
        intro w hw
        rcases List.mem_cons.1 (hm w hw) with h | h
        · exact absurd (by rw [← h]; exact hw) he
        · exact h
      have hih := ih moved hn.2 hmn hm2
      rw [List.map_cons, if_neg he, List.filter_cons, List.filter_cons]
      by_cases hx : e.2 = x
      · simp only [hx, decide_True, if_true, List.length_cons]
        omega
      · simp only [hx, decide_False, Bool.false_eq_true, if_false]
        exact hih

/-- What a requeue to another address leaves, in the form that
well-formedness needs: the moved wait records `moved` are the first `m`
waiters left after the wake phase. -/
theorem requeue_moved_facts (s : World) (hs : s.wf) (P : futex_ptr) (k m : Nat)
    (hm : m ≤ (s.queue_of P).length - k) :
    (((s.queue_of P).drop k).take m).Nodup
      ∧ (((s.queue_of P).drop k).take m).length = m
      ∧ (∀ w ∈ ((s.queue_of P).drop k).take m, w ∈ s.queue_of P)
      ∧ (∀ w ∈ (s.queue_of P).drop (k + m), w ∉ ((s.queue_of P).drop k).take m) := by
  have hn := hs.queue_of_nodup P
  have hsub : (((s.queue_of P).drop k).take m).Sublist (s.queue_of P) :=
    (List.take_sublist _ _).trans (List.drop_sublist _ _)
  refine ⟨hn.sublist hsub, ?_, fun w hw => hsub.subset hw, ?_⟩
  · rw [List.length_take, List.length_drop]; omega
  · intro w hw hw2
    have hsplit : (s.queue_of P).drop k
        = ((s.queue_of P).drop k).take m ++ (s.queue_of P).drop (k + m) := by
      rw [← List.drop_drop, List.take_append_drop]
    have hnd : ((s.queue_of P).drop k).Nodup := hn.sublist (List.drop_sublist _ _)
    rw [hsplit, List.nodup_append] at hnd
    exact hnd.2.2 hw2 hw

/-- A requeue to another address keeps the table well-formed. -/
theorem wf_requeue_other (current : task) (uaddr wake_max requeue_max requeue_addr : Nat)
    (s : World) (hs : s.wf) (hne : requeue_addr ≠ uaddr) (ret : Int) (s' : World)
    (h : futex_wakelike current (FUTEX_REQUEUE_ : Int) uaddr wake_max requeue_max requeue_addr s
      = some (ret, s')) :
    s'.wf := by
  obtain ⟨s2, h1, hc, hq1, hr1, hi1, hq2, hr2, hi2, ho, _, hw, _, _⟩ :=
    futex_wakelike_requeue_spec current uaddr wake_max requeue_max requeue_addr s hs hne
      _ _ _ _ rfl rfl rfl rfl
  rw [h1] at h
  simp only [Option.some.injEq, Prod.mk.injEq] at h
  obtain ⟨_, rfl⟩ := h
  have hP : (current.mem, requeue_addr) ≠ (current.mem, uaddr) := fun e =>
    hne (Prod.ext_iff.1 e).2
  have hP' : (current.mem, uaddr) ≠ (current.mem, requeue_addr) := fun e => hP e.symm
  obtain ⟨mn, ml, mq, md⟩ := requeue_moved_facts s hs (current.mem, uaddr)
    (min wake_max (s.queue_of (current.mem, uaddr)).length)
    (min requeue_max ((s.queue_of (current.mem, uaddr)).length
      - min wake_max (s.queue_of (current.mem, uaddr)).length)) (Nat.min_le_right _ _)
  have mw : ∀ w ∈ ((s.queue_of (current.mem, uaddr)).drop
      (min wake_max (s.queue_of (current.mem, uaddr)).length)).take
      (min requeue_max ((s.queue_of (current.mem, uaddr)).length
        - min wake_max (s.queue_of (current.mem, uaddr)).length)),
      (w, (current.mem, uaddr)) ∈ s.waits := fun w hw' => hs.mem_queue_of (mq w hw')
  have hcnt := fun x => count_moved (current.mem, uaddr) (current.mem, requeue_addr) x hP
    s.waits _ hs.waits_nodup mn mw
  have hkeep : ∀ (w : Nat) (r : futex_ptr), (w, r) ∈ s.waits →
      w ∉ ((s.queue_of (current.mem, uaddr)).drop
        (min wake_max (s.queue_of (current.mem, uaddr)).length)).take
        (min requeue_max ((s.queue_of (current.mem, uaddr)).length
          - min wake_max (s.queue_of (current.mem, uaddr)).length)) →
      (w, r) ∈ s2.waits := by
    intro w r hmem hnot
    rw [hw, List.mem_map]
    exact ⟨(w, r), hmem, by simp only [hnot, if_false]⟩
  have hR : ∀ x, s2.refcount_of x
      = (s2.waits.filter (fun e => decide (e.2 = x))).length := by
    intro x
    have hx := hcnt x
    rw [← hw, ml] at hx
    by_cases x1 : x = (current.mem, uaddr)
    · subst x1
      rw [if_pos rfl, if_neg hP'] at hx
      rw [hr1, hs.refcount_of_count]
      omega
    · by_cases x2 : x = (current.mem, requeue_addr)
      · subst x2
        rw [if_neg x1, if_pos rfl] at hx
        rw [hr2, hs.refcount_of_count]
        omega
      · rw [if_neg x1, if_neg x2] at hx
        rw [World.refcount_of_congr (ho x x1 x2), hs.refcount_of_count]
        omega
  apply World.wf_of_obs hc
  · intro p f hf
    have e1 := World.queue_of_eq hf
    have e2 := World.refcount_of_eq hf
    have hsome : (s2.deref p).isSome = true := by rw [hf]; rfl
    rw [← e1, ← e2]
    by_cases p1 : p = (current.mem, uaddr)
    · subst p1
      refine ⟨?_, ?_, hR _, hi1.1 hsome⟩
      · rw [hq1]
        exact (hs.queue_of_nodup _).sublist (List.drop_sublist _ _)
      · intro w hw'
        rw [hq1] at hw'
        exact hkeep w _ (hs.mem_queue_of (List.mem_of_mem_drop hw')) (md w hw')
    · by_cases p2 : p = (current.mem, requeue_addr)
      · subst p2
        refine ⟨?_, ?_, hR _, hi2.1 hsome⟩
        · rw [hq2, List.nodup_append]
          refine ⟨hs.queue_of_nodup _, mn, ?_⟩
          intro a ha hb
          exact hs.queue_of_disjoint hP a (mq a hb) ha
        · intro w hw'
          rw [hq2, List.mem_append] at hw'
          rcases hw' with hw' | hw'
          · refine hkeep w _ (hs.mem_queue_of hw') ?_
            intro hb
            exact hs.queue_of_disjoint hP w (mq w hb) hw'
          · rw [hw, List.mem_map]
            exact ⟨(w, (current.mem, uaddr)), mw w hw', by simp only [hw', if_true]⟩
      · have hd := ho p p1 p2
        rw [hd] at hf
        obtain ⟨o1, o2, _, o4⟩ := hs.obs hf
        rw [e1, e2]
        refine ⟨o1, ?_, ?_, o4⟩
        · intro w hw'
          refine hkeep w p (o2 w hw') ?_
          intro hb
          exact p1 (hs.waits_unique (o2 w hw') (mw w hb))
        · rw [← e2, hR]
  · rw [hw, List.map_map]
    have : (Prod.fst ∘ fun (e : Nat × futex_ptr) =>
        if e.1 ∈ ((s.queue_of (current.mem, uaddr)).drop
          (min wake_max (s.queue_of (current.mem, uaddr)).length)).take
          (min requeue_max ((s.queue_of (current.mem, uaddr)).length
            - min wake_max (s.queue_of (current.mem, uaddr)).length))
        then (e.1, (current.mem, requeue_addr)) else e) = Prod.fst := by
      funext e
      simp only [Function.comp]
      split <;> rfl
    rw [this]
    exact hs.waits_nodup
  · intro e he
    have hpos : 0 < (s2.waits.filter (fun a => decide (a.2 = e.2))).length := by
      apply List.length_pos_of_mem (a := e)
      rw [List.mem_filter]
      exact ⟨he, by simp⟩
    rw [← hR] at hpos
    by_cases p1 : e.2 = (current.mem, uaddr)
    · rw [p1] at hpos ⊢; exact hi1.2 hpos
    · by_cases p2 : e.2 = (current.mem, requeue_addr)
      · rw [p2] at hpos ⊢; exact hi2.2 hpos
      · rw [ho _ p1 p2, hs.isSome_iff]
        rwa [World.refcount_of_congr (ho _ p1 p2)] at hpos
  · rw [hw, List.length_map]
    exact hs.waits_bound

/-- A requeue keeps the table well-formed. -/
theorem wf_requeue (current : task) (uaddr wake_max requeue_max requeue_addr : Nat)
    (s : World) (hs : s.wf) (ret : Int) (s' : World)
    (h : futex_wakelike current (FUTEX_REQUEUE_ : Int) uaddr wake_max requeue_max requeue_addr s
      = some (ret, s')) :
    s'.wf := by
  by_cases hne : requeue_addr = uaddr
  · subst hne
    exact wf_requeue_same current _ wake_max requeue_max s hs ret s' h
  · exact wf_requeue_other current uaddr wake_max requeue_max requeue_addr s hs hne ret s' h

/-! ## Reachable states -/

theorem wf_empty (mem_ptr : Nat → Nat → Option Nat)
    (user_get_timespec : Nat → Nat → Option (Int × Int)) :
    (World.empty mem_ptr user_get_timespec).wf :=
  wf_of_table _ _ _ _ (by decide)

theorem wf_guest_store (s : World) (hs : s.wf) (mem_ptr : Nat → Nat → Option Nat)
    (user_get_timespec : Nat → Nat → Option (Int × Int)) :
    World.wf { s with mem_ptr := mem_ptr, user_get_timespec := user_get_timespec } :=
  { bucket := hs.bucket
    unique := hs.unique
    queue_nodup := hs.queue_nodup
    queue_waits := hs.queue_waits
    refcount := hs.refcount
    refcount_pos := hs.refcount_pos
    waits_nodup := hs.waits_nodup
    waits_live := hs.waits_live
    waits_bound := hs.waits_bound }

/-- Every step keeps the table well-formed. -/
theorem wf_step (s s' : World) (hs : s.wf) (h : futex_step s s') : s'.wf := by
  cases h with
  | guest_store _ mem_ptr user_get_timespec => exact wf_guest_store s hs _ _
  | wait_fail current uaddr val _ _ _ hput =>
    simp only [futex_put, futex_get] at hput
    rw [futex_get_put current uaddr s hs] at hput
    simp only [Option.some.injEq] at hput
    rw [← hput]
    exact hs
  | wait_enqueue current wait uaddr val _ hfresh hroom _ =>
    exact wf_enqueue current uaddr wait s hs hfresh hroom
  | wait_complete wait futex _ s1 _ h1 h2 => exact wf_wait_complete wait futex s s1 s' hs h1 h2
  | wake current uaddr wake_max ret _ _ hw =>
    exact wf_wake current _ uaddr wake_max 0 0 s hs (by decide) ret s' hw
  | requeue current uaddr wake_max requeue_max requeue_addr ret _ _ hr =>
    exact wf_requeue current uaddr wake_max requeue_max requeue_addr s hs ret s' hr

/-- Every reachable state is well-formed. -/
theorem reachable_wf (s : World) (h : reachable s) : s.wf := by
  induction h with
  | empty mem_ptr user_get_timespec => exact wf_empty _ _
  | step s s' _ hstep ih => exact wf_step s s' ih hstep

theorem enqueue_obs (current : task) (uaddr wait : Nat) (s : World) :
    (futex_wait_enqueue (current.mem, uaddr) wait (futex_get current uaddr s).2).waits
        = (wait, (current.mem, uaddr)) :: s.waits
      ∧ (futex_wait_enqueue (current.mem, uaddr) wait (futex_get current uaddr s).2).notified
        = s.notified
      ∧ (∀ r, r ≠ (current.mem, uaddr) →
          (futex_wait_enqueue (current.mem, uaddr) wait (futex_get current uaddr s).2).deref r
            = s.deref r) := by
  refine ⟨?_, ?_, ?_⟩
  · simp only [futex_wait_enqueue, futex_get, World.list_add_tail, World.modify,
      futex_get_unlocked_waits]
  · simp only [futex_wait_enqueue, futex_get, World.list_add_tail, World.modify,
      futex_get_unlocked_notified]
  · intro r hr
    have : (futex_wait_enqueue (current.mem, uaddr) wait (futex_get current uaddr s).2).deref r
        = (futex_get_unlocked current uaddr s).2.deref r := by
      simp only [futex_wait_enqueue, futex_get, World.list_add_tail]
      rw [World.deref_modify_other _ (keeps_key_queue _) hr]
      rfl
    rw [this, World.deref_get_other current uaddr s hr]

theorem qn_enqueue (current : task) (uaddr wait : Nat) (s : World)
    (hq : s.queued_or_notified) :
    (futex_wait_enqueue (current.mem, uaddr) wait
      (futex_get current uaddr s).2).queued_or_notified := by
  obtain ⟨hw, hn, ho⟩ := enqueue_obs current uaddr wait s
  have hqueue := queue_of_enqueue current uaddr wait s
  intro e he
  rw [hw] at he
  rw [hn]
  rcases List.mem_cons.1 he with rfl | he
  · left
    simp only []
    rw [hqueue]
    exact List.mem_append_right _ (List.mem_singleton_self _)
  · rcases hq e he with h | h
    · left
      by_cases hp : e.2 = (current.mem, uaddr)
      · rw [hp, hqueue]
        rw [hp] at h
        exact List.mem_append_left _ h
      · rw [World.queue_of_congr (ho _ hp)]
        exact h
    · exact Or.inr h

theorem qn_wake (current : task) (op : Int) (uaddr wake_max requeue_max requeue_addr : Nat)
    (s : World) (hs : s.wf) (hq : s.queued_or_notified) (hop : op ≠ (FUTEX_REQUEUE_ : Int))
    (ret : Int) (s' : World)
    (h : futex_wakelike current op uaddr wake_max requeue_max requeue_addr s = some (ret, s')) :
    s'.queued_or_notified := by
  obtain ⟨s2, h1, hc, hd, ho, hn, hw, _, _⟩ :=
    futex_wakelike_wake_spec current op uaddr wake_max requeue_max requeue_addr s hs hop
  rw [h1] at h
  simp only [Option.some.injEq, Prod.mk.injEq] at h
  obtain ⟨_, rfl⟩ := h
  have hqueue : s2.queue_of (current.mem, uaddr)
      = (s.queue_of (current.mem, uaddr)).drop
          (min wake_max (s.queue_of (current.mem, uaddr)).length) := by
    cases hf : s.deref (current.mem, uaddr) with
    | none =>
      rw [hf] at hd
      rw [World.queue_of_none hf, World.queue_of_none hd]
      simp
    | some f =>
      rw [hf] at hd
      rw [World.queue_of_eq hf, World.queue_of_eq hd]
  intro e he
  rw [hw] at he
  rw [hn]
  rcases hq e he with h | h
  · by_cases hp : e.2 = (current.mem, uaddr)
    · rw [hp] at h ⊢
      rw [hqueue]
      rw [← List.take_append_drop (min wake_max (s.queue_of (current.mem, uaddr)).length)
        (s.queue_of (current.mem, uaddr)), List.mem_append] at h
      rcases h with h | h
      · exact Or.inr (List.mem_append_right _ h)
      · exact Or.inl h
    · left
      rw [World.queue_of_congr (ho _ hp)]
      exact h
  · exact Or.inr (List.mem_append_left _ h)

theorem qn_requeue_same (current : task) (uaddr wake_max requeue_max : Nat)
    (s : World) (hs : s.wf) (hq : s.queued_or_notified) (ret : Int) (s' : World)
    (h : futex_wakelike current (FUTEX_REQUEUE_ : Int) uaddr wake_max requeue_max uaddr s
      = some (ret, s')) :
    s'.queued_or_notified := by
  obtain ⟨s2, n, q', h1, _, hc, hq1, hperm, hr, hiff, ho, hn, hw, _, _⟩ :=
    futex_wakelike_requeue_same_spec current uaddr wake_max requeue_max s hs _ _ rfl rfl
  rw [h1] at h
  simp only [Option.some.injEq, Prod.mk.injEq] at h
  obtain ⟨_, rfl⟩ := h
  intro e he
  rw [hw] at he
  rw [hn]
  rcases hq e he with h | h
  · by_cases hp : e.2 = (current.mem, uaddr)
    · rw [hp] at h ⊢
      rw [hq1]
      rw [← List.take_append_drop (min wake_max (s.queue_of (current.mem, uaddr)).length)
        (s.queue_of (current.mem, uaddr)), List.mem_append] at h
      rcases h with h | h
      · exact Or.inr (List.mem_append_right _ h)
      · exact Or.inl (hperm.symm.subset h)
    · left
      rw [World.queue_of_congr (ho _ hp)]
      exact h
  · exact Or.inr (List.mem_append_left _ h)

theorem qn_requeue_other (current : task) (uaddr wake_max requeue_max requeue_addr : Nat)
    (s : World) (hs : s.wf) (hq : s.queued_or_notified) (hne : requeue_addr ≠ uaddr)
    (ret : Int) (s' : World)
    (h : futex_wakelike current (FUTEX_REQUEUE_ : Int) uaddr wake_max requeue_max requeue_addr s
      = some (ret, s')) :
    s'.queued_or_notified := by
  obtain ⟨s2, h1, hc, hq1, hr1, hi1, hq2, hr2, hi2, ho, hn, hw, _, _⟩ :=
    futex_wakelike_requeue_spec current uaddr wake_max requeue_max requeue_addr s hs hne
      _ _ _ _ rfl rfl rfl rfl
  rw [h1] at h
  simp only [Option.some.injEq, Prod.mk.injEq] at h
  obtain ⟨_, rfl⟩ := h
  intro e' he'
  rw [hw, List.mem_map] at he'
  obtain ⟨e, he, rfl⟩ := he'
  rw [hn]
  by_cases hmv : e.1 ∈ ((s.queue_of (current.mem, uaddr)).drop
      (min wake_max (s.queue_of (current.mem, uaddr)).length)).take
      (min requeue_max ((s.queue_of (current.mem, uaddr)).length
        - min wake_max (s.queue_of (current.mem, uaddr)).length))
  · left
    simp only [hmv, if_true]
    rw [hq2]
    exact List.mem_append_right _ hmv
  · simp only [hmv, if_false]
    rcases hq e he with h | h
    · by_cases p1 : e.2 = (current.mem, uaddr)
      · rw [p1] at h ⊢
        rw [hq1]
        rw [← List.take_append_drop (min wake_max (s.queue_of (current.mem, uaddr)).length)
          (s.queue_of (current.mem, uaddr)), List.mem_append] at h
        rcases h with h | h
        · exact Or.inr (List.mem_append_right _ h)
        · rw [← List.take_append_drop (min requeue_max
              ((s.queue_of (current.mem, uaddr)).length
                - min wake_max (s.queue_of (current.mem, uaddr)).length))
            ((s.queue_of (current.mem, uaddr)).drop
              (min wake_max (s.queue_of (current.mem, uaddr)).length)), List.mem_append] at h
          rcases h with h | h
          · exact absurd h hmv
          · rw [List.drop_drop] at h
            exact Or.inl h
      · by_cases p2 : e.2 = (current.mem, requeue_addr)
        · left
          rw [p2] at h ⊢
          rw [hq2]
          exact List.mem_append_left _ h
        · left
          rw [World.queue_of_congr (ho _ p1 p2)]
          exact h
    · exact Or.inr (List.mem_append_left _ h)

theorem qn_wait_complete (wait : Nat) (p : futex_ptr) (s s1 s' : World) (hs : s.wf)
    (hq : s.queued_or_notified)
    (h1 : futex_wait_resume wait s = some (p, s1)) (h2 : futex_put p s1 = some s') :
    s'.queued_or_notified := by
  have hs' := wf_wait_complete wait p s s1 s' hs h1 h2
  obtain ⟨hmem, hc, ⟨f, hf, hd⟩, ho, hw, hn, _, _⟩ := wait_complete_obs wait p s s1 s' hs h1 h2
  intro e he
  have hlive := hs'.waits_live e he
  rw [hw, List.mem_filter] at he
  have hne : e.1 ≠ wait := by simpa using he.2
  rw [hn]
  rcases hq e he.1 with h | h
  · left
    by_cases hp : e.2 = p
    · rw [hp] at h hlive ⊢
      rw [hd] at hlive
      by_cases h1 : f.refcount = 1
      · rw [if_pos h1] at hlive; simp at hlive
      · rw [if_neg h1] at hd
        rw [World.queue_of_eq hd]
        rw [World.queue_of_eq hf] at h
        exact (List.mem_erase_of_ne hne).2 h
    · have hd2 := ho _ hp
      cases hg : s.deref e.2 with
      | none => rw [World.queue_of_none hg] at h; simp at h
      | some g =>
        rw [hg] at hd2
        rw [World.queue_of_eq hd2]
        rw [World.queue_of_eq hg] at h
        exact (List.mem_erase_of_ne hne).2 h
  · exact Or.inr h

/-- Every step keeps every live wait record queued on its futex or notified. -/
theorem qn_step (s s' : World) (hs : s.wf) (hq : s.queued_or_notified)
    (h : futex_step s s') : s'.queued_or_notified := by
  cases h with
  | guest_store _ mem_ptr user_get_timespec => exact hq
  | wait_fail current uaddr val _ _ _ hput =>
    simp only [futex_put, futex_get] at hput
    rw [futex_get_put current uaddr s hs] at hput
    simp only [Option.some.injEq] at hput
    rw [← hput]
    exact hq
  | wait_enqueue current wait uaddr val _ hfresh hroom _ =>
    exact qn_enqueue current uaddr wait s hq
  | wait_complete wait futex _ s1 _ h1 h2 =>
    exact qn_wait_complete wait futex s s1 s' hs hq h1 h2
  | wake current uaddr wake_max ret _ _ hw =>
    exact qn_wake current _ uaddr wake_max 0 0 s hs hq (by decide) ret s' hw
  | requeue current uaddr wake_max requeue_max requeue_addr ret _ _ hr =>
    by_cases hne : requeue_addr = uaddr
    · subst hne
      exact qn_requeue_same current _ wake_max requeue_max s hs hq ret s' hr
    · exact qn_requeue_other current uaddr wake_max requeue_max requeue_addr s hs hq hne ret
        s' hr

theorem reachable_queued_or_notified (s : World) (h : reachable s) :
    s.queued_or_notified := by
  induction h with
  | empty mem_ptr user_get_timespec =>
    intro e he
    simp [World.empty, World.of_table] at he
  | step s s' hr hstep ih => exact qn_step s s' (reachable_wf s hr) ih hstep

/-! ## Invariants of the futex table -/

theorem reachable_ex_enqueued : reachable ex_enqueued :=
  reachable.step _ _ (reachable.empty _ _)
    (futex_step.wait_enqueue ex_task 1 16 0 ex_empty (by decide) (by decide) rfl)

theorem World.wf.queued_once {s : World} (h : s.wf) {w : Nat} {p r : futex_ptr}
    (hw : (w, p) ∈ s.waits) (hr : w ∈ s.queue_of r) : r = p :=
  h.waits_unique (h.mem_queue_of hr) hw

/-- Taking a reference and dropping it again leaves the table as it was, also
between the statements of a critical section: it is enough that the count of
the futex, if there is one, is positive and does not wrap. -/
theorem futex_get_put_bounded (current : task) (addr : Nat) (s : World)
    (hb : ∀ f, s.deref (current.mem, addr) = some f → 0 < f.refcount ∧ f.refcount + 1 < 2 ^ 32) :
    futex_put_unlocked (current.mem, addr) (futex_get_unlocked current addr s).2 = some s := by
  cases hf : s.deref (current.mem, addr) with
  | none =>
    rw [futex_get_unlocked_new current addr s hf]
    have hd : World.deref { s with futex_hash := (Function.update s.futex_hash
        (futex_hash_index addr current.mem)
        ({ refcount := 1, mem := current.mem, addr := addr, queue := [] } ::
          s.futex_hash (futex_hash_index addr current.mem))) } (current.mem, addr)
        = some { refcount := 1, mem := current.mem, addr := addr, queue := [] } := by
      simp [World.deref, List.find?, futex.is]
    have e0 : ((1 : Nat) + 2 ^ 32 - 1) % 2 ^ 32 = 0 := by norm_num
    rw [futex_put_unlocked_free _ _ hd e0 rfl]
    simp [chain_remove, futex.is]
  | some f =>
    rw [futex_get_unlocked_found current addr s hf]
    obtain ⟨hr1, hr2⟩ := hb f hf
    have hd := World.deref_modify_self s
      (keeps_key_refcount (fun f => (f.refcount + 1) % 2 ^ 32)) (current.mem, addr)
    rw [hf] at hd
    simp only [Option.map_some'] at hd
    have e1 : ((f.refcount + 1) % 2 ^ 32 + 2 ^ 32 - 1) % 2 ^ 32 = f.refcount := by omega
    rw [futex_put_unlocked_keep _ _ hd (by simp only []; omega)]
    simp only [e1, World.modify, Function.update_same, Function.update_idem]
    rw [chain_modify_twice _ _ _ (keeps_key_refcount _),
      chain_modify_fixed _ _ _ f hf (by simp), Function.update_eq_self]

theorem queue_of_get (current : task) (addr : Nat) (s : World) (r : futex_ptr)
    (h : s.refcount_of (current.mem, addr) + 1 < 2 ^ 32) :
    (futex_get_unlocked current addr s).2.queue_of r = s.queue_of r := by
  by_cases hr : r = (current.mem, addr)
  · subst hr
    rw [World.queue_of_eq (World.deref_get_obs current addr s h)]
  · exact World.queue_of_congr (World.deref_get_other current addr s hr)

theorem refcount_of_get (current : task) (addr : Nat) (s : World)
    (h : s.refcount_of (current.mem, addr) + 1 < 2 ^ 32) :
    (futex_get_unlocked current addr s).2.refcount_of (current.mem, addr)
      = s.refcount_of (current.mem, addr) + 1 := by
  rw [World.refcount_of_eq (World.deref_get_obs current addr s h)]

theorem wake_loop_empty (p : futex_ptr) (wake_max : Nat) (s : World) (h : s.queue_of p = []) :
    wake_loop p wake_max (wake_max + 1) (list_first_entry (s.queue_of p)) 0 s = some (0, s) := by
  rw [h]; rfl

theorem requeue_loop_empty (p p2 : futex_ptr) (requeue_max : Nat) (s : World)
    (h : s.queue_of p = []) :
    requeue_loop p p2 requeue_max (requeue_max + 1) (list_first_entry (s.queue_of p)) 0 s
      = some (0, s) := by
  rw [h]; rfl

/-- A wake on an address on whose queue nobody waits leaves the state as it
was and returns 0. -/
theorem wake_no_waiters (current : task) (op : Int)
    (uaddr wake_max requeue_max requeue_addr : Nat) (s : World) (hs : s.wf)
    (hop : op ≠ (FUTEX_REQUEUE_ : Int)) (hq : s.queue_of (current.mem, uaddr) = []) :
    futex_wakelike current op uaddr wake_max requeue_max requeue_addr s = some (0, s) := by
  have hb := hs.refcount_of_le (current.mem, uaddr)
  have hq1 : (futex_get_unlocked current uaddr s).2.queue_of (current.mem, uaddr) = [] := by
    rw [queue_of_get current uaddr s _ (by omega), hq]
  have := futex_wakelike_unfold_wake current op uaddr wake_max requeue_max requeue_addr s
    _ _ s 0 hop (futex_get_unlocked_eq current uaddr s)
    (wake_loop_empty _ wake_max _ hq1) (futex_get_put current uaddr s hs)
  rw [this]
  rfl

/-- A requeue from an address on whose queue nobody waits leaves the state
as it was and returns 0, whatever the destination. -/
theorem requeue_no_waiters (current : task) (uaddr wake_max requeue_max requeue_addr : Nat)
    (s : World) (hs : s.wf) (hq : s.queue_of (current.mem, uaddr) = []) :
    futex_wakelike current (FUTEX_REQUEUE_ : Int) uaddr wake_max requeue_max requeue_addr s
      = some (0, s) := by
  have hb := hs.refcount_of_le (current.mem, uaddr)
  have hb2 := hs.refcount_of_le (current.mem, requeue_addr)
  have hq1 : (futex_get_unlocked current uaddr s).2.queue_of (current.mem, uaddr) = [] := by
    rw [queue_of_get current uaddr s _ (by omega), hq]
  have hr1 : (futex_get_unlocked current uaddr s).2.refcount_of (current.mem, requeue_addr)
      ≤ 32769 := by
    by_cases he : requeue_addr = uaddr
    · subst he
      rw [refcount_of_get current _ s (by omega)]
      omega
    · have hne : (current.mem, requeue_addr) ≠ (current.mem, uaddr) := fun e =>
        he (Prod.ext_iff.1 e).2
      rw [World.refcount_of_congr (World.deref_get_other current uaddr s hne)]
      omega
  have hq3 : (futex_get_unlocked current requeue_addr
      (futex_get_unlocked current uaddr s).2).2.queue_of (current.mem, uaddr) = [] := by
    rw [queue_of_get current requeue_addr _ _ (by omega), hq1]
  have hput2 : futex_put_unlocked (current.mem, requeue_addr)
      (futex_get_unlocked current requeue_addr (futex_get_unlocked current uaddr s).2).2
      = some (futex_get_unlocked current uaddr s).2 := by
    apply futex_get_put_bounded
    intro f hf
    have e := World.refcount_of_eq hf
    by_cases he : requeue_addr = uaddr
    · subst he
      rw [refcount_of_get current _ s (by omega)] at e
      omega
    · have hne : (current.mem, requeue_addr) ≠ (current.mem, uaddr) := fun e =>
        he (Prod.ext_iff.1 e).2
      rw [World.deref_get_other current uaddr s hne] at hf
      have := hs.refcount_pos_of hf
      omega
  have := futex_wakelike_unfold_requeue current uaddr wake_max requeue_max requeue_addr s
    _ _ _ _ _ s 0 0 (futex_get_unlocked_eq current uaddr s)
    (wake_loop_empty _ wake_max _ hq1)
    (futex_get_unlocked_eq current requeue_addr _)
    (requeue_loop_empty _ _ requeue_max _ hq3) hput2 (futex_get_put current uaddr s hs)
  rw [this]
  rfl

/-- Every call of `futex_wakelike` on a well-formed state returns: none of
its assertions fails. -/
theorem futex_wakelike_returns (current : task) (op : Int)
    (uaddr wake_max requeue_max requeue_addr : Nat) (s : World) (hs : s.wf) :
    ∃ ret s', futex_wakelike current op uaddr wake_max requeue_max requeue_addr s
      = some (ret, s') := by
  by_cases hop : op = (FUTEX_REQUEUE_ : Int)
  · subst hop
    by_cases hne : requeue_addr = uaddr
    · subst hne
      obtain ⟨s', n, q', h1, _⟩ :=
        futex_wakelike_requeue_same_spec current _ wake_max requeue_max s hs _ _ rfl rfl
      exact ⟨_, s', h1⟩
    · obtain ⟨s', h1, _⟩ :=
        futex_wakelike_requeue_spec current uaddr wake_max requeue_max requeue_addr s hs hne
          _ _ _ _ rfl rfl rfl rfl
      exact ⟨_, s', h1⟩
  · obtain ⟨s', h1, _⟩ :=
      futex_wakelike_wake_spec current op uaddr wake_max requeue_max requeue_addr s hs hop
    exact ⟨_, s', h1⟩

/-- C22: refcount soundness in every reachable state.  A pointer finds a futex
in the table exactly when the refcount behind it is at least 1; the refcount
is the number of outstanding wait records whose back pointer is that futex;
every futex record on a chain has a refcount of at least 1, equal to that
number, and some outstanding wait pointing to it.  No assertion fails: every
`futex_wakelike`, so every wake and requeue, returns, the completion of every
outstanding wait returns, and a `futex_get` followed by `futex_put` returns
the state it started from.  A wake or a requeue on an address on whose queue
nobody waits returns 0 and leaves the state exactly as it was. -/
theorem refcount_soundness (s : World) (h : reachable s) :
    (∀ p, (s.deref p).isSome = true ↔ 1 ≤ s.refcount_of p)
    ∧ (∀ p, s.refcount_of p = (s.waits.filter (fun e => decide (e.2 = p))).length)
    ∧ (∀ b f, f ∈ s.futex_hash b →
        1 ≤ f.refcount
        ∧ f.refcount = (s.waits.filter (fun e => decide (e.2 = (f.mem, f.addr)))).length
        ∧ ∃ w, (w, (f.mem, f.addr)) ∈ s.waits)
    ∧ (∀ (current : task) (op : Int) (uaddr wake_max requeue_max requeue_addr : Nat),
        ∃ ret s', futex_wakelike current op uaddr wake_max requeue_max requeue_addr s
          = some (ret, s'))
    ∧ (∀ wait p, (wait, p) ∈ s.waits →
        ∃ s1 s', futex_wait_resume wait s = some (p, s1) ∧ futex_put p s1 = some s')
    ∧ (∀ (current : task) (uaddr : Nat),
        futex_put (current.mem, uaddr) (futex_get current uaddr s).2 = some s)
    ∧ (∀ (current : task) (uaddr wake_max : Nat), s.queue_of (current.mem, uaddr) = [] →
        futex_wake current uaddr wake_max s = some (0, s))
    ∧ (∀ (current : task) (uaddr wake_max requeue_max requeue_addr : Nat),
        s.queue_of (current.mem, uaddr) = [] →
        futex_wakelike current (FUTEX_REQUEUE_ : Int) uaddr wake_max requeue_max requeue_addr s
          = some (0, s)) := by
  have hs := reachable_wf s h
  refine ⟨fun p => hs.isSome_iff p, fun p => hs.refcount_of_count p, ?_,
    fun current op uaddr wake_max requeue_max requeue_addr =>
      futex_wakelike_returns current op uaddr wake_max requeue_max requeue_addr s hs,
    ?_, fun current uaddr => futex_get_put current uaddr s hs,
    fun current uaddr wake_max hq =>
      wake_no_waiters current _ uaddr wake_max 0 0 s hs (by decide) hq,
    fun current uaddr wake_max requeue_max requeue_addr hq =>
      requeue_no_waiters current uaddr wake_max requeue_max requeue_addr s hs hq⟩
  · intro b f hf
    have h1 := hs.refcount_pos b f hf
    have h2 := hs.refcount b f hf
    refine ⟨h1, h2, ?_⟩
    rw [h2] at h1
    obtain ⟨e, he⟩ := List.exists_mem_of_length_pos h1
    rw [List.mem_filter] at he
    have he2 : e.2 = (f.mem, f.addr) := by simpa using he.2
    exact ⟨e.1, by rw [← he2]; exact he.1⟩
  · intro wait p hw
    exact futex_wait_resume_put wait s hs p (mem_lookup _ _ _ hs.waits_nodup hw)

/-- The instance of `refcount_soundness` for the state in which `ex_task` is
blocked on the futex at address 16: that futex has refcount 1, the futex at
address 32 does not exist, and a wake on address 32 changes nothing. -/
theorem refcount_soundness_witness :
    reachable ex_enqueued
      ∧ ex_enqueued.refcount_of (ex_task.mem, 16) = 1
      ∧ ((ex_enqueued.deref (ex_task.mem, 16)).isSome = true
          ↔ 1 ≤ ex_enqueued.refcount_of (ex_task.mem, 16))
      ∧ ((ex_enqueued.deref (ex_task.mem, 32)).isSome = true
          ↔ 1 ≤ ex_enqueued.refcount_of (ex_task.mem, 32))
      ∧ ex_enqueued.refcount_of (ex_task.mem, 32) = 0
      ∧ futex_wake ex_task 32 7 ex_enqueued = some (0, ex_enqueued) :=
  ⟨reachable_ex_enqueued, by decide,
    (refcount_soundness ex_enqueued reachable_ex_enqueued).1 _,
    (refcount_soundness ex_enqueued reachable_ex_enqueued).1 _, by decide,
    (refcount_soundness ex_enqueued reachable_ex_enqueued).2.2.2.2.2.2.1 ex_task 32 7
      (by decide)⟩

/-- C23, as stated, fails for a requeue onto the same address: in the
reachable state `ex_enqueued`, `requeue(16, 0, 1, 16)` moves the one waiter
(it returns 0 woken plus 1 requeued) and leaves the refcount of the futex at
1, where a decrease by the number of moved waits would give 0. -/
theorem requeue_transfer_counterexample :
    reachable ex_enqueued
      ∧ ex_enqueued.refcount_of (ex_task.mem, 16) = 1
      ∧ (futex_wakelike ex_task (FUTEX_REQUEUE_ : Int) 16 0 1 16 ex_enqueued).map
          (fun r => (r.1, r.2.queue_of (ex_task.mem, 16), r.2.refcount_of (ex_task.mem, 16)))
        = some (1, [1], 1) :=
  ⟨reachable_ex_enqueued, by decide, by decide⟩

/-- C23, amended: in every reachable state every requeue returns, so the
assertion `futex->refcount > 1` holds each time a wait is moved.  When the
destination address differs from the source, with `k = min(w, len)` woken and
`m = min(r, len - k)` moved, the call returns `k + m`, the refcount behind the
source has decreased by `m` and the one behind the destination has increased
by `m` (a futex that is not in the table counting as 0), the moved waits are
at the tail of the destination queue and their back pointers name the
destination.  When the destination is the source, the refcount is
unchanged. -/
theorem requeue_refcount_transfer (s : World) (h : reachable s) (current : task)
    (uaddr wake_max requeue_max requeue_addr : Nat) :
    ∃ ret s',
      futex_wakelike current (FUTEX_REQUEUE_ : Int) uaddr wake_max requeue_max requeue_addr s
        = some (ret, s')
      ∧ (requeue_addr ≠ uaddr →
          ret = ((min wake_max (s.queue_of (current.mem, uaddr)).length
              + min requeue_max ((s.queue_of (current.mem, uaddr)).length
                - min wake_max (s.queue_of (current.mem, uaddr)).length) : Nat) : Int)
          ∧ min requeue_max ((s.queue_of (current.mem, uaddr)).length
              - min wake_max (s.queue_of (current.mem, uaddr)).length)
            ≤ s.refcount_of (current.mem, uaddr)
          ∧ s'.refcount_of (current.mem, uaddr) = s.refcount_of (current.mem, uaddr)
              - min requeue_max ((s.queue_of (current.mem, uaddr)).length
                - min wake_max (s.queue_of (current.mem, uaddr)).length)
          ∧ s'.refcount_of (current.mem, requeue_addr)
              = s.refcount_of (current.mem, requeue_addr)
                + min requeue_max ((s.queue_of (current.mem, uaddr)).length
                  - min wake_max (s.queue_of (current.mem, uaddr)).length)
          ∧ s'.queue_of (current.mem, requeue_addr)
              = s.queue_of (current.mem, requeue_addr)
                ++ ((s.queue_of (current.mem, uaddr)).drop
                    (min wake_max (s.queue_of (current.mem, uaddr)).length)).take
                  (min requeue_max ((s.queue_of (current.mem, uaddr)).length
                    - min wake_max (s.queue_of (current.mem, uaddr)).length))
          ∧ (((s.queue_of (current.mem, uaddr)).drop
                (min wake_max (s.queue_of (current.mem, uaddr)).length)).take
              (min requeue_max ((s.queue_of (current.mem, uaddr)).length
                - min wake_max (s.queue_of (current.mem, uaddr)).length))).length
              = min requeue_max ((s.queue_of (current.mem, uaddr)).length
                - min wake_max (s.queue_of (current.mem, uaddr)).length)
          ∧ ∀ x ∈ ((s.queue_of (current.mem, uaddr)).drop
                (min wake_max (s.queue_of (current.mem, uaddr)).length)).take
              (min requeue_max ((s.queue_of (current.mem, uaddr)).length
                - min wake_max (s.queue_of (current.mem, uaddr)).length)),
              s'.wait_futex x = some (current.mem, requeue_addr))
      ∧ (requeue_addr = uaddr →
          s'.refcount_of (current.mem, uaddr) = s.refcount_of (current.mem, uaddr)) := by
  have hs := reachable_wf s h
  by_cases hne : requeue_addr = uaddr
  · subst hne
    obtain ⟨s', n, q', h1, _, _, _, _, hr, _⟩ :=
      futex_wakelike_requeue_same_spec current _ wake_max requeue_max s hs _ _ rfl rfl
    exact ⟨_, s', h1, fun hc => absurd rfl hc, fun _ => hr⟩
  · obtain ⟨s', h1, _, _, hr1, _, hq2, hr2, _, _, _, hw, _, _⟩ :=
      futex_wakelike_requeue_spec current uaddr wake_max requeue_max requeue_addr s hs hne
        _ _ _ _ rfl rfl rfl rfl
    obtain ⟨mn, ml, mq, _⟩ := requeue_moved_facts s hs (current.mem, uaddr)
      (min wake_max (s.queue_of (current.mem, uaddr)).length)
      (min requeue_max ((s.queue_of (current.mem, uaddr)).length
        - min wake_max (s.queue_of (current.mem, uaddr)).length)) (Nat.min_le_right _ _)
    refine ⟨_, s', h1, fun _ => ⟨rfl, ?_, hr1, hr2, hq2, ml, ?_⟩, fun hc => absurd hc hne⟩
    · have := hs.queue_of_le (current.mem, uaddr)
      omega
    · intro x hx
      have hmem : (x, (current.mem, uaddr)) ∈ s.waits := hs.mem_queue_of (mq x hx)
      simp only [World.wait_futex]
      rw [hw, lookup_map_set, mem_lookup _ _ _ hs.waits_nodup hmem]
      simp only [Option.map_some', hx, if_true]

/-- The instance of `requeue_refcount_transfer` for `requeue(16, 0, 1, 32)` in
the state `ex_enqueued`: the waiter moves to the new futex at address 32,
whose refcount becomes 1, and the futex at address 16 is left with none. -/
theorem requeue_refcount_transfer_witness :
    reachable ex_enqueued
      ∧ (futex_wakelike ex_task (FUTEX_REQUEUE_ : Int) 16 0 1 32 ex_enqueued).map
          (fun r => (r.1, r.2.refcount_of (ex_task.mem, 16), r.2.refcount_of (ex_task.mem, 32),
            r.2.queue_of (ex_task.mem, 32)))
        = some (1, 0, 1, [1])
      ∧ ∃ ret s', futex_wakelike ex_task (FUTEX_REQUEUE_ : Int) 16 0 1 32 ex_enqueued
          = some (ret, s')
        ∧ s'.refcount_of (ex_task.mem, 32) = ex_enqueued.refcount_of (ex_task.mem, 32)
            + min 1 ((ex_enqueued.queue_of (ex_task.mem, 16)).length
              - min 0 (ex_enqueued.queue_of (ex_task.mem, 16)).length) := by
  refine ⟨reachable_ex_enqueued, by decide, ?_⟩
  obtain ⟨ret, s', h1, h2, _⟩ :=
    requeue_refcount_transfer ex_enqueued reachable_ex_enqueued ex_task 16 0 1 32
  exact ⟨ret, s', h1, (h2 (by decide)).2.2.2.1⟩

theorem reachable_ex_enqueued2 : reachable ex_enqueued2 :=
  reachable.step _ _ reachable_ex_enqueued
    (futex_step.wait_enqueue ex_task2 2 16 0 ex_enqueued (by decide) (by decide) rfl)

/-- What a requeue onto the same address keeps, in every well-formed state:
the call returns (no assertion fails) after `n` moves, at most `requeue_max`,
with the number of woken waiters plus `n`; the queue on the address holds
exactly the non-woken waiters, each once; the refcount of the futex and the
back pointers of all wait records are unchanged, no other futex is touched,
and the table is well-formed. -/
theorem requeue_same_keeps (s : World) (hs : s.wf) (current : task)
    (uaddr wake_max requeue_max : Nat) :
    ∃ (ret : Int) (s' : World) (n : Nat),
      futex_wakelike current (FUTEX_REQUEUE_ : Int) uaddr wake_max requeue_max uaddr s
        = some (ret, s')
      ∧ ret = int_of_unsigned
          ((min wake_max (s.queue_of (current.mem, uaddr)).length + n) % 2 ^ 32)
      ∧ n ≤ requeue_max
      ∧ (s'.queue_of (current.mem, uaddr)).Perm
          ((s.queue_of (current.mem, uaddr)).drop
            (min wake_max (s.queue_of (current.mem, uaddr)).length))
      ∧ (s'.queue_of (current.mem, uaddr)).Nodup
      ∧ s'.refcount_of (current.mem, uaddr) = s.refcount_of (current.mem, uaddr)
      ∧ s'.waits = s.waits
      ∧ (∀ r, r ≠ (current.mem, uaddr) → s'.deref r = s.deref r)
      ∧ s'.notified = s.notified
          ++ (s.queue_of (current.mem, uaddr)).take
            (min wake_max (s.queue_of (current.mem, uaddr)).length)
      ∧ s'.wf := by
  obtain ⟨s', n, q', h1, hn, _, hq, hperm, hr, _, ho, hnot, hw, _, _⟩ :=
    futex_wakelike_requeue_same_spec current uaddr wake_max requeue_max s hs _ _ rfl rfl
  have hwf := wf_requeue_same current uaddr wake_max requeue_max s hs _ s' h1
  refine ⟨_, s', n, h1, rfl, hn, ?_, hwf.queue_of_nodup _, hr, hw, ho, hnot, hwf⟩
  rw [hq]; exact hperm

/-! ## The requeue loop on its own queue -/

/-- The requeue loop whose destination is the source futex, with two waiters
or more on the queue and the cursor on the first: every pass moves the first
waiter to the tail and leaves the cursor on the new first waiter, so the loop
runs until the budget `requeue_max` is used up and rotates the queue. -/
theorem requeue_loop_rotate (p : futex_ptr) (requeue_max : Nat) :
    ∀ (fuel requeued x y : Nat) (rest : List Nat) (s : World) (f : futex),
      s.deref p = some f → f.queue = x :: y :: rest → f.queue.Nodup →
      1 < f.refcount → f.refcount < 2 ^ 32 → requeued ≤ requeue_max →
      requeue_max - requeued < fuel →
      ∃ s', requeue_loop p p requeue_max fuel (some x) requeued s = some (requeue_max, s')
        ∧ s'.deref p
          = some { f with queue := (x :: y :: rest).rotate (requeue_max - requeued) } := by
  intro fuel
  induction fuel with
  | zero => intro requeued x y rest s f _ _ _ _ _ _ hfuel; omega
  | succ fuel ih =>
    intro requeued x y rest s f hf hq hnd hr1 hr2 hle hfuel
    by_cases hw : requeued ≥ requeue_max
    · have he : requeued = requeue_max := by omega
      refine ⟨s, ?_, ?_⟩
      · simp [requeue_loop, hw, he]
      · rw [he, Nat.sub_self, List.rotate_zero, ← hq]
        exact hf
    · obtain ⟨b1, _, b3⟩ := requeue_body_same p x s f hf (by omega) hr2
      have hstep := requeue_loop_step p p requeue_max fuel x requeued s hw (by rw [b3]; omega)
      rw [World.queue_of_eq hf, hq, list_next_entry_head] at hstep
      have hq' : f.queue.erase x ++ [x] = y :: (rest ++ [x]) := by
        rw [hq, List.erase_cons_head]; rfl
      rw [hq'] at b1
      have hperm : (y :: (rest ++ [x])).Perm f.queue := by
        rw [hq]
        have : (y :: (rest ++ [x])) = (y :: rest) ++ [x] := rfl
        rw [this]
        exact List.perm_append_comm
      have hnd' : (y :: (rest ++ [x])).Nodup := hperm.nodup_iff.2 hnd
      have hrot : (x :: y :: rest).rotate (requeue_max - requeued)
          = (y :: (rest ++ [x])).rotate (requeue_max - (requeued + 1)) := by
        have : requeue_max - requeued = (requeue_max - (requeued + 1)) + 1 := by omega
        rw [this, List.rotate_cons_succ]
        rfl
      cases rest with
      | nil =>
        obtain ⟨s', h1, h2⟩ := ih (requeued + 1) y x [] (requeue_body p p x s)
          { f with queue := y :: ([] ++ [x]) } b1 rfl hnd' hr1 hr2 (by omega) (by omega)
        refine ⟨s', ?_, ?_⟩
        · rw [hstep]; exact h1
        · rw [hrot]; exact h2
      | cons z rest =>
        obtain ⟨s', h1, h2⟩ := ih (requeued + 1) y z (rest ++ [x]) (requeue_body p p x s)
          { f with queue := y :: (z :: rest ++ [x]) } b1 rfl hnd' hr1 hr2 (by omega) (by omega)
        refine ⟨s', ?_, ?_⟩
        · rw [hstep]; exact h1
        · rw [hrot]; exact h2

/-- A requeue onto the same address with two or more waiters left after the
wake phase: the loop makes `requeue_max` moves and the call returns the number
of woken waiters plus `requeue_max`, whatever the number of waiters; the queue
is left rotated by `requeue_max`. -/
theorem futex_wakelike_requeue_same_spins (current : task)
    (uaddr wake_max requeue_max : Nat) (s : World) (hs : s.wf) (q : List Nat) (k : Nat)
    (hq : q = s.queue_of (current.mem, uaddr)) (hk : k = min wake_max q.length)
    (hL : 2 ≤ q.length - k) :
    ∃ s', futex_wakelike current (FUTEX_REQUEUE_ : Int) uaddr wake_max requeue_max uaddr s
        = some (int_of_unsigned ((k + requeue_max) % 2 ^ 32), s')
      ∧ s'.queue_of (current.mem, uaddr) = (q.drop k).rotate requeue_max := by
  have hR := hs.refcount_of_le (current.mem, uaddr)
  have hqR := hs.queue_of_le (current.mem, uaddr)
  rw [← hq] at hqR
  have g1 := World.deref_get_obs current uaddr s (by omega)
  have g3 := World.chains_ok_get current uaddr s hs.chains_ok
  have g4 := futex_get_unlocked_eq current uaddr s
  generalize (futex_get_unlocked current uaddr s).2 = s1 at g1 g3 g4
  rw [← hq] at g1
  have hq1 : s1.queue_of (current.mem, uaddr) = q := by rw [World.queue_of_eq g1]
  obtain ⟨s2, l1, l2, l3, _⟩ :=
    wake_loop_spec (current.mem, uaddr) wake_max q 0 (wake_max + 1) s1 hq1 g3 (by simp)
  simp only [Nat.sub_zero, Nat.zero_add, ← hk] at l1 l3
  have l1' : wake_loop (current.mem, uaddr) wake_max (wake_max + 1)
      (list_first_entry (s1.queue_of (current.mem, uaddr))) 0 s1 = some (k, s2) := by
    rw [hq1]; exact l1
  have d2 : s2.deref (current.mem, uaddr)
      = some { refcount := s.refcount_of (current.mem, uaddr) + 1, mem := current.mem,
               addr := uaddr, queue := q.drop k } := by
    rw [l3, g1]; simp [diff_take_eq_drop]
  have a1 := World.deref_get_obs current uaddr s2
    (by rw [World.refcount_of_eq d2]; simp only []; omega)
  have a3 := World.chains_ok_get current uaddr s2 l2
  have a4 := futex_get_unlocked_eq current uaddr s2
  generalize (futex_get_unlocked current uaddr s2).2 = s3 at a1 a3 a4
  rw [World.refcount_of_eq d2, World.queue_of_eq d2] at a1
  simp only [] at a1
  have hnd : (q.drop k).Nodup := by
    rw [hq]; exact (hs.queue_of_nodup _).sublist (List.drop_sublist _ _)
  -- the queue has two entries at least
  obtain ⟨x, y, rest, hxy⟩ : ∃ x y rest, q.drop k = x :: y :: rest := by
    have hlen : 2 ≤ (q.drop k).length := by rw [List.length_drop]; exact hL
    cases h1 : q.drop k with
    | nil => rw [h1] at hlen; simp at hlen
    | cons x t =>
      cases t with
      | nil => rw [h1] at hlen; simp at hlen
      | cons y rest => exact ⟨x, y, rest, rfl⟩
  obtain ⟨s4, r1, r5⟩ :=
    requeue_loop_rotate (current.mem, uaddr) requeue_max (requeue_max + 1) 0 x y rest s3 _ a1
      hxy (by simp only []; exact hnd) (by simp only []; omega) (by simp only []; omega)
      (Nat.zero_le _) (by omega)
  simp only [Nat.sub_zero] at r5
  rw [← hxy] at r5
  obtain ⟨s4', q', ws, e1, _, _, r4, e5, r6, _⟩ :=
    requeue_loop_same (current.mem, uaddr) requeue_max (requeue_max + 1) 0
      (list_first_entry (q.drop k)) s3 _ a1 hnd
      (fun w hw => List.mem_of_mem_head? hw) a3 (by simp only []; omega)
      (by simp only []; omega) (by omega)
  have hfirst : list_first_entry (q.drop k) = some x := by rw [hxy]; rfl
  rw [hfirst, r1] at e1
  simp only [Option.some.injEq, Prod.mk.injEq] at e1
  obtain ⟨_, rfl⟩ := e1
  have r1' : requeue_loop (current.mem, uaddr) (current.mem, uaddr) requeue_max
      (requeue_max + 1) (list_first_entry (s3.queue_of (current.mem, uaddr))) 0 s3
        = some (requeue_max, s4) := by
    rw [World.queue_of_eq a1]
    simp only []
    rw [hfirst]; exact r1
  have hlenrot : ((q.drop k).rotate requeue_max).length = q.length - k := by
    rw [List.length_rotate, List.length_drop]
  obtain ⟨s5, b1, b2, b3, b4, b5, _⟩ :=
    futex_put_unlocked_obs (current.mem, uaddr) s4 _ r5 r4 (by simp)
      (by simp only []; omega) (by simp only []; omega)
  simp only [] at b3 b4
  have d5 := World.deref_of_obs (b5.2 (by rw [b4]; omega))
  rw [b3, b4] at d5
  obtain ⟨s6, c1, _, c3, _⟩ :=
    futex_put_unlocked_obs (current.mem, uaddr) s5 _ d5 b2 (by simp only []; omega)
      (by simp only []; omega)
      (by
        simp only []
        intro h1
        omega)
  simp only [] at c3
  refine ⟨s6, ?_, c3⟩
  rw [futex_wakelike_unfold_requeue current uaddr wake_max requeue_max uaddr
    s s1 s2 s3 s4 s5 s6 k requeue_max g4 l1' a4 r1' b1 c1]

/-- C26 does not hold of the code: the requeue loop walks the source queue
with `list_for_each_entry_safe` while it appends to the same queue, so with
two or more waiters left its cursor never comes back to the list head and the
loop ends only at `requeue_max`.  In the reachable state `ex_enqueued2`, with
the two waiters 1 and 2 on address 16, `requeue(16, 0, 5, 16)` returns 5 and
leaves the queue `[2, 1]`; with the five waiters of `ex_world`,
`requeue(16, 0, 10, 16)` returns 10 and `requeue(16, 1, 2, 16)` leaves the
queue `[4, 5, 2, 3]`.  In every well-formed state with two or more waiters
left after the wake phase the call makes `requeue_max` moves, returns the
number of woken waiters plus `requeue_max` and leaves the queue rotated by
`requeue_max`.  What holds in every well-formed state is what
`requeue_same_keeps` states: the call returns, after at most `requeue_max`
moves, with the same waiters queued and the refcount unchanged. -/
theorem requeue_same_address :
    reachable ex_enqueued2
    ∧ ex_enqueued2.queue_of (ex_task.mem, 16) = [1, 2]
    ∧ (futex_wakelike ex_task (FUTEX_REQUEUE_ : Int) 16 0 5 16 ex_enqueued2).map
        (fun r => (r.1, r.2.queue_of (ex_task.mem, 16), r.2.refcount_of (ex_task.mem, 16)))
      = some (5, [2, 1], 2)
    ∧ ex_world.queue_of (ex_task.mem, 16) = [1, 2, 3, 4, 5]
    ∧ (futex_wakelike ex_task (FUTEX_REQUEUE_ : Int) 16 0 10 16 ex_world).map
        (fun r => (r.1, r.2.queue_of (ex_task.mem, 16), r.2.refcount_of (ex_task.mem, 16)))
      = some (10, [1, 2, 3, 4, 5], 5)
    ∧ (futex_wakelike ex_task (FUTEX_REQUEUE_ : Int) 16 1 2 16 ex_world).map
        (fun r => (r.1, r.2.queue_of (ex_task.mem, 16), r.2.refcount_of (ex_task.mem, 16)))
      = some (3, [4, 5, 2, 3], 5)
    ∧ (∀ (s : World), s.wf → ∀ (current : task) (uaddr wake_max requeue_max : Nat),
        ∃ (ret : Int) (s' : World) (n : Nat),
          futex_wakelike current (FUTEX_REQUEUE_ : Int) uaddr wake_max requeue_max uaddr s
            = some (ret, s')
          ∧ ret = int_of_unsigned
              ((min wake_max (s.queue_of (current.mem, uaddr)).length + n) % 2 ^ 32)
          ∧ n ≤ requeue_max
          ∧ (s'.queue_of (current.mem, uaddr)).Perm
              ((s.queue_of (current.mem, uaddr)).drop
                (min wake_max (s.queue_of (current.mem, uaddr)).length))
          ∧ s'.refcount_of (current.mem, uaddr) = s.refcount_of (current.mem, uaddr)
          ∧ s'.waits = s.waits
          ∧ s'.wf)
    ∧ (∀ (s : World), s.wf → ∀ (current : task) (uaddr wake_max requeue_max : Nat),
        2 ≤ (s.queue_of (current.mem, uaddr)).length
            - min wake_max (s.queue_of (current.mem, uaddr)).length →
        ∃ s', futex_wakelike current (FUTEX_REQUEUE_ : Int) uaddr wake_max requeue_max uaddr s
            = some (int_of_unsigned
                ((min wake_max (s.queue_of (current.mem, uaddr)).length + requeue_max)
                  % 2 ^ 32), s')
          ∧ s'.queue_of (current.mem, uaddr)
            = ((s.queue_of (current.mem, uaddr)).drop
                (min wake_max (s.queue_of (current.mem, uaddr)).length)).rotate
              requeue_max) := by
  refine ⟨reachable_ex_enqueued2, by decide, by decide, by decide, by decide, by decide, ?_,
    ?_⟩
  · intro s hs current uaddr wake_max requeue_max
    obtain ⟨ret, s', n, h1, h2, h3, h4, _, h6, h7, _, _, h10⟩ :=
      requeue_same_keeps s hs current uaddr wake_max requeue_max
    exact ⟨ret, s', n, h1, h2, h3, h4, h6, h7, h10⟩
  · intro s hs current uaddr wake_max requeue_max hL
    exact futex_wakelike_requeue_same_spins current uaddr wake_max requeue_max s hs _ _ rfl rfl
      hL

/-! ## The life of a wait record -/

theorem hands_over_refl (s s' : World) (hn : s'.notified = s.notified)
    (hw : s'.waits = s.waits) (hq : ∀ r, s'.queue_of r = s.queue_of r) :
    s.hands_over s' [] := by
  refine ⟨by rw [hn, List.append_nil], ?_, ?_, ?_, ?_⟩
  · intro w h; simp at h
  · intro w h; simp at h
  · intro w p hm _
    exact Or.inr ⟨p, by rw [hw]; exact hm, by rw [hq], fun _ => rfl⟩
  · intro w p hm hfresh
    rw [hw] at hm
    exact absurd (List.mem_map_of_mem Prod.fst hm) hfresh

theorem take_drop_disjoint {l : List Nat} (hl : l.Nodup) (k : Nat) {w : Nat}
    (h1 : w ∈ l.take k) (h2 : w ∈ l.drop k) : False := by
  rw [← List.take_append_drop k l, List.nodup_append] at hl
  exact hl.2.2 h1 h2

theorem mem_drop_of_not_take {l : List Nat} (k : Nat) {w : Nat}
    (h1 : w ∈ l) (h2 : w ∉ l.take k) : w ∈ l.drop k := by
  rw [← List.take_append_drop k l, List.mem_append] at h1
  rcases h1 with h | h
  · exact absurd h h2
  · exact h

/-- A wake, or a requeue onto the same address, that notifies the first `k`
waiters of the queue of `P` and keeps the others queued there. -/
theorem hands_over_wake (s s' : World) (hs : s.wf) (hs' : s'.wf) (P : futex_ptr) (k : Nat)
    (hn : s'.notified = s.notified ++ (s.queue_of P).take k)
    (hw : s'.waits = s.waits)
    (hq : ∀ w, w ∈ s'.queue_of P ↔ w ∈ (s.queue_of P).drop k)
    (ho : ∀ r, r ≠ P → s'.deref r = s.deref r) :
    s.hands_over s' ((s.queue_of P).take k) := by
  refine ⟨hn, ?_, ?_, ?_, ?_⟩
  · intro w h
    have hq1 : w ∈ s.queue_of P := List.mem_of_mem_take h
    have hm := hs.mem_queue_of hq1
    exact ⟨P, hm, hq1, by rw [hw]; exact hm⟩
  · intro w h r hr
    have hm : (w, P) ∈ s'.waits := by
      rw [hw]; exact hs.mem_queue_of (List.mem_of_mem_take h)
    have hrP := hs'.queued_once hm hr
    subst hrP
    exact take_drop_disjoint (hs.queue_of_nodup r) k h ((hq w).1 hr)
  · intro w p hm hnot
    refine Or.inr ⟨p, by rw [hw]; exact hm, ?_, fun _ => rfl⟩
    by_cases hp : p = P
    · subst hp
      rw [hq]
      exact ⟨fun h => List.mem_of_mem_drop h, fun h => mem_drop_of_not_take k h hnot⟩
    · rw [World.queue_of_congr (ho _ hp)]
  · intro w p hm hfresh
    rw [hw] at hm
    exact absurd (List.mem_map_of_mem Prod.fst hm) hfresh

theorem hands_over_enqueue (current : task) (uaddr wait : Nat) (s : World)
    (hfresh : wait ∉ s.waits.map Prod.fst) :
    s.hands_over (futex_wait_enqueue (current.mem, uaddr) wait (futex_get current uaddr s).2)
      [] := by
  obtain ⟨hw, hn, ho⟩ := enqueue_obs current uaddr wait s
  have hqueue := queue_of_enqueue current uaddr wait s
  refine ⟨by rw [hn, List.append_nil], ?_, ?_, ?_, ?_⟩
  · intro w h; simp at h
  · intro w h; simp at h
  · intro w p hm _
    have hne : w ≠ wait := by
      intro h
      subst h
      exact hfresh (List.mem_map_of_mem Prod.fst hm)
    refine Or.inr ⟨p, by rw [hw]; exact List.mem_cons_of_mem _ hm, ?_, fun _ => rfl⟩
    by_cases hp : p = (current.mem, uaddr)
    · subst hp
      rw [hqueue, List.mem_append, List.mem_singleton]
      exact ⟨fun h => h.resolve_right hne, fun h => Or.inl h⟩
    · rw [World.queue_of_congr (ho _ hp)]
  · intro w p hm hnew
    rw [hw] at hm
    rcases List.mem_cons.1 hm with h | h
    · rw [Prod.ext_iff] at h
      obtain ⟨h1, h2⟩ := h
      simp only at h1 h2
      subst h1 h2
      rw [hqueue]
      exact List.mem_append_right _ (List.mem_singleton_self _)
    · exact absurd (List.mem_map_of_mem Prod.fst h) hnew

theorem hands_over_wait_complete (wait : Nat) (p : futex_ptr) (s s1 s' : World) (hs : s.wf)
    (h1 : futex_wait_resume wait s = some (p, s1)) (h2 : futex_put p s1 = some s') :
    s.hands_over s' [] := by
  have hs' := wf_wait_complete wait p s s1 s' hs h1 h2
  obtain ⟨hmem, hc, ⟨f, hf, hd⟩, ho, hw, hn, _, _⟩ := wait_complete_obs wait p s s1 s' hs h1 h2
  refine ⟨by rw [hn, List.append_nil], ?_, ?_, ?_, ?_⟩
  · intro w h; simp at h
  · intro w h; simp at h
  · intro w r hm _
    by_cases hne : w = wait
    · left
      intro h
      rw [hw, List.mem_map] at h
      obtain ⟨e, he, rfl⟩ := h
      rw [List.mem_filter] at he
      simp [hne] at he
    · have hm' : (w, r) ∈ s'.waits := by
        rw [hw, List.mem_filter]
        exact ⟨hm, by simpa using hne⟩
      have hlive := hs'.waits_live _ hm'
      refine Or.inr ⟨r, hm', ?_, fun _ => rfl⟩
      by_cases hp : r = p
      · subst hp
        simp only at hlive
        rw [hd] at hlive
        by_cases hr1 : f.refcount = 1
        · rw [if_pos hr1] at hlive; simp at hlive
        · rw [if_neg hr1] at hd
          rw [World.queue_of_eq hd, World.queue_of_eq hf]
          exact List.mem_erase_of_ne hne
      · have hd2 := ho _ hp
        cases hg : s.deref r with
        | none =>
          rw [hg] at hd2
          rw [World.queue_of_none hg, World.queue_of_none hd2]
        | some g =>
          rw [hg] at hd2
          rw [World.queue_of_eq hd2, World.queue_of_eq hg]
          exact List.mem_erase_of_ne hne
  · intro w r hm hnew
    rw [hw, List.mem_filter] at hm
    exact absurd (List.mem_map_of_mem Prod.fst hm.1) hnew

theorem hands_over_requeue_other (current : task)
    (uaddr wake_max requeue_max requeue_addr : Nat)
    (s : World) (hs : s.wf) (hne : requeue_addr ≠ uaddr) (ret : Int) (s' : World)
    (h : futex_wakelike current (FUTEX_REQUEUE_ : Int) uaddr wake_max requeue_max requeue_addr s
      = some (ret, s')) :
    s.hands_over s' ((s.queue_of (current.mem, uaddr)).take
      (min wake_max (s.queue_of (current.mem, uaddr)).length)) := by
  have hs' := wf_requeue_other current uaddr wake_max requeue_max requeue_addr s hs hne ret s' h
  obtain ⟨s2, h1, hc, hq1, hr1, hi1, hq2, hr2, hi2, ho, hn, hw, _, _⟩ :=
    futex_wakelike_requeue_spec current uaddr wake_max requeue_max requeue_addr s hs hne
      _ _ _ _ rfl rfl rfl rfl
  rw [h1] at h
  simp only [Option.some.injEq, Prod.mk.injEq] at h
  obtain ⟨_, rfl⟩ := h
  have hnd := hs.queue_of_nodup (current.mem, uaddr)
  generalize hP : (current.mem, uaddr) = P at *
  generalize hD : (current.mem, requeue_addr) = D at *
  generalize hk : min wake_max (s.queue_of P).length = k at *
  generalize hm : min requeue_max ((s.queue_of P).length - k) = m at *
  have hndk : ((s.queue_of P).drop k).Nodup := hnd.sublist (List.drop_sublist _ _)
  have hmv_drop : ∀ w, w ∈ ((s.queue_of P).drop k).take m → w ∈ (s.queue_of P).drop k :=
    fun w hw1 => List.mem_of_mem_take hw1
  have hkeep : ∀ e ∈ s.waits, e.1 ∉ ((s.queue_of P).drop k).take m → e ∈ s2.waits := by
    intro e he hno
    rw [hw, List.mem_map]
    exact ⟨e, he, by simp [hno]⟩
  refine ⟨hn, ?_, ?_, ?_, ?_⟩
  · intro w hwk
    have hq : w ∈ s.queue_of P := List.mem_of_mem_take hwk
    have hmem := hs.mem_queue_of hq
    refine ⟨P, hmem, hq, hkeep _ hmem ?_⟩
    intro hmv
    exact take_drop_disjoint hnd k hwk (hmv_drop w hmv)
  · intro w hwk r hr
    have hq : w ∈ s.queue_of P := List.mem_of_mem_take hwk
    have hmem := hs.mem_queue_of hq
    have hmem' : (w, P) ∈ s2.waits := by
      refine hkeep _ hmem ?_
      intro hmv
      exact take_drop_disjoint hnd k hwk (hmv_drop w hmv)
    have hrP := hs'.queued_once hmem' hr
    subst hrP
    rw [hq1, ← List.drop_drop] at hr
    exact take_drop_disjoint hnd k hwk (List.mem_of_mem_drop hr)
  · intro w p hmem hnot
    right
    by_cases hmv : w ∈ ((s.queue_of P).drop k).take m
    · have hq : w ∈ s.queue_of P := List.mem_of_mem_drop (hmv_drop w hmv)
      have hpP := hs.queued_once hmem hq
      subst hpP
      refine ⟨D, ?_, ?_, ?_⟩
      · rw [hw, List.mem_map]
        exact ⟨(w, P), hmem, by simp [hmv]⟩
      · rw [hq2]
        exact ⟨fun _ => hq, fun _ => List.mem_append_right _ hmv⟩
      · intro hno
        exact absurd hq hno
    · refine ⟨p, hkeep _ hmem hmv, ?_, fun _ => rfl⟩
      by_cases p1 : p = P
      · subst p1
        rw [hq1]
        constructor
        · intro hx
          exact List.mem_of_mem_drop hx
        · intro hx
          have hx1 := mem_drop_of_not_take k hx hnot
          have hx2 := mem_drop_of_not_take m hx1 hmv
          rw [List.drop_drop] at hx2
          exact hx2
      · by_cases p2 : p = D
        · subst p2
          rw [hq2, List.mem_append]
          exact ⟨fun hx => hx.resolve_right hmv, fun hx => Or.inl hx⟩
        · rw [World.queue_of_congr (ho _ p1 p2)]
  · intro w p hmem hnew
    rw [hw, List.mem_map] at hmem
    obtain ⟨e, he, hee⟩ := hmem
    have : e.1 = w := by
      by_cases hmv : e.1 ∈ ((s.queue_of P).drop k).take m
      · rw [if_pos hmv] at hee
        exact (Prod.ext_iff.1 hee).1
      · rw [if_neg hmv] at hee
        rw [hee]
    rw [← this] at hnew
    exact absurd (List.mem_map_of_mem Prod.fst he) hnew

/-- Every step hands the live wait records over as `World.hands_over` says. -/
theorem step_hands_over (s s' : World) (hs : s.wf) (h : futex_step s s') :
    ∃ ns, s.hands_over s' ns := by
  have hs' := wf_step s s' hs h
  cases h with
  | guest_store _ mem_ptr user_get_timespec =>
    exact ⟨[], hands_over_refl _ _ rfl rfl (fun _ => rfl)⟩
  | wait_fail current uaddr val _ _ _ hput =>
    simp only [futex_put, futex_get] at hput
    rw [futex_get_put current uaddr s hs] at hput
    simp only [Option.some.injEq] at hput
    rw [← hput]
    exact ⟨[], hands_over_refl _ _ rfl rfl (fun _ => rfl)⟩
  | wait_enqueue current wait uaddr val _ hfresh hroom _ =>
    exact ⟨[], hands_over_enqueue current uaddr wait s hfresh⟩
  | wait_complete wait futex _ s1 _ h1 h2 =>
    exact ⟨[], hands_over_wait_complete wait futex s s1 s' hs h1 h2⟩
  | wake current uaddr wake_max ret _ _ hwk =>
    obtain ⟨s2, h1, hc, hd, ho, hn, hw, _, _⟩ :=
      futex_wakelike_wake_spec current (FUTEX_WAKE_ : Int) uaddr wake_max 0 0 s hs (by decide)
    have hwk' : futex_wakelike current (FUTEX_WAKE_ : Int) uaddr wake_max 0 0 s
        = some (ret, s') := hwk
    rw [h1] at hwk'
    simp only [Option.some.injEq, Prod.mk.injEq] at hwk'
    obtain ⟨_, rfl⟩ := hwk'
    have hqueue : s2.queue_of (current.mem, uaddr)
        = (s.queue_of (current.mem, uaddr)).drop
            (min wake_max (s.queue_of (current.mem, uaddr)).length) := by
      cases hf : s.deref (current.mem, uaddr) with
      | none =>
        rw [hf] at hd
        rw [World.queue_of_none hf, World.queue_of_none hd]
        simp
      | some f =>
        rw [hf] at hd
        rw [World.queue_of_eq hf, World.queue_of_eq hd]
    exact ⟨_, hands_over_wake s s2 hs hs' (current.mem, uaddr) _ hn hw
      (fun w => by rw [hqueue]) ho⟩
  | requeue current uaddr wake_max requeue_max requeue_addr ret _ _ hr =>
    by_cases hne : requeue_addr = uaddr
    · subst hne
      obtain ⟨s2, n, q', h1, _, hc, hq1, hperm, hrc, hiff, ho, hn, hw, _, _⟩ :=
        futex_wakelike_requeue_same_spec current requeue_addr wake_max requeue_max s hs _ _
          rfl rfl
      rw [h1] at hr
      simp only [Option.some.injEq, Prod.mk.injEq] at hr
      obtain ⟨_, rfl⟩ := hr
      exact ⟨_, hands_over_wake s s2 hs hs' (current.mem, requeue_addr) _ hn hw
        (fun w => by rw [hq1]; exact hperm.mem_iff) ho⟩
    · exact ⟨_, hands_over_requeue_other current uaddr wake_max requeue_max requeue_addr s hs
        hne ret s' hr⟩

/-- A live wait record that is on no queue stays so, with its back pointer,
for as long as it is live. -/
theorem woken_stays (s : World) (hs : s.wf) (w : Nat) (p : futex_ptr)
    (hm : (w, p) ∈ s.waits) (hoff : ∀ r, w ∉ s.queue_of r) (s' : World)
    (h : run_of_wait w s s') :
    s'.wf ∧ (w, p) ∈ s'.waits ∧ ∀ r, w ∉ s'.queue_of r := by
  induction h with
  | refl => exact ⟨hs, hm, hoff⟩
  | step s1 s2 hrun hstep hlive ih =>
    obtain ⟨hs1, hm1, hoff1⟩ := ih
    have hs2 := wf_step s1 s2 hs1 hstep
    obtain ⟨ns, _, hns, _, hkeep, _⟩ := step_hands_over s1 s2 hs1 hstep
    have hnot : w ∉ ns := by
      intro hw
      obtain ⟨r, hr, hq, _⟩ := hns w hw
      exact hoff1 r hq
    rcases hkeep w p hm1 hnot with hgone | ⟨p', hm2, hiff, hsame⟩
    · exact absurd hlive hgone
    · have hp := hsame (hoff1 p)
      subst hp
      refine ⟨hs2, hm2, ?_⟩
      intro r hr
      have hrp := hs2.queued_once hm2 hr
      subst hrp
      exact hoff1 _ (hiff.1 hr)

/-- C21, as stated, fails: after `ex_task` has blocked in `futex_wait(16, 0)`
and a `futex_wake(16, 1)` has woken it, its wait record is still live (its
`futex_wait` has not returned, its back pointer names the futex, which keeps
its reference) but it is on the queue of no futex. -/
theorem queue_consistency_counterexample :
    reachable ex_enqueued
      ∧ ∃ s', futex_wake ex_task 16 1 ex_enqueued = some (1, s')
        ∧ reachable s'
        ∧ s'.wait_futex 1 = some (ex_task.mem, 16)
        ∧ s'.refcount_of (ex_task.mem, 16) = 1
        ∧ ∀ r, 1 ∉ s'.queue_of r := by
  refine ⟨reachable_ex_enqueued, ?_⟩
  have hwf := reachable_wf _ reachable_ex_enqueued
  obtain ⟨s', h1, _, hd, ho, _, hw, _, _⟩ :=
    futex_wakelike_wake_spec ex_task (FUTEX_WAKE_ : Int) 16 1 0 0 ex_enqueued hwf (by decide)
  have hq : ex_enqueued.queue_of (ex_task.mem, 16) = [1] := by decide
  have hf : ex_enqueued.deref (ex_task.mem, 16)
      = some { refcount := 1, mem := 1000, addr := 16, queue := [1] } := by decide
  rw [hq] at h1
  have h1' : futex_wake ex_task 16 1 ex_enqueued = some (1, s') := h1
  have hmem : (1, (ex_task.mem, 16)) ∈ s'.waits := by
    rw [hw]; decide
  have hs' : reachable s' :=
    reachable.step _ _ reachable_ex_enqueued (futex_step.wake ex_task 16 1 1 _ _ h1')
  have hwf' := reachable_wf _ hs'
  rw [hf] at hd
  refine ⟨s', h1', hs', mem_lookup _ _ _ hwf'.waits_nodup hmem, ?_, ?_⟩
  · rw [World.refcount_of_eq hd]
  · intro r hr
    have := hwf'.queued_once hmem hr
    subst this
    rw [World.queue_of_eq hd] at hr
    simp at hr

/-- C21, amended: in every reachable state the table is well-formed, and every
outstanding wait record `w` with back pointer `p` satisfies: `p` is what
`w.futex` reads and names a futex of the table; `w` is on the queue of no
futex other than `p`, once at most, and no futex record of the table other
than the one with the key of `p` holds it; and `w` is on the queue of `p`, or
it is on no queue at all and a wake has notified it.  Conversely every queued
record is outstanding.  Every step from such a state, notifying the records
`ns`, treats the records as follows.  A record that the step enqueues is on
the queue of its futex.  A queued record stays queued on the futex its back
pointer names, or is one of `ns` and is then on no queue while still
outstanding, or its `futex_wait` has returned.  A record on no queue is not
notified again and stays on no queue, with its back pointer, unless its
`futex_wait` has returned.  Hence a record on no queue stays on no queue in
every later state of a run during which its `futex_wait` does not return. -/
theorem queue_consistency (s : World) (h : reachable s) :
    s.wf
    ∧ (∀ w p, (w, p) ∈ s.waits →
        s.wait_futex w = some p
        ∧ (s.deref p).isSome = true
        ∧ (∀ r, w ∈ s.queue_of r → r = p)
        ∧ (∀ b f, f ∈ s.futex_hash b → w ∈ f.queue → (f.mem, f.addr) = p)
        ∧ (∀ r, (s.queue_of r).count w ≤ 1)
        ∧ (w ∈ s.queue_of p ∨ (w ∈ s.notified ∧ ∀ r, w ∉ s.queue_of r)))
    ∧ (∀ r w, w ∈ s.queue_of r → (w, r) ∈ s.waits)
    ∧ (∀ s', futex_step s s' → ∃ ns, s'.notified = s.notified ++ ns
        ∧ (∀ w p, (w, p) ∈ s'.waits → w ∉ s.waits.map Prod.fst → w ∈ s'.queue_of p)
        ∧ (∀ w p, (w, p) ∈ s.waits → w ∈ s.queue_of p →
            (w ∉ ns ∧ ∃ p', (w, p') ∈ s'.waits ∧ w ∈ s'.queue_of p')
            ∨ (w ∈ ns ∧ (w, p) ∈ s'.waits ∧ ∀ r, w ∉ s'.queue_of r)
            ∨ (w ∉ ns ∧ w ∉ s'.waits.map Prod.fst))
        ∧ (∀ w p, (w, p) ∈ s.waits → w ∉ s.queue_of p →
            w ∉ ns ∧ (((w, p) ∈ s'.waits ∧ ∀ r, w ∉ s'.queue_of r)
              ∨ w ∉ s'.waits.map Prod.fst)))
    ∧ (∀ w p s', (w, p) ∈ s.waits → w ∉ s.queue_of p → run_of_wait w s s' →
        (w, p) ∈ s'.waits ∧ ∀ r, w ∉ s'.queue_of r) := by
  have hs := reachable_wf s h
  have hq := reachable_queued_or_notified s h
  have hoffall : ∀ w p, (w, p) ∈ s.waits → w ∉ s.queue_of p → ∀ r, w ∉ s.queue_of r := by
    intro w p hm hoff r hr
    have hrp := hs.queued_once hm hr
    subst hrp
    exact hoff hr
  refine ⟨hs, ?_, fun r w hw => hs.mem_queue_of hw, ?_, ?_⟩
  · intro w p hw
    refine ⟨mem_lookup _ _ _ hs.waits_nodup hw, hs.waits_live _ hw,
      fun r hr => hs.queued_once hw hr, ?_, ?_, ?_⟩
    · intro b f hf hwf
      exact hs.waits_unique (hs.queue_waits b f hf w hwf) hw
    · intro r
      exact List.nodup_iff_count_le_one.1 (hs.queue_of_nodup r) w
    · by_cases hin : w ∈ s.queue_of p
      · exact Or.inl hin
      · exact Or.inr ⟨(hq _ hw).resolve_left hin, hoffall w p hw hin⟩
  · intro s' hstep
    obtain ⟨ns, hn, hns, hoffq, hkeep, hnew⟩ := step_hands_over s s' hs hstep
    refine ⟨ns, hn, hnew, ?_, ?_⟩
    · intro w p hm hin
      by_cases hw : w ∈ ns
      · obtain ⟨p0, hm0, _, hm1⟩ := hns w hw
        have hp := hs.waits_unique hm0 hm
        subst hp
        exact Or.inr (Or.inl ⟨hw, hm1, hoffq w hw⟩)
      · rcases hkeep w p hm hw with hgone | ⟨p', hm2, hiff, _⟩
        · exact Or.inr (Or.inr ⟨hw, hgone⟩)
        · exact Or.inl ⟨hw, p', hm2, hiff.2 hin⟩
    · intro w p hm hoff
      have hw : w ∉ ns := by
        intro hw
        obtain ⟨p0, _, hq0, _⟩ := hns w hw
        exact hoffall w p hm hoff p0 hq0
      refine ⟨hw, ?_⟩
      rcases hkeep w p hm hw with hgone | ⟨p', hm2, hiff, hsame⟩
      · exact Or.inr hgone
      · have hp := hsame hoff
        subst hp
        have hs' := wf_step s s' hs hstep
        refine Or.inl ⟨hm2, ?_⟩
        intro r hr
        have hrp := hs'.queued_once hm2 hr
        subst hrp
        exact hoff (hiff.1 hr)
  · intro w p s' hm hoff hrun
    exact (woken_stays s hs w p hm (hoffall w p hm hoff) s' hrun).2

/-- The instance of `queue_consistency` for the state in which `ex_task` is
blocked with its wait record 1 on the futex at address 16: the record is on
that queue and on no other, and after every step it is still queued, or the
step has notified it and it is on no queue, or its `futex_wait` has
returned. -/
theorem queue_consistency_witness :
    reachable ex_enqueued
      ∧ (1, (ex_task.mem, 16)) ∈ ex_enqueued.waits
      ∧ ex_enqueued.queue_of (ex_task.mem, 16) = [1]
      ∧ ex_enqueued.wait_futex 1 = some (ex_task.mem, 16)
      ∧ (∀ r, 1 ∈ ex_enqueued.queue_of r → r = (ex_task.mem, 16))
      ∧ (∀ s', futex_step ex_enqueued s' → ∃ ns, s'.notified = ex_enqueued.notified ++ ns
          ∧ ((1 ∉ ns ∧ ∃ p', (1, p') ∈ s'.waits ∧ 1 ∈ s'.queue_of p')
            ∨ (1 ∈ ns ∧ (1, (ex_task.mem, 16)) ∈ s'.waits ∧ ∀ r, 1 ∉ s'.queue_of r)
            ∨ (1 ∉ ns ∧ 1 ∉ s'.waits.map Prod.fst))) :=
  ⟨reachable_ex_enqueued, by decide, by decide,
    ((queue_consistency ex_enqueued reachable_ex_enqueued).2.1 1 (ex_task.mem, 16)
      (by decide)).1,
    ((queue_consistency ex_enqueued reachable_ex_enqueued).2.1 1 (ex_task.mem, 16)
      (by decide)).2.2.1,
    fun s' hstep =>
      match (queue_consistency ex_enqueued reachable_ex_enqueued).2.2.2.1 s' hstep with
      | ⟨ns, hn, _, hq, _⟩ => ⟨ns, hn, hq 1 (ex_task.mem, 16) (by decide) (by decide)⟩⟩

end Ish
